import Mathlib

/-!
# Verification of the deltafs PLFS-IO directory core

Shallow embedding of the PLFS-IO write/read pipeline of
`src/libdeltafs/deltafs_plfsio_internal.cc` and
`src/libdeltafs/deltafs_plfsio_xio.h`, together with the support types
(varints, CRC trailers, block builders, handles, footer) that the spec
describes in §3-§7.  Byte strings are `List Nat` with each byte `< 256`;
32-bit C arithmetic is `Nat` arithmetic taken `% 2^32` where overflow can
occur.  C `assert` statements are embedded as an abort channel
(`Except String`): a failed assertion aborts the computation instead of
returning, mirroring a debug-build `abort()`.
-/

/-- A byte string (each element is a byte value; the embedding keeps them
below 256 wherever the source does). -/
abbrev Bytes := List Nat

/-- `Slice::compare` — memcmp-style lexicographic comparison of byte
strings (shorter string is smaller when one is a proper prefix). -/
def byteCompare : Bytes → Bytes → Ordering
  | [], [] => .eq
  | [], _ :: _ => .lt
  | _ :: _, [] => .gt
  | a :: as, b :: bs =>
    if a < b then .lt else if b < a then .gt else byteCompare as bs

/-- `a < b` on byte strings. -/
def bytesLt (a b : Bytes) : Bool := byteCompare a b == .lt

/-- `a ≤ b` on byte strings. -/
def bytesLe (a b : Bytes) : Bool := !(byteCompare a b == .gt)

/-- The `Status` taxonomy of spec §7 (`pdlfs::Status`).  Each error kind
carries its message. -/
inductive Status where
  | ok : Status
  | notFound : String → Status
  | corruption : String → Status
  | ioError : String → Status
  | invalidArgument : String → Status
  | assertionFailed : String → Status
  | bufferFull : Status
  | alreadyExists : String → Status
deriving DecidableEq, Repr

/-- `Status::ok()`. -/
def Status.isOk : Status → Bool
  | .ok => true
  | _ => false

/-- Embedding of a C `assert`: a failed assertion aborts the computation
(the abort channel of `Except`), as in a debug build. -/
def assertThat (cond : Bool) (msg : String) : Except String Unit :=
  if cond then .ok () else .error msg

/-- Block trailer size: 1 type byte + 4 CRC bytes (spec §3, §6). -/
def kBlockTrailerSize : Nat := 5

/-! ## Fixed-width and varint codecs (spec component C1)

The codecs live in pdlfs-common (`coding.cc`), which is not part of the
snapshot; they are modelled from the spec: little-endian fixed `u32`/`u64`
and LEB128-style varints with 7-bit continuation (§2 C1, §9). -/

/-- Modelled from the spec: `EncodeFixed32` — 4 little-endian bytes. -/
def putFixed32 (n : Nat) : Bytes :=
  [n % 256, n / 256 % 256, n / 65536 % 256, n / 16777216 % 256]

/-- Modelled from the spec: `DecodeFixed32` of the first 4 bytes. -/
def getFixed32 (b : Bytes) : Nat :=
  b.getD 0 0 + b.getD 1 0 * 256 + b.getD 2 0 * 65536 + b.getD 3 0 * 16777216

/-- Modelled from the spec: `EncodeFixed64` — 8 little-endian bytes. -/
def putFixed64 (n : Nat) : Bytes :=
  putFixed32 (n % 4294967296) ++ putFixed32 (n / 4294967296)

/-- Modelled from the spec: `DecodeFixed64` of the first 8 bytes. -/
def getFixed64 (b : Bytes) : Nat :=
  getFixed32 (b.take 4) + getFixed32 (b.drop 4) * 4294967296

/-- Modelled from the spec: varint encoding, 7 bits per byte with a
continuation bit, least-significant group first.  Fuel-structured so the
definition reduces in the kernel; 10 groups cover every `u64`. -/
def putVarintAux : Nat → Nat → Bytes
  | 0, _ => []
  | fuel + 1, n =>
    if n < 128 then [n] else (n % 128 + 128) :: putVarintAux fuel (n / 128)

/-- `PutVarint64` (also used for 32-bit varints). -/
def putVarint (n : Nat) : Bytes := putVarintAux 10 n

/-- `VarintLength` — number of bytes `putVarint` produces. -/
def varintLength (n : Nat) : Nat := (putVarint n).length

/-- Modelled from the spec: varint decoding.  Returns the decoded value and
the remaining input, or `none` on truncated input. -/
def getVarint : Bytes → Option (Nat × Bytes)
  | [] => none
  | b :: bs =>
    if b < 128 then some (b, bs)
    else
      match getVarint bs with
      | some (v, rest) => some ((b % 128) + v * 128, rest)
      | none => none

/-- Modelled from the spec: `PutLengthPrefixedSlice` — varint length then
the raw bytes. -/
def putLengthPrefixedSlice (s : Bytes) : Bytes := putVarint s.length ++ s

/-- Modelled from the spec: `GetLengthPrefixedSlice` — decode a varint
length, then take that many bytes; `none` when truncated. -/
def getLengthPrefixedSlice (b : Bytes) : Option (Bytes × Bytes) :=
  match getVarint b with
  | some (n, rest) => if n ≤ rest.length then some (rest.take n, rest.drop n) else none
  | none => none

/-! ## CRC32C (spec component C2)

The spec keeps CRC internals out of scope and treats `crc32c` as a pure
function (spec §1); it is modelled as the bitwise Castagnoli CRC with the
standard init/final inversion, enough for the write/read round trip.  The
mask function is the one given verbatim in spec §6. -/

/-- One bit step of the reflected CRC32C: shift right, conditionally xor
the reversed Castagnoli polynomial. -/
def crcStep (c : Nat) : Nat :=
  if c % 2 == 1 then (c / 2) ^^^ 0x82F63B78 else c / 2

/-- Fold one byte into a CRC32C state (8 bit steps). -/
def crcByte (c b : Nat) : Nat :=
  crcStep (crcStep (crcStep (crcStep (crcStep (crcStep (crcStep (crcStep (c ^^^ b % 256))))))))

/-- `crc32c::Extend(crc, data)`. -/
def crc32cExtend (crc : Nat) (data : Bytes) : Nat :=
  (data.foldl crcByte (crc ^^^ 0xFFFFFFFF)) ^^^ 0xFFFFFFFF

/-- `crc32c::Value(data)`. -/
def crc32cValue (data : Bytes) : Nat := crc32cExtend 0 data

/-- `crc32c::Mask`: rotate right by 15 and add `0xa282ead8` (spec §6:
`((crc >> 15) | (crc << 17)) + 0xa282ead8` over `u32`).  For `crc < 2^32`
the two OR operands occupy disjoint bit ranges, so the OR is written as
addition: `(crc >> 15) | (crc << 17 mod 2^32) = crc / 2^15 + (crc mod 2^15) * 2^17`. -/
def crcMask (crc : Nat) : Nat :=
  (crc / 32768 + (crc % 32768) * 131072 + 0xa282ead8) % 4294967296

/-- `crc32c::Unmask`: subtract the delta and rotate left by 15 (written with
the same disjoint-range arithmetic as `crcMask`). -/
def crcUnmask (masked : Nat) : Nat :=
  let rot := (masked + 4294967296 - 0xa282ead8) % 4294967296
  rot / 131072 + (rot % 131072) * 32768

/-! ## Hash (pdlfs-common `Hash`)

Modelled from the spec: `Hash(key, seed=0xbc9f1d34)` is "a 32-bit
noncryptographic mixing hash" (spec §4.2) whose implementation lives in
pdlfs-common outside the snapshot; modelled as a concrete 32-bit mixing
fold with that seed.  Every property proved below is independent of the
particular mixing function. -/

/-- Modelled from the spec: the 32-bit mixing hash used by the Bloom
filter, seeded with `0xbc9f1d34`. -/
def bloomHash (key : Bytes) : Nat :=
  key.foldl (fun h b => ((h * 1000003) ^^^ (b % 256)) % 4294967296) 0xbc9f1d34

/-! ## Bloom filter block (spec component C3, source lines 27-116) -/

/-- Probe count: source computes
`k = static_cast<size_t>(bits_per_key * 0.69)` then clamps to `[1, 30]`
(lines 67-69).  For every `size_t` input the double computation followed
by truncation agrees with `⌊bits_per_key * 69 / 100⌋`: below the cap the
two rationals are far from integer boundaries relative to the double
rounding error, and from 44 upward both sides are clamped to 30. -/
def bloomK (bitsPerKey : Nat) : Nat :=
  min 30 (max 1 (bitsPerKey * 69 / 100))

/-- `BloomBlock` state: the byte array `space_` (filter bytes followed by
the probe-count byte), `bits_` and `k_`. -/
structure BloomBlock where
  finished : Bool
  space : Bytes
  bits : Nat
  k : Nat
deriving DecidableEq, Repr

/-- `BloomBlock::BloomBlock(bits_per_key, size)` (lines 62-73): `size`
zero bytes, then the probe count pushed as the final byte; `bits_ = 8 * size`. -/
def BloomBlock.init (bitsPerKey size : Nat) : BloomBlock :=
  { finished := false
    space := List.replicate size 0 ++ [bloomK bitsPerKey]
    bits := 8 * size
    k := bloomK bitsPerKey }

/-- Set bit `bitpos` of the byte array:
`space_[bitpos / 8] |= (1 << (bitpos % 8))` (line 84). -/
def bloomBitSet (space : Bytes) (bitpos : Nat) : Bytes :=
  space.set (bitpos / 8) ((space.getD (bitpos / 8) 0) ||| (1 <<< (bitpos % 8)))

/-- Test bit `bitpos`: `(array[bitpos / 8] & (1 << (bitpos % 8))) != 0`
(line 51). -/
def bloomBitTest (space : Bytes) (bitpos : Nat) : Bool :=
  (space.getD (bitpos / 8) 0) &&& (1 <<< (bitpos % 8)) != 0

/-- The double-hashing probe loop of `BloomBlock::AddKey` (lines 82-86):
set bit `h % bits`, then `h += delta` in `u32` arithmetic, `k` times. -/
def bloomAddLoop : Nat → Nat → Nat → Nat → Bytes → Bytes
  | 0, _, _, _, space => space
  | j + 1, h, delta, bits, space =>
    bloomAddLoop j ((h + delta) % 4294967296) delta bits (bloomBitSet space (h % bits))

/-- `delta = (h >> 17) | (h << 15)` — rotate right 17 bits in `u32`
arithmetic (lines 48, 81). -/
def bloomDelta (h : Nat) : Nat := (h >>> 17) ||| ((h <<< 15) % 4294967296)

/-- `BloomBlock::AddKey` (lines 77-87). -/
def BloomBlock.addKey (b : BloomBlock) (key : Bytes) : BloomBlock :=
  let h := bloomHash key
  { b with space := bloomAddLoop b.k h (bloomDelta h) b.bits b.space }

/-- `BloomBlock::Finish` (lines 89-93): mark finished, return `space_`. -/
def BloomBlock.finishB (b : BloomBlock) : Bytes × BloomBlock :=
  (b.space, { b with finished := true })

/-- `BloomBlock::Finalize` (lines 95-105): append the 5-byte trailer
(type `0`, masked CRC over `contents || type`). -/
def BloomBlock.finalize (b : BloomBlock) : Bytes × BloomBlock :=
  let crc := crc32cExtend (crc32cValue b.space) [0]
  let space := b.space ++ 0 :: putFixed32 (crcMask crc)
  (space, { b with space := space })

/-- The probe loop of `BloomKeyMayMatch` (lines 49-55): test bit
`h % bits` for each of `k` probes, advancing `h += delta` in `u32`
arithmetic; `false` as soon as a probed bit is clear. -/
def bloomTestLoop : Nat → Nat → Nat → Nat → Bytes → Bool
  | 0, _, _, _, _ => true
  | j + 1, h, delta, bits, arr =>
    if bloomBitTest arr (h % bits) then
      bloomTestLoop j ((h + delta) % 4294967296) delta bits arr
    else false

/-- `BloomKeyMayMatch(key, input)` (lines 31-58). -/
def bloomKeyMayMatch (key : Bytes) (input : Bytes) : Bool :=
  let len := input.length
  if len < 2 then true
  else
    let bits := (len - 1) * 8
    let k := input.getD (len - 1) 0
    if k > 30 then true
    else
      let h := bloomHash key
      bloomTestLoop k h (bloomDelta h) bits input

/-! ## Bloom filter lemmas -/

theorem bloomBitTest_eq_testBit (s : Bytes) (p : Nat) :
    bloomBitTest s p = Nat.testBit (s.getD (p / 8) 0) (p % 8) := by
  unfold bloomBitTest
  rw [Nat.one_shiftLeft, Nat.and_two_pow]
  cases h : Nat.testBit (s.getD (p / 8) 0) (p % 8) <;> simp [h]

theorem bloomBitSet_length (s : Bytes) (p : Nat) :
    (bloomBitSet s p).length = s.length := by
  unfold bloomBitSet; exact List.length_set ..

theorem bloomBitSet_getD_ne (s : Bytes) (p : Nat) (i : Nat) (h : p / 8 ≠ i) :
    (bloomBitSet s p).getD i 0 = s.getD i 0 := by
  unfold bloomBitSet
  simp only [List.getD_eq_getElem?_getD, List.getElem?_set_ne h]


theorem bloomBitTest_set_self (s : Bytes) (p : Nat) (h : p / 8 < s.length) :
    bloomBitTest (bloomBitSet s p) p = true := by
  rw [bloomBitTest_eq_testBit]
  have : (bloomBitSet s p).getD (p / 8) 0 = (s.getD (p / 8) 0) ||| (1 <<< (p % 8)) := by
    unfold bloomBitSet
    rw [List.getD_eq_getElem?_getD, List.getElem?_set_eq_of_lt _ h]; rfl
  rw [this, Nat.one_shiftLeft, Nat.testBit_or, Nat.testBit_two_pow_self, Bool.or_true]

theorem bloomBitTest_set_mono (s : Bytes) (p q : Nat) (h : bloomBitTest s p = true) :
    bloomBitTest (bloomBitSet s q) p = true := by
  by_cases hq : q / 8 = p / 8
  · rcases Nat.lt_or_ge (q / 8) s.length with hl | hl
    · rw [bloomBitTest_eq_testBit] at h ⊢
      have : (bloomBitSet s q).getD (p / 8) 0 = (s.getD (q / 8) 0) ||| (1 <<< (q % 8)) := by
        unfold bloomBitSet
        rw [hq, List.getD_eq_getElem?_getD, List.getElem?_set_eq_of_lt _ (hq ▸ hl)]; rfl
      rw [this, Nat.testBit_or, hq, h, Bool.true_or]
    · have : bloomBitSet s q = s := by
        unfold bloomBitSet; exact List.set_eq_of_length_le hl
      rw [this]; exact h
  · rw [bloomBitTest_eq_testBit, bloomBitSet_getD_ne s q _ hq, ← bloomBitTest_eq_testBit]
    exact h

theorem bloomAddLoop_length (j h delta bits : Nat) (s : Bytes) :
    (bloomAddLoop j h delta bits s).length = s.length := by
  induction j generalizing h s with
  | zero => rfl
  | succ j ih => rw [bloomAddLoop, ih, bloomBitSet_length]

theorem bloomAddLoop_mono (j h delta bits p : Nat) (s : Bytes)
    (hp : bloomBitTest s p = true) :
    bloomBitTest (bloomAddLoop j h delta bits s) p = true := by
  induction j generalizing h s with
  | zero => exact hp
  | succ j ih => exact ih _ _ (bloomBitTest_set_mono _ _ _ hp)

theorem bloomAddLoop_getD_high (j h delta bits : Nat) (s : Bytes) (i : Nat)
    (hb : bits ≤ 8 * i) (hbits : 0 < bits) :
    (bloomAddLoop j h delta bits s).getD i 0 = s.getD i 0 := by
  induction j generalizing h s with
  | zero => rfl
  | succ j ih =>
    rw [bloomAddLoop, ih, bloomBitSet_getD_ne]
    intro hcontra
    have h1 : h % bits < bits := Nat.mod_lt _ hbits
    have h2 : h % bits / 8 < i := by
      apply Nat.div_lt_of_lt_mul
      calc h % bits < bits := h1
        _ ≤ 8 * i := hb
    omega

theorem bloomTestLoop_mono (j h delta bits : Nat) (s s' : Bytes)
    (hmono : ∀ p, bloomBitTest s p = true → bloomBitTest s' p = true)
    (ht : bloomTestLoop j h delta bits s = true) :
    bloomTestLoop j h delta bits s' = true := by
  induction j generalizing h with
  | zero => rfl
  | succ j ih =>
    rw [bloomTestLoop] at ht ⊢
    by_cases hbit : bloomBitTest s (h % bits) = true
    · rw [hmono _ hbit]
      rw [hbit] at ht
      simp only [if_true] at ht
      exact ih _ ht
    · rw [Bool.not_eq_true] at hbit
      rw [hbit] at ht
      simp at ht

theorem bloomAddLoop_test (j h delta bits : Nat) (s : Bytes)
    (hbits : 0 < bits) (hlen : bits ≤ 8 * s.length) :
    bloomTestLoop j h delta bits (bloomAddLoop j h delta bits s) = true := by
  induction j generalizing h s with
  | zero => rfl
  | succ j ih =>
    rw [bloomAddLoop, bloomTestLoop]
    have hp8 : h % bits / 8 < s.length := by
      apply Nat.div_lt_of_lt_mul
      calc h % bits < bits := Nat.mod_lt _ hbits
        _ ≤ 8 * s.length := hlen
      
    have hset : bloomBitTest (bloomBitSet s (h % bits)) (h % bits) = true :=
      bloomBitTest_set_self _ _ hp8
    have htest : bloomBitTest
        (bloomAddLoop j ((h + delta) % 4294967296) delta bits (bloomBitSet s (h % bits)))
        (h % bits) = true := bloomAddLoop_mono _ _ _ _ _ _ hset
    rw [htest]
    simp only [if_true]
    exact ih _ _ (by rw [bloomBitSet_length]; exact hlen)

theorem BloomBlock.addKey_bits (b : BloomBlock) (key : Bytes) :
    (b.addKey key).bits = b.bits := rfl

theorem BloomBlock.addKey_k (b : BloomBlock) (key : Bytes) :
    (b.addKey key).k = b.k := rfl

theorem BloomBlock.addKey_space_length (b : BloomBlock) (key : Bytes) :
    (b.addKey key).space.length = b.space.length := by
  simp only [BloomBlock.addKey]
  exact bloomAddLoop_length ..

theorem BloomBlock.addKey_test_mono (b : BloomBlock) (key : Bytes) (p : Nat)
    (h : bloomBitTest b.space p = true) :
    bloomBitTest (b.addKey key).space p = true := by
  simp only [BloomBlock.addKey]
  exact bloomAddLoop_mono _ _ _ _ _ _ h

theorem BloomBlock.addKey_getD_high (b : BloomBlock) (key : Bytes) (i : Nat)
    (hb : b.bits ≤ 8 * i) (hbits : 0 < b.bits) :
    (b.addKey key).space.getD i 0 = b.space.getD i 0 := by
  simp only [BloomBlock.addKey]
  exact bloomAddLoop_getD_high _ _ _ _ _ _ hb hbits

theorem bloom_foldl_bits (keys : List Bytes) (b : BloomBlock) :
    (keys.foldl BloomBlock.addKey b).bits = b.bits := by
  induction keys generalizing b with
  | nil => rfl
  | cons key rest ih => rw [List.foldl_cons, ih, BloomBlock.addKey_bits]

theorem bloom_foldl_k (keys : List Bytes) (b : BloomBlock) :
    (keys.foldl BloomBlock.addKey b).k = b.k := by
  induction keys generalizing b with
  | nil => rfl
  | cons key rest ih => rw [List.foldl_cons, ih, BloomBlock.addKey_k]

theorem bloom_foldl_space_length (keys : List Bytes) (b : BloomBlock) :
    (keys.foldl BloomBlock.addKey b).space.length = b.space.length := by
  induction keys generalizing b with
  | nil => rfl
  | cons key rest ih => rw [List.foldl_cons, ih, BloomBlock.addKey_space_length]

theorem bloom_foldl_test_mono (keys : List Bytes) (b : BloomBlock) (p : Nat)
    (h : bloomBitTest b.space p = true) :
    bloomBitTest (keys.foldl BloomBlock.addKey b).space p = true := by
  induction keys generalizing b with
  | nil => exact h
  | cons key rest ih =>
    rw [List.foldl_cons]
    exact ih _ (BloomBlock.addKey_test_mono _ _ _ h)

theorem bloom_foldl_getD_high (keys : List Bytes) (b : BloomBlock) (i : Nat)
    (hb : b.bits ≤ 8 * i) (hbits : 0 < b.bits) :
    (keys.foldl BloomBlock.addKey b).space.getD i 0 = b.space.getD i 0 := by
  induction keys generalizing b with
  | nil => rfl
  | cons key rest ih =>
    rw [List.foldl_cons, ih _ (by rw [BloomBlock.addKey_bits]; exact hb)
      (by rw [BloomBlock.addKey_bits]; exact hbits)]
    exact BloomBlock.addKey_getD_high _ _ _ hb hbits

theorem bloom_fold_contains (keys : List Bytes) (b : BloomBlock) (key : Bytes)
    (hmem : key ∈ keys) (hbits : 0 < b.bits) (hlen : b.bits ≤ 8 * b.space.length) :
    bloomTestLoop b.k (bloomHash key) (bloomDelta (bloomHash key)) b.bits
      (keys.foldl BloomBlock.addKey b).space = true := by
  induction keys generalizing b with
  | nil => cases hmem
  | cons key0 rest ih =>
    rw [List.foldl_cons]
    rcases List.mem_cons.mp hmem with heq | hrest
    · subst heq
      apply bloomTestLoop_mono _ _ _ _ (b.addKey key).space
      · intro p hp
        exact bloom_foldl_test_mono _ _ _ hp
      · simp only [BloomBlock.addKey]
        exact bloomAddLoop_test _ _ _ _ _ hbits hlen
    · have h1 := ih (b.addKey key0) hrest
        (by rw [BloomBlock.addKey_bits]; exact hbits)
        (by rw [BloomBlock.addKey_bits, BloomBlock.addKey_space_length]; exact hlen)
      rw [BloomBlock.addKey_bits, BloomBlock.addKey_k] at h1
      exact h1

theorem bloomK_le_30 (bitsPerKey : Nat) : bloomK bitsPerKey ≤ 30 :=
  Nat.min_le_left ..

theorem BloomBlock.init_getD_size (bitsPerKey size : Nat) :
    (BloomBlock.init bitsPerKey size).space.getD size 0 = bloomK bitsPerKey := by
  simp [BloomBlock.init, List.getD_eq_getElem?_getD, List.getElem?_append_right,
    List.length_replicate]

/-- C3: for every finite set of keys added to a `BloomBlock` via `AddKey`
and every key among them, `KeyMayMatch` on the finished filter bytes
returns `true` — the Bloom filter has no false negatives. -/
theorem bloom_no_false_negatives (bitsPerKey size : Nat) (keys : List Bytes)
    (key : Bytes) (hmem : key ∈ keys) (hsize : 0 < size) :
    bloomKeyMayMatch key
      ((keys.foldl BloomBlock.addKey (BloomBlock.init bitsPerKey size)).finishB).1 = true := by
  have hb0 : (BloomBlock.init bitsPerKey size).bits = 8 * size := rfl
  have hl0 : (BloomBlock.init bitsPerKey size).space.length = size + 1 := by
    simp [BloomBlock.init]
  have hbits0 : 0 < (BloomBlock.init bitsPerKey size).bits := by rw [hb0]; omega
  have hle0 : (BloomBlock.init bitsPerKey size).bits
      ≤ 8 * (BloomBlock.init bitsPerKey size).space.length := by rw [hb0, hl0]; omega
  have hlen : (keys.foldl BloomBlock.addKey (BloomBlock.init bitsPerKey size)).space.length
      = size + 1 := by rw [bloom_foldl_space_length, hl0]
  have hk : (keys.foldl BloomBlock.addKey (BloomBlock.init bitsPerKey size)).space.getD size 0
      = bloomK bitsPerKey := by
    rw [bloom_foldl_getD_high _ _ _ (le_of_eq hb0) hbits0]
    exact BloomBlock.init_getD_size ..
  have hbitseq : (keys.foldl BloomBlock.addKey (BloomBlock.init bitsPerKey size)).bits
      = 8 * size := by rw [bloom_foldl_bits, hb0]
  have hkeq : (keys.foldl BloomBlock.addKey (BloomBlock.init bitsPerKey size)).k
      = bloomK bitsPerKey := by rw [bloom_foldl_k]; rfl
  have hcore := bloom_fold_contains keys (BloomBlock.init bitsPerKey size) key hmem hbits0 hle0
  rw [hb0] at hcore
  rw [show (BloomBlock.init bitsPerKey size).k = bloomK bitsPerKey from rfl] at hcore
  unfold bloomKeyMayMatch BloomBlock.finishB
  simp only [hlen]
  rw [if_neg (by omega)]
  simp only [Nat.add_sub_cancel, hk]
  rw [if_neg (by have := bloomK_le_30 bitsPerKey; omega)]
  rw [show size * 8 = 8 * size from Nat.mul_comm ..]
  exact hcore

theorem bloom_no_false_negatives_witness :
    [1, 2, 3] ∈ [[9, 9], [1, 2, 3]] ∧ 0 < 8 ∧
    bloomKeyMayMatch [1, 2, 3]
      (([[9, 9], [1, 2, 3]].foldl BloomBlock.addKey (BloomBlock.init 10 8)).finishB).1 = true :=
  ⟨by decide, by decide,
    bloom_no_false_negatives 10 8 [[9, 9], [1, 2, 3]] [1, 2, 3] (by decide) (by decide)⟩

/-! ## C2: the Bloom probe count -/

/-- C2 counterexample: at `bits_per_key = 10` the constructor stores `6`
as the filter's final probe-count byte (`⌊10 * 0.69⌋ = 6`), while the
spec formula `max(1, min(30, round(bits_per_key * ln 2)))` gives
`round(6.93...) = 7`. -/
theorem bloom_k_counterexample :
    (BloomBlock.init 10 8).space.getLast? = some 6 ∧
    max 1 (min 30 (round ((10 : ℝ) * Real.log 2))) = 7 := by
  constructor
  · decide
  · have h1 : (0.6931471803 : ℝ) < Real.log 2 := Real.log_two_gt_d9
    have h2 : Real.log 2 < 0.6931471808 := Real.log_two_lt_d9
    have hr : round ((10 : ℝ) * Real.log 2) = 7 := by
      rw [round_eq]
      have : ⌊(10 : ℝ) * Real.log 2 + 1 / 2⌋ = 7 := by
        apply Int.floor_eq_iff.mpr
        constructor
        · push_cast; nlinarith
        · push_cast; nlinarith
      exact this
    rw [hr]; decide

/-- C2 amended: the probe count stored as the filter's final byte is
`max(1, min(30, ⌊bits_per_key * 69 / 100⌋))` — the truncation of
`bits_per_key * 0.69` (the code's approximation of `ln 2`), not the
rounding of `bits_per_key * ln 2`. -/
theorem bloom_k_stored (bitsPerKey size : Nat) :
    (BloomBlock.init bitsPerKey size).space.getLast? =
      some (max 1 (min 30 (bitsPerKey * 69 / 100))) := by
  have h : bloomK bitsPerKey = max 1 (min 30 (bitsPerKey * 69 / 100)) := by
    unfold bloomK; omega
  simp [BloomBlock.init, List.getLast?_concat, h]

/-! ## Directory options (spec component C10)

`DirOptions` is declared in `deltafs_plfsio_internal.h`, which is not in
the snapshot; modelled from the spec's config-option list (§6).  The
`double block_util` factor in `(0, 1]` is modelled as the rational
`blockUtilNum / blockUtilDen`. -/

/-- Modelled from the spec: the per-directory configuration options (§6). -/
structure DirOptions where
  blockSize : Nat
  blockUtilNum : Nat
  blockUtilDen : Nat
  blockPadding : Bool
  blockBuffer : Nat
  memtableBuffer : Nat
  lgParts : Nat
  uniqueKeys : Bool
  bfBitsPerKey : Nat
  verifyChecksums : Bool
  nonBlocking : Bool
  tailPadding : Bool
  indexBuffer : Nat
  keySize : Nat
  valueSize : Nat
deriving DecidableEq, Repr

/-! ## Log sink (spec component C6, `deltafs_plfsio_xio.h` lines 84-197)

The underlying `WritableFile` comes from the pdlfs `Env` (outside the
snapshot); it is modelled from the spec as in-memory storage with a fault
flag: `Append`/`Flush` fail with `IOError` while the flag is set.
`file_ == NULL` (the state after `Lclose`) is the `closed` flag. -/

/-- `LogSink` state: logic write offset `offset_`, accumulated file
contents, the closed flag (`file_ == NULL`), and the modelled write-fault
flag of the underlying file. -/
structure LogSink where
  closed : Bool
  wfail : Bool
  contents : Bytes
  offset : Nat
deriving DecidableEq, Repr

/-- `LogSink::Ltell` (lines 99-102): the logic write offset. -/
def LogSink.Ltell (s : LogSink) : Nat := s.offset

/-- `LogSink::Lwrite` (lines 114-131): `AssertionFailed` after `Lclose`;
otherwise append + flush, and bump the logic offset by the data size on
success. -/
def LogSink.Lwrite (s : LogSink) (data : Bytes) : Status × LogSink :=
  if s.closed then (Status.assertionFailed "Log already closed", s)
  else if s.wfail then (Status.ioError "append error", s)
  else (Status.ok,
    { s with contents := s.contents ++ data, offset := s.offset + data.length })

/-- `LogSink::Lclose` (line 165): no further writes are accepted. -/
def LogSink.Lclose (s : LogSink) : Status × LogSink :=
  if s.closed then (Status.ok, s)
  else if s.wfail then (Status.ioError "close error", { s with closed := true })
  else (Status.ok, { s with closed := true })

/-- A fresh open sink. -/
def LogSink.fresh : LogSink :=
  { closed := false, wfail := false, contents := [], offset := 0 }

/-- C10: `Lwrite` after `Lclose` returns `AssertionFailed` and leaves the
logic offset unchanged; every successful `Lwrite` advances the offset by
exactly the data size; the offset never decreases. -/
theorem logsink_lwrite_contract (s : LogSink) (data : Bytes) :
    (s.closed = true →
      (s.Lwrite data).1 = Status.assertionFailed "Log already closed" ∧
      (s.Lwrite data).2.Ltell = s.Ltell) ∧
    ((s.Lwrite data).1 = Status.ok →
      (s.Lwrite data).2.Ltell = s.Ltell + data.length) ∧
    s.Ltell ≤ (s.Lwrite data).2.Ltell := by
  unfold LogSink.Lwrite LogSink.Ltell
  by_cases h1 : s.closed <;> by_cases h2 : s.wfail <;> simp [h1, h2]

theorem logsink_lwrite_contract_witness :
    ((({ LogSink.fresh with closed := true }).Lwrite [1, 2]).1
        = Status.assertionFailed "Log already closed" ∧
      (({ LogSink.fresh with closed := true }).Lwrite [1, 2]).2.Ltell
        = ({ LogSink.fresh with closed := true } : LogSink).Ltell) ∧
    (LogSink.fresh.Lwrite [1, 2]).2.Ltell = LogSink.fresh.Ltell + 2 :=
  ⟨(logsink_lwrite_contract { LogSink.fresh with closed := true } [1, 2]).1 rfl,
    (logsink_lwrite_contract LogSink.fresh [1, 2]).2.1 (by decide)⟩

/-! ## Log source and block reading (source lines 849-903) -/

/-- `LogSource`: random-read access to a log.  The read behaviour is a
function field so that failing sources (I/O errors, truncation) are
expressible; `LogSource.ofBytes` is the ordinary in-memory source. -/
structure LogSource where
  sread : Nat → Nat → Status × Bytes
  ssize : Nat

/-- The in-memory source over a byte string: reads return the requested
range, truncated at end of file. -/
def LogSource.ofBytes (b : Bytes) : LogSource :=
  { sread := fun off n => (Status.ok, (b.drop off).take n), ssize := b.length }

/-- `BlockHandle` (spec §3): offset and size of a block on a log. -/
structure BlockHandle where
  offset : Nat
  size : Nat
deriving DecidableEq, Repr

/-- Modelled from the spec: `BlockHandle::EncodeTo` —
`varint(offset) || varint(size)` (§6). -/
def BlockHandle.encodeTo (h : BlockHandle) : Bytes :=
  putVarint h.offset ++ putVarint h.size

/-- Modelled from the spec: `BlockHandle::DecodeFrom`; `none` models a
non-OK decode status. -/
def BlockHandle.decodeFrom (b : Bytes) : Option (BlockHandle × Bytes) :=
  match getVarint b with
  | some (off, rest) =>
    match getVarint rest with
    | some (sz, rest2) => some (⟨off, sz⟩, rest2)
    | none => none
  | none => none

/-- `ReadBlock` (lines 849-903): read `size + 5` bytes at `offset`,
check for truncation, optionally verify the trailer CRC, and return the
payload. -/
def readBlock (src : LogSource) (options : DirOptions) (offset size : Nat)
    (hasChecksums : Bool) : Status × Bytes :=
  let n := size
  let m := if hasChecksums then n + kBlockTrailerSize else n
  let r := src.sread offset m
  if !r.1.isOk then (r.1, [])
  else if r.2.length ≠ m then (Status.corruption "truncated block read", [])
  else if hasChecksums && options.verifyChecksums then
    let crc := crcUnmask (getFixed32 (r.2.drop (n + 1)))
    let actual := crc32cValue (r.2.take (n + 1))
    if actual ≠ crc then (Status.corruption "block checksum mismatch", [])
    else (Status.ok, r.2.take n)
  else (Status.ok, r.2.take n)

/-- `PlfsIoReader` state (lines 1120-1130): options, epoch count from the
footer, the epoch-index block contents, and the two log sources. -/
structure PlfsIoReader where
  options : DirOptions
  numEpoches : Nat
  epochIndex : Bytes
  indexSrc : LogSource
  dataSrc : LogSource

/-- `PlfsIoReader::KeyMayMatch` (lines 956-976): read the filter block
from the index source; on a successful read probe the Bloom filter, on
any non-OK read status treat the key as a possible match. -/
def PlfsIoReader.keyMayMatch (r : PlfsIoReader) (key : Bytes) (filter : BlockHandle) : Bool :=
  let rb := readBlock r.indexSrc r.options filter.offset filter.size true
  if rb.1.isOk then bloomKeyMayMatch key rb.2 else true

/-- C9: if reading a table's filter block fails with any non-OK status,
`PlfsIoReader::KeyMayMatch` returns `true` for every key, so the reader
falls through to scanning the table instead of surfacing the error. -/
theorem keyMayMatch_true_on_read_error (r : PlfsIoReader) (key : Bytes)
    (filter : BlockHandle)
    (h : (readBlock r.indexSrc r.options filter.offset filter.size true).1 ≠ Status.ok) :
    r.keyMayMatch key filter = true := by
  unfold PlfsIoReader.keyMayMatch
  have hok : (readBlock r.indexSrc r.options filter.offset filter.size true).1.isOk = false := by
    cases hs : (readBlock r.indexSrc r.options filter.offset filter.size true).1 <;>
      simp_all [Status.isOk]
  simp [hok]

/-- A source whose every read fails, for the C9 witness. -/
def failingSource : LogSource :=
  { sread := fun _ _ => (Status.ioError "disk error", []), ssize := 0 }

/-- Default options used by concrete runs below. -/
def defaultOptions : DirOptions :=
  { blockSize := 128
    blockUtilNum := 996
    blockUtilDen := 1000
    blockPadding := false
    blockBuffer := 256
    memtableBuffer := 1024
    lgParts := 0
    uniqueKeys := true
    bfBitsPerKey := 10
    verifyChecksums := true
    nonBlocking := false
    tailPadding := false
    indexBuffer := 4096
    keySize := 8
    valueSize := 32 }

theorem keyMayMatch_true_on_read_error_witness :
    ((readBlock failingSource defaultOptions 0 16 true).1 ≠ Status.ok) ∧
    PlfsIoReader.keyMayMatch
      { options := defaultOptions, numEpoches := 0, epochIndex := [],
        indexSrc := failingSource, dataSrc := failingSource } [1, 2] ⟨0, 16⟩ = true :=
  ⟨by decide,
    keyMayMatch_true_on_read_error _ [1, 2] ⟨0, 16⟩ (by decide)⟩

/-! ## Block builder (spec component C4, §4.1)

`BlockBuilder` lives in pdlfs-common outside the snapshot; modelled from
the spec: entries are appended with prefix compression against the
previous key, every `restart_interval`-th entry restarts with
`shared = 0` and records its offset, and finalization appends the
restart-offset array, the restart count, the 5-byte trailer and (for
padded data blocks) trailing zeros.  The `TableLogger` code in the
snapshot writes blocks through a shared `buffer_store()` that accumulates
several finalized blocks between commits, so the builder tracks the
current block's start offset inside that store.  `ReadBlock` (in the
snapshot) reads the trailer at `offset + size`, so padding follows the
trailer. -/

/-- Length of the longest common prefix of two byte strings. -/
def commonPrefixLen : Bytes → Bytes → Nat
  | a :: as, b :: bs => if a == b then commonPrefixLen as bs + 1 else 0
  | _, _ => 0

/-- Concatenate a list of byte strings. -/
def concatBytes (l : List Bytes) : Bytes := l.foldr (fun a b => a ++ b) []

/-- Modelled from the spec: the block builder state (§4.1). -/
structure BlockBuilder where
  restartInterval : Nat
  store : Bytes
  blockStart : Nat
  restarts : List Nat
  counter : Nat
  lastKey : Bytes
  numEntries : Nat
  finished : Bool
deriving DecidableEq, Repr

/-- `BlockBuilder(restart_interval)`. -/
def BlockBuilder.init (interval : Nat) : BlockBuilder :=
  { restartInterval := interval, store := [], blockStart := 0, restarts := [0],
    counter := 0, lastKey := [], numEntries := 0, finished := false }

/-- Raw size of the current (unfinished) block. -/
def BlockBuilder.curSize (b : BlockBuilder) : Nat := b.store.length - b.blockStart

/-- `empty()` — the current block holds no bytes. -/
def BlockBuilder.blockEmpty (b : BlockBuilder) : Bool :=
  b.store.length == b.blockStart

/-- `CurrentSizeEstimate()`: raw bytes plus the restart array and count. -/
def BlockBuilder.currentSizeEstimate (b : BlockBuilder) : Nat :=
  b.curSize + 4 * b.restarts.length + 4

/-- Modelled from the spec: `BlockBuilder::Add` (§4.1) — prefix-compressed
entry `(shared, non_shared, value_len, key suffix, value)`, restarting
every `restart_interval` entries. -/
def BlockBuilder.add (b : BlockBuilder) (key value : Bytes) : BlockBuilder :=
  let shared :=
    if b.counter < b.restartInterval then commonPrefixLen b.lastKey key else 0
  let restarts :=
    if b.counter < b.restartInterval then b.restarts else b.restarts ++ [b.curSize]
  let counter := if b.counter < b.restartInterval then b.counter else 0
  let entry := putVarint shared ++ putVarint (key.length - shared)
      ++ putVarint value.length ++ key.drop shared ++ value
  { b with store := b.store ++ entry, restarts := restarts, counter := counter + 1,
           lastKey := key, numEntries := b.numEntries + 1 }

/-- Modelled from the spec: `BlockBuilder::Finish` — append the restart
array (`u32` LE each) and the restart count; return the block contents. -/
def BlockBuilder.finishBB (b : BlockBuilder) : Bytes × BlockBuilder :=
  let tailBytes := concatBytes (b.restarts.map putFixed32) ++ putFixed32 b.restarts.length
  let store := b.store ++ tailBytes
  (store.drop b.blockStart, { b with store := store, finished := true })

/-- Modelled from the spec: `BlockBuilder::Finalize(pad_to?)` — append the
5-byte trailer (type `0`, masked CRC over `contents || type`) and, for a
padded block, zeros up to the requested total size.  `ReadBlock` in the
snapshot verifies the CRC at `offset + size`, so the trailer directly
follows the contents and padding comes last. -/
def BlockBuilder.finalizeWith (b : BlockBuilder) (padTarget : Option Nat) : Bytes × BlockBuilder :=
  let contents := b.store.drop b.blockStart
  let crc := crc32cExtend (crc32cValue contents) [0]
  let trailer := 0 :: putFixed32 (crcMask crc)
  let padLen :=
    match padTarget with
    | some sz => sz - (contents.length + kBlockTrailerSize)
    | none => 0
  let suffix := trailer ++ List.replicate padLen 0
  (contents ++ suffix, { b with store := b.store ++ suffix })

/-- Modelled from the spec: `BlockBuilder::Reset` — start a new block at
the current end of the buffer store. -/
def BlockBuilder.reset (b : BlockBuilder) : BlockBuilder :=
  { b with blockStart := b.store.length, restarts := [0], counter := 0,
           lastKey := [], numEntries := 0, finished := false }

/-- `buffer_store()->clear()` followed by `SwitchBuffer(NULL)`. -/
def BlockBuilder.clearStore (b : BlockBuilder) : BlockBuilder :=
  { b with store := [], blockStart := 0 }

/-! ## Comparator helpers (pdlfs-common `BytewiseComparator`)

Modelled from the spec (glossary): the shortest byte string `s` with
`start ≤ s < limit` (separator) or `s ≥ key` (successor), computed the
standard way: bump the first diverging/non-0xff byte and truncate. -/

/-- Modelled from the spec: `FindShortestSeparator(start, limit)`. -/
def findShortestSeparator (start limit : Bytes) : Bytes :=
  let d := commonPrefixLen start limit
  if d ≥ min start.length limit.length then start
  else
    let b := start.getD d 0
    if b < 255 && b + 1 < limit.getD d 0 then start.take d ++ [b + 1]
    else start

/-- Helper for `findShortSuccessor`: increment the first non-0xff byte
and truncate; `none` when every byte is 0xff. -/
def findShortSuccessorAux : Bytes → Option Bytes
  | [] => none
  | b :: bs =>
    if b < 255 then some [b + 1]
    else (findShortSuccessorAux bs).map (fun r => b :: r)

/-- Modelled from the spec: `FindShortSuccessor(key)`. -/
def findShortSuccessor (key : Bytes) : Bytes :=
  match findShortSuccessorAux key with
  | some r => r
  | none => key

/-! ## Table handle, footer, epoch keys (spec component C10, §3, §6) -/

/-- `TableHandle` (spec §3): key range, filter block location, index
block location. -/
structure TableHandle where
  smallestKey : Bytes
  largestKey : Bytes
  filterOffset : Nat
  filterSize : Nat
  offset : Nat
  size : Nat
deriving DecidableEq, Repr

/-- Modelled from the spec: `TableHandle::EncodeTo` (§6) —
`len-prefixed smallest || len-prefixed largest || varint(filter_offset) ||
varint(filter_size) || BlockHandle(index)`. -/
def TableHandle.encodeTo (h : TableHandle) : Bytes :=
  putLengthPrefixedSlice h.smallestKey ++ putLengthPrefixedSlice h.largestKey
    ++ putVarint h.filterOffset ++ putVarint h.filterSize
    ++ putVarint h.offset ++ putVarint h.size

/-- Modelled from the spec: `TableHandle::DecodeFrom`; `none` models a
non-OK decode status. -/
def TableHandle.decodeFrom (b : Bytes) : Option (TableHandle × Bytes) :=
  match getLengthPrefixedSlice b with
  | some (smallest, r1) =>
    match getLengthPrefixedSlice r1 with
    | some (largest, r2) =>
      match getVarint r2 with
      | some (foff, r3) =>
        match getVarint r3 with
        | some (fsz, r4) =>
          match getVarint r4 with
          | some (off, r5) =>
            match getVarint r5 with
            | some (sz, r6) => some (⟨smallest, largest, foff, fsz, off, sz⟩, r6)
            | none => none
          | none => none
        | none => none
      | none => none
    | none => none
  | none => none

/-- Modelled from the spec: the build-time footer magic constant. -/
def kFooterMagic : Nat := 0xcafef00ddeadbeef

/-- Maximum encoded length of a `BlockHandle`: two 10-byte varints. -/
def kMaxEncodedHandleLength : Nat := 20

/-- `Footer::kEncodeLength`: padded handle + `u32` epoch count + `u64` magic. -/
def kFooterEncodeLength : Nat := kMaxEncodedHandleLength + 4 + 8

/-- `Footer` (spec §3): epoch-index block handle and epoch count. -/
structure Footer where
  epochIndexHandle : BlockHandle
  numEpoches : Nat
deriving DecidableEq, Repr

/-- Modelled from the spec: `Footer::EncodeTo` (§6) — handle encoding
zero-padded to its maximum length, then `num_epochs` (`u32` LE), then the
magic (`u64` LE). -/
def Footer.encodeTo (f : Footer) : Bytes :=
  let he := f.epochIndexHandle.encodeTo
  he ++ List.replicate (kMaxEncodedHandleLength - he.length) 0
    ++ putFixed32 f.numEpoches ++ putFixed64 kFooterMagic

/-- Modelled from the spec: `Footer::DecodeFrom` — verify the magic, then
decode the handle and the epoch count; `none` models `Corruption`. -/
def Footer.decodeFrom (b : Bytes) : Option Footer :=
  if b.length < kFooterEncodeLength then none
  else if getFixed64 (b.drop (kMaxEncodedHandleLength + 4)) ≠ kFooterMagic then none
  else
    match BlockHandle.decodeFrom b with
    | some (h, _) => some ⟨h, getFixed32 (b.drop kMaxEncodedHandleLength)⟩
    | none => none

/-- Modelled from the spec: the build-time cap on epochs (§3 invariant 3);
the constant lives in the missing `deltafs_plfsio_internal.h`. -/
def kMaxEpoches : Nat := 9999

/-- Modelled from the spec: the build-time cap on tables per epoch. -/
def kMaxTablesPerEpoch : Nat := 9999

/-- Four fixed-width decimal digits (ASCII). -/
def fixedDec4 (n : Nat) : Bytes :=
  [48 + n / 1000 % 10, 48 + n / 100 % 10, 48 + n / 10 % 10, 48 + n % 10]

/-- Modelled from the spec: `EpochKey(e, t)` — a fixed-width printable
encoding ordering lexicographically like `(e, t)` numerically (§3);
4 decimal digits per component (covering the caps), joined by a dash. -/
def epochKey (epoch table : Nat) : Bytes :=
  fixedDec4 epoch ++ [45] ++ fixedDec4 table

/-! ## Table logger (spec component C7, source lines 240-515)

All operations run in `Except String`: `.error` is an aborted C `assert`.
The returned `TableLogger` carries the sticky `status_`. -/

/-- `TableLogger` state (spec §4.5, source lines 240-272). -/
structure TableLogger where
  options : DirOptions
  numUncommittedIndex : Nat
  numUncommittedData : Nat
  dataBlock : BlockBuilder
  indexBlock : BlockBuilder
  metaBlock : BlockBuilder
  uncommittedIndexes : Bytes
  pendingIndexHandle : BlockHandle
  pendingMetaHandle : TableHandle
  pendingIndexEntry : Bool
  pendingMetaEntry : Bool
  smallestKey : Bytes
  largestKey : Bytes
  lastKey : Bytes
  numTables : Nat
  numEpochs : Nat
  dataSink : LogSink
  metaSink : LogSink
  finished : Bool
  status : Status
deriving DecidableEq, Repr

/-- `TableLogger::TableLogger(options, data, index)` (lines 240-272):
data block restart interval 16, index and meta blocks interval 1. -/
def TableLogger.init (options : DirOptions) (data index : LogSink) : TableLogger :=
  { options := options
    numUncommittedIndex := 0
    numUncommittedData := 0
    dataBlock := BlockBuilder.init 16
    indexBlock := BlockBuilder.init 1
    metaBlock := BlockBuilder.init 1
    uncommittedIndexes := []
    pendingIndexHandle := ⟨0, 0⟩
    pendingMetaHandle := ⟨[], [], 0, 0, 0, 0⟩
    pendingIndexEntry := false
    pendingMetaEntry := false
    smallestKey := []
    largestKey := []
    lastKey := []
    numTables := 0
    numEpochs := 0
    dataSink := data
    metaSink := index
    finished := false
    status := Status.ok }

/-- `TableLogger::Flush` (lines 404-430): finalize the data block into
the shared buffer store, record its store-relative offset and raw size as
the pending index handle. -/
def TableLogger.flush (t : TableLogger) : Except String TableLogger :=
  if t.finished then .error "Finish() already called"
  else if t.dataBlock.blockEmpty then .ok t
  else if !t.status.isOk then .ok t
  else
    let fin := t.dataBlock.finishBB
    let size := fin.1.length
    let fl :=
      if t.options.blockPadding then fin.2.finalizeWith (some t.options.blockSize)
      else fin.2.finalizeWith none
    let finalSize := fl.1.length
    let offset := fl.2.store.length - finalSize
    if t.pendingIndexEntry then .error "pending index entry"
    else .ok { t with dataBlock := fl.2.reset,
                      pendingIndexHandle := ⟨offset, size⟩,
                      pendingIndexEntry := true,
                      numUncommittedData := t.numUncommittedData + 1 }

/-- The rebase-and-insert walk of `TableLogger::Commit` (lines 379-394):
parse `(len-prefixed key, handle)` pairs from the uncommitted-indexes
buffer, add the write base to each handle offset and insert into the
index block; the walk stops at the first parse failure.  Fuel-structured
on the input length. -/
def commitIndexesAux : Nat → Bytes → Nat → BlockBuilder → Nat → BlockBuilder × Nat
  | 0, _, _, ib, n => (ib, n)
  | fuel + 1, input, base, ib, n =>
    if input.isEmpty then (ib, n)
    else
      match getLengthPrefixedSlice input with
      | some (key, rest) =>
        match BlockHandle.decodeFrom rest with
        | some (h, rest2) =>
          commitIndexesAux fuel rest2 base
            (ib.add key (BlockHandle.encodeTo ⟨base + h.offset, h.size⟩)) (n + 1)
        | none => (ib, n)
      | none => (ib, n)

/-- `TableLogger::Commit` (lines 369-402): write the buffered data blocks
to the data log in one `Lwrite`, rebase the uncommitted index entries by
the write offset and move them into the index block. -/
def TableLogger.commit (t : TableLogger) : Except String TableLogger :=
  if t.finished then .error "Finish() already called"
  else if t.dataBlock.store.isEmpty then .ok t
  else if !t.status.isOk then .ok t
  else if !(t.numUncommittedData == t.numUncommittedIndex) then
    .error "uncommitted data and index mismatch"
  else
    let offset := t.dataSink.Ltell
    let wr := t.dataSink.Lwrite t.dataBlock.store
    let t1 := { t with dataSink := wr.2, status := wr.1 }
    if !t1.status.isOk then .ok t1
    else
      let walk := commitIndexesAux (t1.uncommittedIndexes.length + 1)
          t1.uncommittedIndexes offset t1.indexBlock 0
      if !(walk.2 == t1.numUncommittedIndex) then .error "uncommitted index mismatch"
      else .ok { t1 with indexBlock := walk.1,
                         numUncommittedData := 0,
                         numUncommittedIndex := 0,
                         uncommittedIndexes := [],
                         dataBlock := t1.dataBlock.clearStore.reset }

/-- `TableLogger::Add` (lines 432-470): order checks, key-range tracking,
pending index entry via the shortest separator, commit on a full block
buffer, append to the data block, flush on reaching the utilization
threshold (`block_size * block_util`, the `double` factor modelled as the
rational `blockUtilNum / blockUtilDen`). -/
def TableLogger.add (t : TableLogger) (key value : Bytes) : Except String TableLogger :=
  if t.finished then .error "Finish() already called"
  else if key.length == 0 then .error "Key cannot be empty"
  else if !t.status.isOk then .ok t
  else if !(t.lastKey.isEmpty || !bytesLt key t.lastKey) then .error "Keys out of order"
  else if t.options.uniqueKeys && !t.lastKey.isEmpty && key == t.lastKey then
    .error "Duplicated keys"
  else
    let t1 := if t.smallestKey.isEmpty then { t with smallestKey := key } else t
    let t2 := { t1 with largestKey := key }
    let t3 :=
      if t2.pendingIndexEntry then
        let sep := findShortestSeparator t2.lastKey key
        { t2 with lastKey := sep,
                  uncommittedIndexes := t2.uncommittedIndexes
                      ++ putLengthPrefixedSlice sep ++ t2.pendingIndexHandle.encodeTo,
                  pendingIndexEntry := false,
                  numUncommittedIndex := t2.numUncommittedIndex + 1 }
      else t2
    match (if t3.dataBlock.store.length ≥ t3.options.blockBuffer
           then t3.commit else .ok t3 : Except String TableLogger) with
    | .error e => .error e
    | .ok t4 =>
      let t5 := { t4 with lastKey := key, dataBlock := t4.dataBlock.add key value }
      if t5.dataBlock.currentSizeEstimate + kBlockTrailerSize ≥
          t5.options.blockSize * t5.options.blockUtilNum / t5.options.blockUtilDen then
        t5.flush
      else .ok t5

/-- The tail of `TableLogger::EndTable` after `Commit` (lines 312-367):
finalize and write the index block, write the filter block, record the
pending meta handle, check the tables-per-epoch cap and insert the meta
entry. -/
def TableLogger.endTableSeal (t3 : TableLogger) (filter : Option BloomBlock) :
    Except String TableLogger :=
  if !t3.status.isOk then .ok t3
  else if t3.indexBlock.blockEmpty then .ok t3
  else
    let fin := t3.indexBlock.finishBB
    let size := fin.1.length
    let fl := fin.2.finalizeWith none
    let offset := t3.metaSink.Ltell
    let wr := t3.metaSink.Lwrite fl.1
    let t4 := { t3 with metaSink := wr.2, status := wr.1, indexBlock := fl.2 }
    if !t4.status.isOk then .ok t4
    else
      let filterOffset := t4.metaSink.Ltell
      match (match filter with
             | some fb =>
               if fb.finished then .error "filter already finished"
               else
                 let ffin := fb.finishB
                 let ffl := ffin.2.finalize
                 let wr2 := t4.metaSink.Lwrite ffl.1
                 .ok (ffin.1.length,
                      { t4 with metaSink := wr2.2, status := wr2.1 })
             | none => .ok (0, t4) :
             Except String (Nat × TableLogger)) with
      | .error e => .error e
      | .ok fres =>
        let filterSize := fres.1
        let t5 := fres.2
        if t5.status.isOk then
          let t6 := { t5 with indexBlock := t5.indexBlock.reset,
                              pendingMetaHandle := { t5.pendingMetaHandle with
                                  filterOffset := filterOffset,
                                  filterSize := filterSize,
                                  offset := offset, size := size } }
          if t6.pendingMetaEntry then .error "pending meta entry"
          else
            let t7 := { t6 with pendingMetaEntry := true }
            let t8 :=
              if t7.numTables ≥ kMaxTablesPerEpoch then
                { t7 with status := Status.assertionFailed "Too many tables" }
              else if t7.pendingMetaEntry then
                let largest := findShortSuccessor t7.largestKey
                let handle := { t7.pendingMetaHandle with
                    smallestKey := t7.smallestKey, largestKey := largest }
                { t7 with largestKey := largest,
                          pendingMetaHandle := handle,
                          metaBlock := t7.metaBlock.add
                              (epochKey t7.numEpochs t7.numTables) handle.encodeTo,
                          pendingMetaEntry := false }
              else t7
            if t8.status.isOk then
              .ok { t8 with smallestKey := [], largestKey := [], lastKey := [],
                            numTables := t8.numTables + 1 }
            else .ok t8
        else .ok t5

/-- `TableLogger::EndTable(filter)` (lines 294-367), instantiated as in
the snapshot at `BloomBlock` (`None` = no filter); the straight-line part
after `Commit` (index-block write, filter write, meta entry, cap check)
is `endTableSeal`. -/
def TableLogger.endTable (t : TableLogger) (filter : Option BloomBlock) :
    Except String TableLogger :=
  if t.finished then .error "Finish() already called"
  else
    match t.flush with
    | .error e => .error e
    | .ok t1 =>
      if !t1.status.isOk then .ok t1
      else
        let t2 :=
          if t1.pendingIndexEntry then
            let succ := findShortSuccessor t1.lastKey
            { t1 with lastKey := succ,
                      uncommittedIndexes := t1.uncommittedIndexes
                          ++ putLengthPrefixedSlice succ ++ t1.pendingIndexHandle.encodeTo,
                      pendingIndexEntry := false,
                      numUncommittedIndex := t1.numUncommittedIndex + 1 }
          else t1
        match t2.commit with
        | .error e => .error e
        | .ok t3 => t3.endTableSeal filter

/-- `TableLogger::EndEpoch` (lines 279-292). -/
def TableLogger.endEpoch (t : TableLogger) : Except String TableLogger :=
  if t.finished then .error "Finish() already called"
  else
    match t.endTable none with
    | .error e => .error e
    | .ok t1 =>
      if !t1.status.isOk then .ok t1
      else if t1.numTables == 0 then .ok t1
      else if t1.numEpochs ≥ kMaxEpoches then
        .ok { t1 with status := Status.assertionFailed "Too many epochs" }
      else .ok { t1 with numTables := 0, numEpochs := t1.numEpochs + 1 }

/-- The straight-line tail of `TableLogger::Finish` after `EndEpoch` and
setting `finished_` (lines 476-515): write the meta block, optional zero
tail padding to an `index_buffer` multiple, then the footer. -/
def TableLogger.finishBody (t : TableLogger) : Except String TableLogger :=
  if !t.status.isOk then .ok t
  else if t.pendingMetaEntry then .error "pending meta entry"
  else
    let fin := t.metaBlock.finishBB
    let size := fin.1.length
    let fl := fin.2.finalizeWith none
    let offset := t.metaSink.Ltell
    let wr := t.metaSink.Lwrite fl.1
    let t1 := { t with metaSink := wr.2, status := wr.1, metaBlock := fl.2 }
    if !t1.status.isOk then .ok t1
    else
      let footer : Footer := ⟨⟨offset, size⟩, t1.numEpochs⟩
      let tail := footer.encodeTo
      let t2 :=
        if t1.options.tailPadding then
          let totalSize := t1.metaSink.Ltell + tail.length
          let overflow := totalSize % t1.options.indexBuffer
          if overflow ≠ 0 then
            let n := t1.options.indexBuffer - overflow
            let wr2 := t1.metaSink.Lwrite (List.replicate n 0)
            { t1 with metaSink := wr2.2, status := wr2.1 }
          else t1
        else t1
      if t2.status.isOk then
        let wr3 := t2.metaSink.Lwrite tail
        .ok { t2 with metaSink := wr3.2, status := wr3.1 }
      else .ok t2

/-- `TableLogger::Finish` (lines 472-515): `EndEpoch`, set `finished_`,
then the meta block, padding and footer writes; the returned status is
the sticky `status_` of the result. -/
def TableLogger.finish (t : TableLogger) : Except String TableLogger :=
  if t.finished then .error "Finish() already called"
  else
    match t.endEpoch with
    | .error e => .error e
    | .ok t1 => TableLogger.finishBody { t1 with finished := true }

/-! ## C5: sticky status -/

theorem TableLogger.flush_stuck (t : TableLogger) (hf : t.finished = false)
    (hst : t.status.isOk = false) : t.flush = .ok t := by
  unfold TableLogger.flush
  simp [assertThat, hf, hst, Bind.bind, Except.bind, Pure.pure, Except.pure]

theorem TableLogger.commit_stuck (t : TableLogger) (hf : t.finished = false)
    (hst : t.status.isOk = false) : t.commit = .ok t := by
  unfold TableLogger.commit
  simp [assertThat, hf, hst, Bind.bind, Except.bind, Pure.pure, Except.pure]

theorem TableLogger.add_stuck (t : TableLogger) (key value : Bytes)
    (hf : t.finished = false) (hk : key.length ≠ 0)
    (hst : t.status.isOk = false) : t.add key value = .ok t := by
  unfold TableLogger.add
  simp [assertThat, hf, hk, hst, Bind.bind, Except.bind, Pure.pure, Except.pure]

theorem TableLogger.endTable_stuck (t : TableLogger) (filter : Option BloomBlock)
    (hf : t.finished = false) (hst : t.status.isOk = false) :
    t.endTable filter = .ok t := by
  unfold TableLogger.endTable
  rw [t.flush_stuck hf hst]
  simp [assertThat, hf, hst, Bind.bind, Except.bind, Pure.pure, Except.pure]

theorem TableLogger.endEpoch_stuck (t : TableLogger) (hf : t.finished = false)
    (hst : t.status.isOk = false) : t.endEpoch = .ok t := by
  unfold TableLogger.endEpoch
  simp [hf, t.endTable_stuck none hf hst, hst]

theorem TableLogger.finish_stuck (t : TableLogger) (hf : t.finished = false)
    (hst : t.status.isOk = false) : t.finish = .ok { t with finished := true } := by
  unfold TableLogger.finish
  simp only [hf, Bool.false_eq_true, if_false, t.endEpoch_stuck hf hst]
  unfold TableLogger.finishBody
  simp [hst]

theorem TableLogger.flush_abort (t : TableLogger) (hf : t.finished = true) :
    t.flush = .error "Finish() already called" := by
  unfold TableLogger.flush
  simp [assertThat, hf, Bind.bind, Except.bind]

theorem TableLogger.commit_abort (t : TableLogger) (hf : t.finished = true) :
    t.commit = .error "Finish() already called" := by
  unfold TableLogger.commit
  simp [assertThat, hf, Bind.bind, Except.bind]

theorem TableLogger.add_abort (t : TableLogger) (key value : Bytes)
    (hf : t.finished = true) : t.add key value = .error "Finish() already called" := by
  unfold TableLogger.add
  simp [assertThat, hf, Bind.bind, Except.bind]

theorem TableLogger.add_abort_emptyKey (t : TableLogger) (value : Bytes)
    (hf : t.finished = false) : t.add [] value = .error "Key cannot be empty" := by
  unfold TableLogger.add
  simp [assertThat, hf, Bind.bind, Except.bind]

theorem TableLogger.endTable_abort (t : TableLogger) (filter : Option BloomBlock)
    (hf : t.finished = true) : t.endTable filter = .error "Finish() already called" := by
  unfold TableLogger.endTable
  simp [assertThat, hf, Bind.bind, Except.bind]

theorem TableLogger.endEpoch_abort (t : TableLogger) (hf : t.finished = true) :
    t.endEpoch = .error "Finish() already called" := by
  unfold TableLogger.endEpoch
  simp [assertThat, hf, Bind.bind, Except.bind]

theorem TableLogger.finish_abort (t : TableLogger) (hf : t.finished = true) :
    t.finish = .error "Finish() already called" := by
  unfold TableLogger.finish
  simp [assertThat, hf, Bind.bind, Except.bind]

/-- The public `TableLogger` operations, as an operation alphabet for
statements that quantify over arbitrary call sequences. -/
inductive TLOp where
  | addOp (key value : Bytes)
  | flushOp
  | commitOp
  | endTableOp (filter : Option BloomBlock)
  | endEpochOp
  | finishOp

/-- Apply one `TableLogger` operation. -/
def TLOp.apply : TLOp → TableLogger → Except String TableLogger
  | .addOp key value, t => t.add key value
  | .flushOp, t => t.flush
  | .commitOp, t => t.commit
  | .endTableOp filter, t => t.endTable filter
  | .endEpochOp, t => t.endEpoch
  | .finishOp, t => t.finish

/-- C5: the `TableLogger` status is sticky — from a state whose status is
non-OK, every operation that returns (rather than tripping a C assert)
returns with the status unchanged (so it never goes back to OK), writes
nothing to either log, and leaves all three block builders untouched. -/
theorem tableLogger_status_sticky (op : TLOp) (t t' : TableLogger)
    (hbad : t.status.isOk = false) (hrun : op.apply t = .ok t') :
    t'.status = t.status ∧ t'.dataSink = t.dataSink ∧ t'.metaSink = t.metaSink ∧
    t'.dataBlock = t.dataBlock ∧ t'.indexBlock = t.indexBlock ∧
    t'.metaBlock = t.metaBlock := by
  cases hf : t.finished with
  | true =>
    exfalso
    cases op <;> simp only [TLOp.apply] at hrun <;>
      [rw [t.add_abort _ _ hf] at hrun; rw [t.flush_abort hf] at hrun;
       rw [t.commit_abort hf] at hrun; rw [t.endTable_abort _ hf] at hrun;
       rw [t.endEpoch_abort hf] at hrun; rw [t.finish_abort hf] at hrun] <;>
      cases hrun
  | false =>
    cases op with
    | addOp key value =>
      cases hk : key with
      | nil =>
        rw [TLOp.apply, hk, t.add_abort_emptyKey value hf] at hrun
        cases hrun
      | cons b bs =>
        rw [TLOp.apply, t.add_stuck key value hf (by rw [hk]; simp) hbad] at hrun
        cases hrun
        exact ⟨rfl, rfl, rfl, rfl, rfl, rfl⟩
    | flushOp =>
      rw [TLOp.apply, t.flush_stuck hf hbad] at hrun
      cases hrun
      exact ⟨rfl, rfl, rfl, rfl, rfl, rfl⟩
    | commitOp =>
      rw [TLOp.apply, t.commit_stuck hf hbad] at hrun
      cases hrun
      exact ⟨rfl, rfl, rfl, rfl, rfl, rfl⟩
    | endTableOp filter =>
      rw [TLOp.apply, t.endTable_stuck filter hf hbad] at hrun
      cases hrun
      exact ⟨rfl, rfl, rfl, rfl, rfl, rfl⟩
    | endEpochOp =>
      rw [TLOp.apply, t.endEpoch_stuck hf hbad] at hrun
      cases hrun
      exact ⟨rfl, rfl, rfl, rfl, rfl, rfl⟩
    | finishOp =>
      rw [TLOp.apply, t.finish_stuck hf hbad] at hrun
      cases hrun
      exact ⟨rfl, rfl, rfl, rfl, rfl, rfl⟩

/-- A stuck `TableLogger` state for the C5 witness. -/
def stuckLogger : TableLogger :=
  { TableLogger.init defaultOptions LogSink.fresh LogSink.fresh with
      status := Status.ioError "data sink failed" }

theorem tableLogger_status_sticky_witness :
    stuckLogger.status.isOk = false ∧
    (TLOp.addOp [97] [49]).apply stuckLogger = .ok stuckLogger ∧
    stuckLogger.status = stuckLogger.status :=
  ⟨by decide, by rfl,
    (tableLogger_status_sticky (.addOp [97] [49]) stuckLogger stuckLogger
      (by decide) (by rfl)).1 ▸ rfl⟩

/-! ## C4: tail padding -/

theorem LogSink.Lwrite_offset_of_isOk (s : LogSink) (data : Bytes)
    (h : ((s.Lwrite data).1).isOk = true) :
    (s.Lwrite data).2.offset = s.offset + data.length := by
  unfold LogSink.Lwrite at *
  by_cases h1 : s.closed <;> by_cases h2 : s.wfail <;> simp_all [Status.isOk]

theorem LogSink.Lwrite_eq_of_not_isOk (s : LogSink) (data : Bytes)
    (h : ((s.Lwrite data).1).isOk = false) :
    (s.Lwrite data).2 = s := by
  unfold LogSink.Lwrite at *
  by_cases h1 : s.closed <;> by_cases h2 : s.wfail <;> simp_all [Status.isOk]

theorem TableLogger.flush_options (t t' : TableLogger) (h : t.flush = .ok t') :
    t'.options = t.options := by
  unfold TableLogger.flush at h
  repeat first | (cases h; rfl) | cases h | split at h | dsimp only [] at h

set_option maxHeartbeats 1000000 in
theorem TableLogger.commit_options (t t' : TableLogger) (h : t.commit = .ok t') :
    t'.options = t.options := by
  unfold TableLogger.commit at h
  repeat first | (cases h; rfl) | cases h | split at h | dsimp only [] at h

set_option maxHeartbeats 1000000 in
theorem TableLogger.endTableSeal_options (t t' : TableLogger) (filter : Option BloomBlock)
    (h : t.endTableSeal filter = .ok t') : t'.options = t.options := by
  unfold TableLogger.endTableSeal at h
  split at h
  · cases h; rfl
  split at h
  · cases h; rfl
  dsimp only [] at h
  split at h
  · cases h; rfl
  split at h
  · cases h
  next fres heq =>
    have hopt : fres.2.options = t.options := by
      split at heq
      · split at heq
        · cases heq
        · cases heq; rfl
      · cases heq; rfl
    split at h
    · split at h
      · cases h
      · split at h
        · cases h
          exact hopt
        · split at h
          · cases h; exact hopt
          · cases h; exact hopt
    · cases h; exact hopt

theorem TableLogger.endTable_options (t t' : TableLogger) (filter : Option BloomBlock)
    (h : t.endTable filter = .ok t') : t'.options = t.options := by
  unfold TableLogger.endTable at h
  split at h
  · cases h
  split at h
  · cases h
  next t1 hflush =>
    have h1 : t1.options = t.options := t.flush_options t1 hflush
    split at h
    · cases h; exact h1
    dsimp only [] at h
    split at h
    · cases h
    next t3 hcommit =>
      have h2 : t3.options = t1.options := by
        have h4 := TableLogger.commit_options _ _ hcommit
        rw [h4]
        split <;> rfl
      exact (TableLogger.endTableSeal_options _ _ _ h).trans (h2.trans h1)

theorem TableLogger.endEpoch_options (t t' : TableLogger) (h : t.endEpoch = .ok t') :
    t'.options = t.options := by
  unfold TableLogger.endEpoch at h
  split at h
  · cases h
  split at h
  · cases h
  next t1 het =>
    have h1 : t1.options = t.options := t.endTable_options t1 none het
    split at h
    · cases h; exact h1
    split at h
    · cases h; exact h1
    split at h
    · cases h; exact h1
    · cases h; exact h1

theorem pad_mod (L TL B : Nat) (hB : 0 < B) :
    (L + (B - (L + TL) % B) + TL) % B = 0 := by
  have hdm : B * ((L + TL) / B) + (L + TL) % B = L + TL := Nat.div_add_mod ..
  have hlt : (L + TL) % B < B := Nat.mod_lt _ hB
  have h3 : L + (B - (L + TL) % B) + TL = B * ((L + TL) / B) + B := by omega
  rw [h3, show B * ((L + TL) / B) + B = B * ((L + TL) / B + 1) by ring, Nat.mul_mod_right]

theorem TableLogger.finishBody_padded (t t' : TableLogger)
    (hpad : t.options.tailPadding = true) (hbuf : 0 < t.options.indexBuffer)
    (hrun : t.finishBody = .ok t') (hok : t'.status = Status.ok) :
    t'.metaSink.Ltell % t.options.indexBuffer = 0 := by
  unfold TableLogger.finishBody at hrun
  split at hrun
  case isTrue hc =>
    cases hrun
    rw [hok] at hc; simp [Status.isOk] at hc
  case isFalse hc1 =>
  split at hrun
  case isTrue hc2 => cases hrun
  case isFalse hc2 =>
  dsimp only [] at hrun
  rw [hpad] at hrun
  set S1 := t.metaSink.Lwrite (t.metaBlock.finishBB.2.finalizeWith none).1 with hS1
  set F := Footer.encodeTo ⟨⟨t.metaSink.Ltell, t.metaBlock.finishBB.1.length⟩, t.numEpochs⟩
    with hF
  split at hrun
  case isTrue hc3 =>
    cases hrun
    have hok2 : S1.1 = Status.ok := hok
    rw [hok2] at hc3; simp [Status.isOk] at hc3
  case isFalse hc3 =>
  simp only [eq_self_iff_true, if_true] at hrun
  split at hrun
  case isTrue hov =>
    split at hrun
    case isTrue hw2 =>
      cases hrun
      have hw2' : (S1.2.Lwrite (List.replicate (t.options.indexBuffer -
          (S1.2.Ltell + F.length) % t.options.indexBuffer) 0)).1.isOk = true := hw2
      have hw3 : ((S1.2.Lwrite (List.replicate (t.options.indexBuffer -
          (S1.2.Ltell + F.length) % t.options.indexBuffer) 0)).2.Lwrite F).1 = Status.ok := hok
      show ((S1.2.Lwrite (List.replicate (t.options.indexBuffer -
          (S1.2.Ltell + F.length) % t.options.indexBuffer) 0)).2.Lwrite F).2.Ltell %
          t.options.indexBuffer = 0
      have e3 := LogSink.Lwrite_offset_of_isOk
        (S1.2.Lwrite (List.replicate (t.options.indexBuffer -
          (S1.2.Ltell + F.length) % t.options.indexBuffer) 0)).2 F (by rw [hw3]; rfl)
      have e2 := LogSink.Lwrite_offset_of_isOk S1.2 (List.replicate (t.options.indexBuffer -
          (S1.2.Ltell + F.length) % t.options.indexBuffer) 0) hw2'
      show ((S1.2.Lwrite (List.replicate (t.options.indexBuffer -
          (S1.2.Ltell + F.length) % t.options.indexBuffer) 0)).2.Lwrite F).2.offset %
          t.options.indexBuffer = 0
      rw [e3, e2, List.length_replicate]
      exact pad_mod S1.2.offset F.length t.options.indexBuffer hbuf
    case isFalse hw2 =>
      cases hrun
      have hok2 : (S1.2.Lwrite (List.replicate (t.options.indexBuffer -
          (S1.2.Ltell + F.length) % t.options.indexBuffer) 0)).1 = Status.ok := hok
      rw [hok2] at hw2; simp [Status.isOk] at hw2
  case isFalse hov =>
    split at hrun
    case isTrue hw =>
      cases hrun
      have hw3 : (S1.2.Lwrite F).1 = Status.ok := hok
      show (S1.2.Lwrite F).2.offset % t.options.indexBuffer = 0
      have e3 := LogSink.Lwrite_offset_of_isOk S1.2 F (by rw [hw3]; rfl)
      rw [e3]
      have hov' : (S1.2.Ltell + F.length) % t.options.indexBuffer = 0 := by
        by_contra hcon
        exact hov hcon
      exact hov'
    case isFalse hw =>
      cases hrun
      have hok2 : S1.1 = Status.ok := hok
      rw [hok2] at hw; simp [Status.isOk] at hw

/-- C4: after `TableLogger::Finish` returns OK with `tail_padding`
enabled (and a nonzero `index_buffer`), the logical index-log offset
after the footer write is an exact multiple of `index_buffer`; the zero
padding is written between the meta block and the footer. -/
theorem tableLogger_finish_tail_padded (t t' : TableLogger)
    (hpad : t.options.tailPadding = true) (hbuf : 0 < t.options.indexBuffer)
    (hrun : t.finish = .ok t') (hok : t'.status = Status.ok) :
    t'.metaSink.Ltell % t.options.indexBuffer = 0 := by
  unfold TableLogger.finish at hrun
  split at hrun
  · cases hrun
  split at hrun
  · cases hrun
  next t1 hee =>
    have hopts : t1.options = t.options := TableLogger.endEpoch_options t t1 hee
    have hres := TableLogger.finishBody_padded { t1 with finished := true } t'
      (by show t1.options.tailPadding = true; rw [hopts]; exact hpad)
      (by show 0 < t1.options.indexBuffer; rw [hopts]; exact hbuf) hrun hok
    show t'.metaSink.Ltell % t.options.indexBuffer = 0
    rw [← hopts]
    exact hres

/-- Options with tail padding enabled, for the C4 witness. -/
def optsPadW : DirOptions :=
  { defaultOptions with tailPadding := true, indexBuffer := 64 }

/-- Extract the state of a successful run (fallback otherwise). -/
def tlOrDefault (e : Except String TableLogger) (d : TableLogger) : TableLogger :=
  match e with
  | .ok t => t
  | .error _ => d

theorem tableLogger_finish_tail_padded_witness :
    ((TableLogger.init optsPadW LogSink.fresh LogSink.fresh).finish = Except.ok
      (tlOrDefault ((TableLogger.init optsPadW LogSink.fresh LogSink.fresh).finish)
        (TableLogger.init optsPadW LogSink.fresh LogSink.fresh))) ∧
    (tlOrDefault ((TableLogger.init optsPadW LogSink.fresh LogSink.fresh).finish)
        (TableLogger.init optsPadW LogSink.fresh LogSink.fresh)).status = Status.ok ∧
    (tlOrDefault ((TableLogger.init optsPadW LogSink.fresh LogSink.fresh).finish)
        (TableLogger.init optsPadW LogSink.fresh LogSink.fresh)).metaSink.Ltell %
      (TableLogger.init optsPadW LogSink.fresh LogSink.fresh).options.indexBuffer = 0 :=
  ⟨by rfl, by rfl,
    tableLogger_finish_tail_padded _ _ (by rfl) (by decide) (by rfl) (by rfl)⟩

theorem tableLogger_endTable_cap (t : TableLogger)
    (h1 : t.status = Status.ok) (h2 : t.finished = false)
    (h3 : t.dataBlock.blockEmpty = true) (h4 : t.dataBlock.store = [])
    (h5 : t.pendingIndexEntry = false) (h6 : t.indexBlock.blockEmpty = false)
    (h7 : t.metaSink.closed = false) (h8 : t.metaSink.wfail = false)
    (h9 : t.pendingMetaEntry = false)
    (hcap : t.numTables ≥ kMaxTablesPerEpoch) :
    t.endTable none = .ok (tlOrDefault (t.endTable none) t) ∧
    (tlOrDefault (t.endTable none) t).status = Status.assertionFailed "Too many tables" ∧
    (tlOrDefault (t.endTable none) t).numTables = t.numTables ∧
    (tlOrDefault (t.endTable none) t).finished = t.finished := by
  have hfl : t.flush = .ok t := by
    unfold TableLogger.flush
    rw [h2]
    simp [h3]
  have hcm : t.commit = .ok t := by
    unfold TableLogger.commit
    rw [h2]
    simp [h4]
  have hok' : t.status.isOk = true := by rw [h1]; rfl
  have hw : (t.metaSink.Lwrite (t.indexBlock.finishBB.2.finalizeWith none).1).1 = Status.ok := by
    unfold LogSink.Lwrite
    simp [h7, h8]
  have hrun : t.endTable none = .ok { t with
      metaSink := (t.metaSink.Lwrite (t.indexBlock.finishBB.2.finalizeWith none).1).2,
      indexBlock := ((t.indexBlock.finishBB.2.finalizeWith none).2).reset,
      pendingMetaHandle := { t.pendingMetaHandle with
          filterOffset := (t.metaSink.Lwrite (t.indexBlock.finishBB.2.finalizeWith none).1).2.Ltell,
          filterSize := 0,
          offset := t.metaSink.Ltell,
          size := t.indexBlock.finishBB.1.length },
      pendingMetaEntry := true,
      status := Status.assertionFailed "Too many tables" } := by
    unfold TableLogger.endTable
    rw [h2, hfl]
    simp only [hok', Bool.not_true, Bool.false_eq_true, if_false, h5]
    rw [hcm]
    unfold TableLogger.endTableSeal
    simp only [hok', Bool.not_true, Bool.false_eq_true, if_false, h6]
    simp only [hw, Status.isOk, Bool.not_true, Bool.false_eq_true, if_false, h9, if_pos hcap]
    simp [h2, h5]
  rw [hrun]
  exact ⟨rfl, rfl, rfl, rfl⟩

theorem tableLogger_endEpoch_cap (u : TableLogger)
    (g1 : u.status = Status.ok) (g2 : u.finished = false)
    (g3 : u.dataBlock.blockEmpty = true) (g4 : u.dataBlock.store = [])
    (g5 : u.pendingIndexEntry = false) (g6 : u.indexBlock.blockEmpty = true)
    (g10 : u.numTables ≠ 0) (gcap : u.numEpochs ≥ kMaxEpoches) :
    u.endEpoch = .ok { u with status := Status.assertionFailed "Too many epochs" } := by
  have hok' : u.status.isOk = true := by rw [g1]; rfl
  have hfl : u.flush = .ok u := by
    unfold TableLogger.flush
    rw [g2]
    simp [g3]
  have hcm : u.commit = .ok u := by
    unfold TableLogger.commit
    rw [g2]
    simp [g4]
  have het : u.endTable none = .ok u := by
    unfold TableLogger.endTable
    rw [g2, hfl]
    simp only [hok', Bool.not_true, Bool.false_eq_true, if_false, g5]
    rw [hcm]
    unfold TableLogger.endTableSeal
    simp only [hok', Bool.not_true, Bool.false_eq_true, if_false, g6, if_true]
  unfold TableLogger.endEpoch
  rw [g2, het]
  simp only [hok', Bool.not_true, Bool.false_eq_true, if_false]
  have h10' : (u.numTables == 0) = false := by
    cases hnt : u.numTables with
    | zero => exact absurd hnt g10
    | succ n => rfl
  simp only [h10', Bool.false_eq_true, if_false, if_pos gcap]
  rw [g2]

/-- C6: with `numTables` already at the per-epoch cap, completing one
more non-empty table leaves the `TableLogger` status `AssertionFailed`
(the table's index block is still written, but no meta entry is added and
`numTables` does not advance), and every subsequent `Add` returns with
that status; likewise, ending one more non-empty epoch with `numEpochs`
at the epoch cap sets `AssertionFailed`. -/
theorem tableLogger_cap_exceeded :
    (∀ t : TableLogger, t.status = Status.ok → t.finished = false →
      t.dataBlock.blockEmpty = true → t.dataBlock.store = [] →
      t.pendingIndexEntry = false → t.indexBlock.blockEmpty = false →
      t.metaSink.closed = false → t.metaSink.wfail = false →
      t.pendingMetaEntry = false → t.numTables ≥ kMaxTablesPerEpoch →
      (t.endTable none = .ok (tlOrDefault (t.endTable none) t) ∧
       (tlOrDefault (t.endTable none) t).status
         = Status.assertionFailed "Too many tables" ∧
       (tlOrDefault (t.endTable none) t).numTables = t.numTables ∧
       ∀ key value : Bytes, key.length ≠ 0 →
         (tlOrDefault (t.endTable none) t).add key value
           = .ok (tlOrDefault (t.endTable none) t))) ∧
    (∀ u : TableLogger, u.status = Status.ok → u.finished = false →
      u.dataBlock.blockEmpty = true → u.dataBlock.store = [] →
      u.pendingIndexEntry = false → u.indexBlock.blockEmpty = true →
      u.numTables ≠ 0 → u.numEpochs ≥ kMaxEpoches →
      u.endEpoch = .ok { u with status := Status.assertionFailed "Too many epochs" }) := by
  constructor
  · intro t h1 h2 h3 h4 h5 h6 h7 h8 h9 hcap
    obtain ⟨e1, e2, e3, e4⟩ := tableLogger_endTable_cap t h1 h2 h3 h4 h5 h6 h7 h8 h9 hcap
    refine ⟨e1, e2, e3, ?_⟩
    intro key value hk
    exact TableLogger.add_stuck _ key value (by rw [e4, h2]) hk (by rw [e2]; rfl)
  · intro u g1 g2 g3 g4 g5 g6 g10 gcap
    exact tableLogger_endEpoch_cap u g1 g2 g3 g4 g5 g6 g10 gcap

/-- A logger state at the tables-per-epoch cap with a non-empty pending
index block, for the C6 witness. -/
def capTablesState : TableLogger :=
  { TableLogger.init defaultOptions LogSink.fresh LogSink.fresh with
      indexBlock := (BlockBuilder.init 1).add [97] [49],
      numTables := kMaxTablesPerEpoch }

/-- A logger state at the epoch cap with a completed table, for the C6
witness. -/
def capEpochsState : TableLogger :=
  { TableLogger.init defaultOptions LogSink.fresh LogSink.fresh with
      numTables := 1, numEpochs := kMaxEpoches }

theorem tableLogger_cap_exceeded_witness :
    (capTablesState.status = Status.ok ∧
      capTablesState.numTables ≥ kMaxTablesPerEpoch ∧
      (tlOrDefault (capTablesState.endTable none) capTablesState).status
        = Status.assertionFailed "Too many tables") ∧
    capEpochsState.endEpoch
      = .ok { capEpochsState with status := Status.assertionFailed "Too many epochs" } :=
  ⟨⟨rfl, by decide,
    (tableLogger_cap_exceeded.1 capTablesState rfl rfl rfl rfl rfl rfl rfl rfl rfl
      (by decide)).2.1⟩,
   tableLogger_cap_exceeded.2 capEpochsState rfl rfl rfl rfl rfl rfl (by decide) (by decide)⟩

/-! ## Write buffer (spec component C5, source lines 118-238) -/

/-- `WriteBuffer` state: the byte arena, the entry offsets, the entry
count and the finished (sorted) flag. -/
structure WriteBuffer where
  buffer : Bytes
  offsets : List Nat
  numEntries : Nat
  finished : Bool
deriving DecidableEq, Repr

/-- An empty write buffer (`Reset` state). -/
def WriteBuffer.initWB : WriteBuffer :=
  { buffer := [], offsets := [], numEntries := 0, finished := false }

/-- `WriteBuffer::Add` (lines 230-238): append length-prefixed key and
value, record the entry's start offset.  The entry asserts are the abort
channel. -/
def WriteBuffer.addWB (w : WriteBuffer) (key value : Bytes) : Except String WriteBuffer :=
  if w.finished then .error "Finish() already called"
  else if key.length == 0 then .error "Key cannot be empty"
  else .ok { w with
    buffer := w.buffer ++ putLengthPrefixedSlice key ++ putLengthPrefixedSlice value,
    offsets := w.offsets ++ [w.buffer.length],
    numEntries := w.numEntries + 1 }

/-- `CurrentBufferSize()`: bytes in the arena. -/
def WriteBuffer.currentBufferSize (w : WriteBuffer) : Nat := w.buffer.length

/-- The key parsed at an arena offset (`STLLessThan::GetKey`, lines 194-205). -/
def keyAtOffset (buffer : Bytes) (off : Nat) : Bytes :=
  match getLengthPrefixedSlice (buffer.drop off) with
  | some (k, _) => k
  | none => []

/-- The `(key, value)` pair parsed at an arena offset (`Iter::key` /
`Iter::value`, lines 137-168). -/
def entryAtOffset (buffer : Bytes) (off : Nat) : Bytes × Bytes :=
  match getLengthPrefixedSlice (buffer.drop off) with
  | some (k, rest) =>
    match getLengthPrefixedSlice rest with
    | some (v, _) => (k, v)
    | none => (k, [])
  | none => ([], [])

/-- Insert an offset into a sorted offset list, ordered by the keys the
offsets point at; equal keys keep their original relative order. -/
def insertByKey (buffer : Bytes) (x : Nat) : List Nat → List Nat
  | [] => [x]
  | y :: ys =>
    if bytesLe (keyAtOffset buffer x) (keyAtOffset buffer y) then x :: y :: ys
    else y :: insertByKey buffer x ys

/-- `std::sort(offsets, STLLessThan(buffer))` of `WriteBuffer::Finish`
(lines 209-216), modelled as a stable insertion sort — one admissible
execution of `std::sort` over the strict order `key(a) < key(b)`. -/
def sortOffsets (buffer : Bytes) (l : List Nat) : List Nat :=
  l.foldr (insertByKey buffer) []

/-- `WriteBuffer::Finish`: sort the offsets by key. -/
def WriteBuffer.finishWB (w : WriteBuffer) : WriteBuffer :=
  { w with offsets := sortOffsets w.buffer w.offsets, finished := true }

/-- The iteration order of `WriteBuffer::NewIterator` after `Finish`. -/
def WriteBuffer.entries (w : WriteBuffer) : List (Bytes × Bytes) :=
  w.offsets.map (entryAtOffset w.buffer)

/-! ## Logger (spec component C8, source lines 517-847)

The logger is modelled under the synchronous scheduling of spec §5: one
producer, and a compaction job that the executor runs to completion at
the point it is scheduled (`MaybeScheduleCompaction` calls `BGWork`
inline).  Condition-variable waits that can never be signalled in this
one-thread model are aborts ("wait" errors), and the `Prepare` loop gets
the two iterations it needs in that model as fuel. -/

/-- `PlfsIoLogger` state (lines 517-586).  `immBuf` is `none` when
`imm_buf_ == NULL`, otherwise it names which of the two buffers the
immutable pointer refers to (`true` = `buf0_`); `memIsBuf0` mirrors
`mem_buf_`. -/
structure PlfsIoLogger where
  options : DirOptions
  tableLogger : TableLogger
  buf0 : WriteBuffer
  buf1 : WriteBuffer
  memIsBuf0 : Bool
  immBuf : Option Bool
  hasBgCompaction : Bool
  pendingEpochFlush : Bool
  pendingFinish : Bool
  immBufIsEpochFlush : Bool
  immBufIsFinish : Bool
  entriesPerTb : Nat
  tbBytes : Nat
  bfBits : Nat
  bfBytes : Nat
deriving DecidableEq, Repr

/-- The sizing computation of the constructor (lines 548-572); the
`double` ceiling is the exact `Nat` ceiling. -/
def PlfsIoLogger.init (options : DirOptions) (data index : LogSink) : PlfsIoLogger :=
  let overheadPerEntry := 4 + varintLength options.keySize + varintLength options.valueSize
  let bytesPerEntry := options.keySize + options.valueSize + overheadPerEntry
  let totalBitsPerEntry := 8 * bytesPerEntry + options.bfBitsPerKey
  let entriesPerTb0 := (8 * options.memtableBuffer + totalBitsPerEntry - 1) / totalBitsPerEntry
  let entriesPerTb1 := entriesPerTb0 / (2 ^ options.lgParts)
  let entriesPerTb := entriesPerTb1 / 2
  let tbBytes := entriesPerTb * bytesPerEntry
  let bfBits0 := entriesPerTb * options.bfBitsPerKey
  let bfBits1 := if 0 < bfBits0 && bfBits0 < 64 then 64 else bfBits0
  let bfBytes := (bfBits1 + 7) / 8
  { options := options
    tableLogger := TableLogger.init options data index
    buf0 := WriteBuffer.initWB
    buf1 := WriteBuffer.initWB
    memIsBuf0 := true
    immBuf := none
    hasBgCompaction := false
    pendingEpochFlush := false
    pendingFinish := false
    immBufIsEpochFlush := false
    immBufIsFinish := false
    entriesPerTb := entriesPerTb
    tbBytes := tbBytes
    bfBits := bfBytes * 8
    bfBytes := bfBytes }

/-- The buffer `mem_buf_` points at. -/
def PlfsIoLogger.memBuf (L : PlfsIoLogger) : WriteBuffer :=
  if L.memIsBuf0 then L.buf0 else L.buf1

/-- Store back through `mem_buf_`. -/
def PlfsIoLogger.setMemBuf (L : PlfsIoLogger) (w : WriteBuffer) : PlfsIoLogger :=
  if L.memIsBuf0 then { L with buf0 := w } else { L with buf1 := w }

/-- The `for (; iter->Valid(); iter->Next())` loop of
`CompactWriteBuffer` (lines 799-812): feed each sorted entry to the
filter and the table logger, stopping at the first non-OK status. -/
def compactLoop : List (Bytes × Bytes) → Option BloomBlock → TableLogger →
    Except String (Option BloomBlock × TableLogger)
  | [], bf, dest => .ok (bf, dest)
  | (k, v) :: rest, bf, dest =>
    let bf := match bf with
      | some b => some (b.addKey k)
      | none => none
    match dest.add k v with
    | .error e => .error e
    | .ok dest1 =>
      if !dest1.status.isOk then .ok (bf, dest1)
      else compactLoop rest bf dest1

/-- `PlfsIoLogger::CompactWriteBuffer` (lines 770-847) under the
synchronous model: build the optional Bloom filter, sort and iterate the
immutable buffer into the table logger, then `EndTable`, and `EndEpoch` /
`Finish` when this compaction was marked as an epoch flush / finish;
finally clear the pending flags that were captured set. -/
def PlfsIoLogger.compactWriteBuffer (L : PlfsIoLogger) : Except String PlfsIoLogger :=
  match L.immBuf with
  | none => .error "imm_buf_ is NULL"
  | some isB0 =>
    let pendingFinish := L.pendingFinish
    let pendingEpochFlush := L.pendingEpochFlush
    let isFinish := L.immBufIsFinish
    let isEpochFlush := L.immBufIsEpochFlush
    let bloom :=
      if L.options.bfBitsPerKey != 0 && L.bfBytes != 0 then
        some (BloomBlock.init L.options.bfBitsPerKey L.bfBytes)
      else none
    let buf := (if isB0 then L.buf0 else L.buf1).finishWB
    match compactLoop buf.entries bloom L.tableLogger with
    | .error e => .error e
    | .ok res =>
      match (if res.2.status.isOk then res.2.endTable res.1 else .ok res.2 :
             Except String TableLogger) with
      | .error e => .error e
      | .ok dest1 =>
        match (if isEpochFlush then dest1.endEpoch else .ok dest1 :
               Except String TableLogger) with
        | .error e => .error e
        | .ok dest2 =>
          match (if isFinish then dest2.finish else .ok dest2 :
                 Except String TableLogger) with
          | .error e => .error e
          | .ok dest3 =>
            .ok { L with
              tableLogger := dest3,
              buf0 := if isB0 then buf else L.buf0,
              buf1 := if isB0 then L.buf1 else buf,
              pendingEpochFlush :=
                if isEpochFlush && pendingEpochFlush then false else L.pendingEpochFlush,
              pendingFinish :=
                if isFinish && pendingFinish then false else L.pendingFinish }

/-- `PlfsIoLogger::DoCompaction` (lines 756-768): compact, reset the
immutable buffer, clear the flags, release `imm_buf_`;
`MaybeScheduleCompaction` then finds nothing to schedule under the
synchronous model. -/
def PlfsIoLogger.doCompaction (L : PlfsIoLogger) : Except String PlfsIoLogger :=
  if !L.hasBgCompaction then .error "has_bg_compaction_ not set"
  else
    match L.immBuf with
    | none => .error "imm_buf_ is NULL"
    | some isB0 =>
      match L.compactWriteBuffer with
      | .error e => .error e
      | .ok L1 =>
        .ok { L1 with
          buf0 := if isB0 then WriteBuffer.initWB else L1.buf0,
          buf1 := if isB0 then L1.buf1 else WriteBuffer.initWB,
          immBufIsEpochFlush := false,
          immBufIsFinish := false,
          immBuf := none,
          hasBgCompaction := false }

/-- `PlfsIoLogger::MaybeScheduleCompaction` (lines 735-748) with the
executor running the scheduled `BGWork` to completion inline. -/
def PlfsIoLogger.maybeScheduleCompaction (L : PlfsIoLogger) : Except String PlfsIoLogger :=
  if L.hasBgCompaction then .ok L
  else
    match L.immBuf with
    | none => .ok L
    | some _ => PlfsIoLogger.doCompaction { L with hasBgCompaction := true }

/-- The `Prepare` loop (lines 696-733).  Fuel-structured: under the
synchronous model two iterations always suffice when `tb_bytes_ > 0`
(after one swap-and-compact the fresh buffer has room); running out of
fuel aborts, standing for the livelock the real code would enter. -/
def PlfsIoLogger.prepareLoop : Nat → Bool → Bool → PlfsIoLogger →
    Except String (Status × PlfsIoLogger)
  | 0, _, _, _ => .error "Prepare loop did not settle (sync-model fuel)"
  | fuel + 1, flush, finish, L =>
    if !L.tableLogger.status.isOk then .ok (L.tableLogger.status, L)
    else if !flush && L.memBuf.currentBufferSize < L.tbBytes then .ok (Status.ok, L)
    else if L.immBuf.isSome then
      if L.options.nonBlocking then .ok (Status.bufferFull, L)
      else .error "bg_cv_ wait with no background thread (sync model)"
    else
      let isB0 := L.memIsBuf0
      let L1 := { L with
        immBuf := some isB0,
        immBufIsEpochFlush := L.immBufIsEpochFlush || flush,
        immBufIsFinish := L.immBufIsFinish || finish }
      match L1.maybeScheduleCompaction with
      | .error e => .error e
      | .ok L2 => PlfsIoLogger.prepareLoop fuel false false { L2 with memIsBuf0 := !isB0 }

/-- `PlfsIoLogger::Prepare(flush, finish)`. -/
def PlfsIoLogger.prepare (L : PlfsIoLogger) (flush finish : Bool) :
    Except String (Status × PlfsIoLogger) :=
  PlfsIoLogger.prepareLoop 2 flush finish L

/-- `PlfsIoLogger::Add` (lines 686-694). -/
def PlfsIoLogger.addL (L : PlfsIoLogger) (key value : Bytes) :
    Except String (Status × PlfsIoLogger) :=
  match L.prepare false false with
  | .error e => .error e
  | .ok res =>
    if res.1.isOk then
      match res.2.memBuf.addWB key value with
      | .error e => .error e
      | .ok w => .ok (res.1, res.2.setMemBuf w)
    else .ok res

/-- `PlfsIoLogger::MakeEpoch(dry_run = false)` (lines 656-684) under the
synchronous model: an in-flight epoch flush or compaction would wait on
the condition variable (abort when blocking); afterwards the pending
flag has always been cleared by the inline compaction. -/
def PlfsIoLogger.makeEpoch (L : PlfsIoLogger) : Except String (Status × PlfsIoLogger) :=
  if L.pendingEpochFlush || L.immBuf.isSome then
    if L.options.nonBlocking then .ok (Status.bufferFull, L)
    else .error "bg_cv_ wait with no background thread (sync model)"
  else
    let L1 := { L with pendingEpochFlush := true }
    match L1.prepare true false with
    | .error e => .error e
    | .ok res =>
      if !res.1.isOk then .ok (res.1, { res.2 with pendingEpochFlush := false })
      else if !res.2.options.nonBlocking then
        if res.2.pendingEpochFlush then
          .error "bg_cv_ wait with no background thread (sync model)"
        else .ok res
      else .ok res

/-- `PlfsIoLogger::Finish(dry_run = false)` (lines 620-651) under the
synchronous model. -/
def PlfsIoLogger.finishL (L : PlfsIoLogger) : Except String (Status × PlfsIoLogger) :=
  if L.pendingFinish || L.pendingEpochFlush || L.immBuf.isSome then
    if L.options.nonBlocking then .ok (Status.bufferFull, L)
    else .error "bg_cv_ wait with no background thread (sync model)"
  else
    let L1 := { L with pendingFinish := true, pendingEpochFlush := true }
    match L1.prepare true true with
    | .error e => .error e
    | .ok res =>
      if !res.1.isOk then
        .ok (res.1, { res.2 with pendingEpochFlush := false, pendingFinish := false })
      else if !res.2.options.nonBlocking then
        if res.2.pendingEpochFlush || res.2.pendingFinish then
          .error "bg_cv_ wait with no background thread (sync model)"
        else .ok res
      else .ok res

/-! ## C7: life after Finish -/

/-- Whether an `Except` result is a normal return. -/
def exceptIsOk {α : Type} (e : Except String α) : Bool :=
  match e with
  | .ok _ => true
  | .error _ => false

/-- Extract a successful logger step (fallback otherwise). -/
def runOrDefault (e : Except String (Status × PlfsIoLogger))
    (d : Status × PlfsIoLogger) : Status × PlfsIoLogger :=
  match e with
  | .ok x => x
  | .error _ => d

theorem compactWriteBuffer_finished_aborts (M : PlfsIoLogger) (b : Bool)
    (h1 : M.tableLogger.finished = true) (h2 : M.tableLogger.status = Status.ok)
    (h5 : M.immBuf = some b)
    (h9 : (if b then M.buf0 else M.buf1).offsets = []) :
    M.compactWriteBuffer = .error "Finish() already called" := by
  unfold PlfsIoLogger.compactWriteBuffer
  rw [h5]
  dsimp only []
  have hents : ((if b then M.buf0 else M.buf1).finishWB).entries = [] := by
    unfold WriteBuffer.finishWB WriteBuffer.entries sortOffsets
    rw [h9]
    rfl
  rw [hents]
  have hok : M.tableLogger.status.isOk = true := by rw [h2]; rfl
  simp only [compactLoop, hok, if_true]
  rw [M.tableLogger.endTable_abort _ h1]

theorem prepare_flush_finished_aborts (L : PlfsIoLogger) (flush finish : Bool)
    (hfl : flush = true)
    (h1 : L.tableLogger.finished = true) (h2 : L.tableLogger.status = Status.ok)
    (h5 : L.immBuf = none) (h6 : L.hasBgCompaction = false)
    (h9 : L.memBuf.offsets = []) :
    L.prepare flush finish = .error "Finish() already called" := by
  have hok : L.tableLogger.status.isOk = true := by rw [h2]; rfl
  unfold PlfsIoLogger.prepare PlfsIoLogger.prepareLoop
  rw [hfl]
  simp only [hok, Bool.not_true, Bool.false_eq_true, if_false, Bool.false_and, h5,
    Option.isSome_none]
  unfold PlfsIoLogger.maybeScheduleCompaction
  simp only [h6, Bool.false_eq_true, if_false]
  unfold PlfsIoLogger.doCompaction
  simp only [Bool.not_true, Bool.false_eq_true, if_false, Bool.or_true]
  rw [compactWriteBuffer_finished_aborts
    { L with immBuf := some L.memIsBuf0, hasBgCompaction := true,
             immBufIsEpochFlush := true,
             immBufIsFinish := L.immBufIsFinish || finish }
    L.memIsBuf0 h1 h2 rfl h9]

theorem makeEpoch_after_finish_aborts (L : PlfsIoLogger)
    (h1 : L.tableLogger.finished = true) (h2 : L.tableLogger.status = Status.ok)
    (h3 : L.pendingEpochFlush = false) (h5 : L.immBuf = none)
    (h6 : L.hasBgCompaction = false) (h9 : L.memBuf.offsets = []) :
    L.makeEpoch = .error "Finish() already called" := by
  unfold PlfsIoLogger.makeEpoch
  simp only [h3, h5, Option.isSome_none, Bool.or_self, Bool.false_eq_true, if_false]
  rw [prepare_flush_finished_aborts { L with pendingEpochFlush := true, immBuf := none }
    true false rfl h1 h2 rfl h6 h9]

theorem finishL_after_finish_aborts (L : PlfsIoLogger)
    (h1 : L.tableLogger.finished = true) (h2 : L.tableLogger.status = Status.ok)
    (h3 : L.pendingEpochFlush = false) (h4 : L.pendingFinish = false)
    (h5 : L.immBuf = none) (h6 : L.hasBgCompaction = false)
    (h9 : L.memBuf.offsets = []) :
    L.finishL = .error "Finish() already called" := by
  unfold PlfsIoLogger.finishL
  simp only [h3, h4, h5, Option.isSome_none, Bool.or_self, Bool.false_eq_true, if_false]
  rw [prepare_flush_finished_aborts
    { L with pendingFinish := true, pendingEpochFlush := true, immBuf := none }
    true true rfl h1 h2 rfl h6 h9]

theorem addL_room_ok (L : PlfsIoLogger) (key value : Bytes)
    (h2 : L.tableLogger.status = Status.ok)
    (h7 : L.memBuf.currentBufferSize < L.tbBytes)
    (h8 : L.memBuf.finished = false) (hk : key.length ≠ 0) :
    ∀ d, (runOrDefault (L.addL key value) d).1 = Status.ok ∧
      exceptIsOk (L.addL key value) = true := by
  have hok : L.tableLogger.status.isOk = true := by rw [h2]; rfl
  have hprep : L.prepare false false = .ok (Status.ok, L) := by
    unfold PlfsIoLogger.prepare PlfsIoLogger.prepareLoop
    simp only [hok, Bool.not_true, Bool.false_eq_true, if_false, Bool.not_false,
      Bool.true_and, h7, decide_True, if_true]
  have hkey : (key.length == 0) = false := by
    cases hl : key.length with
    | zero => exact absurd hl hk
    | succ n => rfl
  intro d
  unfold PlfsIoLogger.addL
  rw [hprep]
  dsimp only []
  rw [show (Status.ok.isOk = true) from rfl]
  unfold WriteBuffer.addWB
  simp only [h8, hkey, Bool.false_eq_true, if_false]
  exact ⟨rfl, rfl⟩

/-- The logger at construction, for the C7 runs. -/
def c7base : PlfsIoLogger := PlfsIoLogger.init defaultOptions LogSink.fresh LogSink.fresh

/-- One entry added. -/
def c7afterAdd : Status × PlfsIoLogger :=
  runOrDefault (c7base.addL [97] [49]) (Status.ioError "aborted", c7base)

/-- The first `Finish`, which succeeds. -/
def c7afterFinish : Status × PlfsIoLogger :=
  runOrDefault (c7afterAdd.2.finishL) (Status.ioError "aborted", c7base)

/-- The directory state after its first successful `Finish`. -/
def c7state : PlfsIoLogger := c7afterFinish.2

/-- C7 counterexample: on a directory whose first `Finish` succeeded, a
subsequent `Add` does not fail — it returns OK, merely buffering the
entry — contradicting "every subsequent Add, MakeEpoch, or Finish call
fails". -/
theorem logger_add_after_finish_returns_ok :
    c7afterAdd.1 = Status.ok ∧
    c7afterFinish.1 = Status.ok ∧
    c7state.tableLogger.finished = true ∧
    exceptIsOk (c7state.addL [98] [50]) = true ∧
    (runOrDefault (c7state.addL [98] [50]) (Status.ioError "aborted", c7base)).1
      = Status.ok :=
  ⟨rfl, rfl, rfl, rfl, rfl⟩

/-- C7 amended: after a first successful `Finish`: every `TableLogger`
operation trips the `!finished_` entry assertion and fails; at the
logger level a second `Finish` and any `MakeEpoch` fail the same way when
their compaction reaches the finished table logger; but an `Add` that
still fits in the write buffer succeeds with OK, silently buffering data
that can never be compacted. -/
theorem logger_after_finish (op : TLOp) (t : TableLogger) (L : PlfsIoLogger)
    (key value : Bytes) (hk : key.length ≠ 0)
    (ht : t.finished = true)
    (h1 : L.tableLogger.finished = true) (h2 : L.tableLogger.status = Status.ok)
    (h3 : L.pendingEpochFlush = false) (h4 : L.pendingFinish = false)
    (h5 : L.immBuf = none) (h6 : L.hasBgCompaction = false)
    (h7 : L.memBuf.currentBufferSize < L.tbBytes) (h8 : L.memBuf.finished = false)
    (h9 : L.memBuf.offsets = []) :
    op.apply t = .error "Finish() already called" ∧
    L.makeEpoch = .error "Finish() already called" ∧
    L.finishL = .error "Finish() already called" ∧
    exceptIsOk (L.addL key value) = true ∧
    (runOrDefault (L.addL key value) (Status.ioError "unused", L)).1 = Status.ok := by
  refine ⟨?_, makeEpoch_after_finish_aborts L h1 h2 h3 h5 h6 h9,
    finishL_after_finish_aborts L h1 h2 h3 h4 h5 h6 h9,
    (addL_room_ok L key value h2 h7 h8 hk (Status.ioError "unused", L)).2,
    (addL_room_ok L key value h2 h7 h8 hk (Status.ioError "unused", L)).1⟩
  cases op with
  | addOp k v => exact t.add_abort k v ht
  | flushOp => exact t.flush_abort ht
  | commitOp => exact t.commit_abort ht
  | endTableOp f => exact t.endTable_abort f ht
  | endEpochOp => exact t.endEpoch_abort ht
  | finishOp => exact t.finish_abort ht

theorem logger_after_finish_witness :
    (1 : Nat) ≠ 0 ∧ c7state.tableLogger.finished = true ∧
    c7state.makeEpoch = .error "Finish() already called" ∧
    exceptIsOk (c7state.addL [98] [50]) = true :=
  ⟨by decide, rfl,
    (logger_after_finish .finishOp c7state.tableLogger c7state [98] [50]
      (by decide) rfl rfl rfl rfl rfl rfl rfl (by decide) rfl rfl).2.1,
    (logger_after_finish .finishOp c7state.tableLogger c7state [98] [50]
      (by decide) rfl rfl rfl rfl rfl rfl rfl (by decide) rfl rfl).2.2.2.1⟩

/-! ## Block reader (spec component C4, §4.1)

The block reader and its iterator live in pdlfs-common outside the
snapshot; modelled from the spec: iterators recover shared prefixes,
support `SeekToFirst`, `Next` and `Seek` (binary search over restart
points, then linear scan within the restart interval), and report
malformed entries as `Corruption`.  Loops are fuel-structured; the fuel
handed in is always strictly larger than the number of entries, so the
exhaustion branches are unreachable and are marked corrupt. -/

/-- Block iterator state: the block contents, the restart-array bounds,
the parse position of the next entry, and the current entry. -/
structure BlockIter where
  contents : Bytes
  restartOffset : Nat
  numRestarts : Nat
  pos : Nat
  key : Bytes
  value : Bytes
  valid : Bool
  corrupt : Bool
deriving DecidableEq, Repr

/-- Construct an iterator over block contents (without trailer): read the
restart count from the last 4 bytes; malformed sizes yield a corrupt
iterator. -/
def blockIterInit (c : Bytes) : BlockIter :=
  if c.length < 4 then
    { contents := c, restartOffset := 0, numRestarts := 0, pos := 0,
      key := [], value := [], valid := false, corrupt := true }
  else
    let num := getFixed32 (c.drop (c.length - 4))
    if 4 * (num + 1) ≤ c.length then
      { contents := c, restartOffset := c.length - 4 - 4 * num, numRestarts := num,
        pos := 0, key := [], value := [], valid := false, corrupt := false }
    else
      { contents := c, restartOffset := 0, numRestarts := 0, pos := 0,
        key := [], value := [], valid := false, corrupt := true }

/-- Parse one prefix-compressed entry at offset `p` (entries end at
`limit`): `(shared, non_shared, value_len, key suffix, value)`; `none` on
a malformed entry (also when `shared` exceeds the previous key, as in the
reader code). -/
def parseEntryAt (c : Bytes) (limit p : Nat) (prevKey : Bytes) :
    Option (Bytes × Bytes × Nat) :=
  if limit ≤ p then none
  else
    let region := (c.take limit).drop p
    match getVarint region with
    | some (shared, r1) =>
      match getVarint r1 with
      | some (nonshared, r2) =>
        match getVarint r2 with
        | some (vallen, r3) =>
          if shared ≤ prevKey.length ∧ nonshared + vallen ≤ r3.length then
            some (prevKey.take shared ++ r3.take nonshared,
                  (r3.drop nonshared).take vallen,
                  p + (region.length - r3.length) + nonshared + vallen)
          else none
        | none => none
      | none => none
    | none => none

/-- `ParseNextKey`: advance to the entry at `pos`; invalid at the restart
array, corrupt on a malformed entry. -/
def BlockIter.stepNext (it : BlockIter) : BlockIter :=
  if it.restartOffset ≤ it.pos then { it with valid := false }
  else
    match parseEntryAt it.contents it.restartOffset it.pos it.key with
    | some (k, v, next) =>
      { it with key := k, value := v, pos := next, valid := true }
    | none => { it with valid := false, corrupt := true }

/-- The `i`-th restart point. -/
def BlockIter.restartPoint (it : BlockIter) (i : Nat) : Nat :=
  getFixed32 (it.contents.drop (it.restartOffset + 4 * i))

/-- `SeekToFirst`: position at restart point 0 and parse. -/
def BlockIter.seekToFirst (it : BlockIter) : BlockIter :=
  ({ it with pos := it.restartPoint 0, key := [], value := [] }).stepNext

/-- The (full) key stored at restart point `i` (restart entries have
`shared = 0`). -/
def BlockIter.keyAtRestart (it : BlockIter) (i : Nat) : Option Bytes :=
  (parseEntryAt it.contents it.restartOffset (it.restartPoint i) []).map (·.1)

/-- The binary search of `Seek` over restart points: find the last
restart point whose key is `< target` (`left`), reporting corruption on a
malformed restart entry. -/
def seekBsearch (it : BlockIter) (target : Bytes) :
    Nat → Nat → Nat → Nat × Bool
  | 0, left, _ => (left, true)
  | fuel + 1, left, right =>
    if left < right then
      let mid := (left + right + 1) / 2
      match it.keyAtRestart mid with
      | some midKey =>
        if bytesLt midKey target then seekBsearch it target fuel mid right
        else seekBsearch it target fuel left (mid - 1)
      | none => (left, true)
    else (left, false)

/-- The linear phase of `Seek`: parse forward until `key ≥ target`. -/
def seekLinear : Nat → BlockIter → Bytes → BlockIter
  | 0, it, _ => { it with valid := false, corrupt := true }
  | fuel + 1, it, target =>
    let it1 := it.stepNext
    if !it1.valid then it1
    else if !bytesLt it1.key target then it1
    else seekLinear fuel it1 target

/-- `Seek(target)`: binary search over restart points, then linear scan. -/
def BlockIter.seek (it : BlockIter) (target : Bytes) : BlockIter :=
  if it.numRestarts == 0 then { it with valid := false, corrupt := true }
  else
    let bs := seekBsearch it target (it.numRestarts + 1) 0 (it.numRestarts - 1)
    if bs.2 then { it with valid := false, corrupt := true }
    else
      seekLinear (it.restartOffset + 1)
        { it with pos := it.restartPoint bs.1, key := [], value := [] } target

/-- `Iterator::status()` of the block iterator. -/
def BlockIter.statusBI (it : BlockIter) : Status :=
  if it.corrupt then Status.corruption "bad entry in block" else Status.ok

/-! ## Reader lookup pipeline (source lines 909-1118) -/

/-- The `while (... key.compare(iter->key()) > 0) iter->Next()` skip loop
used on the non-unique path (lines 930-934, 1015-1018). -/
def skipLess : Nat → BlockIter → Bytes → BlockIter
  | 0, it, _ => { it with valid := false, corrupt := true }
  | fuel + 1, it, key =>
    if it.valid && bytesLt it.key key then skipLess fuel it.stepNext key
    else it

/-- The gather loop of the data-block `Get` (lines 936-947): append the
value of every entry equal to `key` to `dst`; a differing key, or the
first match under `unique_keys`, sets `eok`. -/
def gatherLoop (unique : Bool) : Nat → BlockIter → Bytes → Bytes → Bool → Bool →
    Bytes × Bool × Bool × BlockIter
  | 0, it, _, dst, found, eok => (dst, found, eok, { it with corrupt := true })
  | fuel + 1, it, key, dst, found, eok =>
    if !eok && it.valid then
      if it.key == key then
        gatherLoop unique fuel it.stepNext key (dst ++ it.value) true
          (if unique then true else eok)
      else
        gatherLoop unique fuel it.stepNext key dst found true
    else (dst, found, eok, it)

/-- `PlfsIoReader::Get(key, BlockHandle, saver, arg, eok)` (lines
909-954) with `SaveValue` (lines 1046-1050) inlined: returns the status,
the grown `dst`, the `found` flag and `eok`. -/
def PlfsIoReader.dataBlockGet (r : PlfsIoReader) (key : Bytes) (handle : BlockHandle)
    (dst : Bytes) : Status × Bytes × Bool × Bool :=
  let rb := readBlock r.dataSrc r.options handle.offset handle.size true
  if !rb.1.isOk then (rb.1, dst, false, false)
  else
    let it0 := blockIterInit rb.2
    let it1 :=
      if r.options.uniqueKeys then it0.seek key
      else skipLess (rb.2.length + 1) it0.seekToFirst key
    let res := gatherLoop r.options.uniqueKeys (rb.2.length + 1) it1 key dst false false
    (res.2.2.2.statusBI, res.1, res.2.1, res.2.2.1)

/-- The index-entry loop of the table-level `Get` (lines 1020-1029):
decode each data-block handle and run the data-block `Get` until `eok`. -/
def tableLoop (r : PlfsIoReader) (key : Bytes) : Nat → BlockIter → Bytes → Bool →
    Bool → Status → Status × Bytes × Bool × BlockIter
  | 0, it, dst, found, eok, _ => (Status.corruption "loop fuel", dst, found, { it with corrupt := true })
  | fuel + 1, it, dst, found, eok, status =>
    if status.isOk && !eok && it.valid then
      match BlockHandle.decodeFrom it.value with
      | some (h, _) =>
        let res := r.dataBlockGet key h dst
        tableLoop r key fuel it.stepNext res.2.1 (found || res.2.2.1) res.2.2.2 res.1
      | none =>
        tableLoop r key fuel it.stepNext dst found eok
          (Status.corruption "bad block handle")
    else (status, dst, found, it)

/-- `PlfsIoReader::Get(key, TableHandle, saver, arg)` (lines 981-1038):
key-range check, Bloom filter check, then scan the table's index block
and its data blocks; returns the status, the grown `dst` and the
table-level `found` flag. -/
def PlfsIoReader.tableGet (r : PlfsIoReader) (key : Bytes) (th : TableHandle)
    (dst : Bytes) : Status × Bytes × Bool :=
  if bytesLt key th.smallestKey || bytesLt th.largestKey key then (Status.ok, dst, false)
  else if th.filterSize != 0 && !(r.keyMayMatch key ⟨th.filterOffset, th.filterSize⟩) then
    (Status.ok, dst, false)
  else
    let rb := readBlock r.indexSrc r.options th.offset th.size true
    if !rb.1.isOk then (rb.1, dst, false)
    else
      let it0 := blockIterInit rb.2
      let it1 :=
        if r.options.uniqueKeys then it0.seek key
        else skipLess (rb.2.length + 1) it0.seekToFirst key
      let res := tableLoop r key (rb.2.length + 1) it1 dst false false Status.ok
      let st := if res.1.isOk then res.2.2.2.statusBI else res.1
      (st, res.2.1, res.2.2.1)

/-- The `step` computation of the epoch loop (lines 1068-1078): position
the iterator at the entry `ekey`, preferring the current position. -/
def epochStep (it : BlockIter) (ekey : Bytes) : BlockIter × Bool :=
  if !it.valid || it.key != ekey then
    let it2 := it.seek ekey
    if !it2.valid then (it2, false)
    else if it2.key != ekey then (it2, false)
    else (it2, true)
  else (it, true)

/-- The table loop of the epoch-level `Get` (lines 1064-1091): seek the
epoch iterator to `EpochKey(epoch, table)`, decode the table handle, run
the table-level `Get`, and continue with the next table of the epoch;
stop at the first missing table key (the end of the epoch), at an error,
or — under `unique_keys` — at the first table where the key was found. -/
def epochLoop (r : PlfsIoReader) (key : Bytes) (epoch : Nat) :
    Nat → BlockIter → Nat → Bytes → Status → Status × Bytes × BlockIter
  | 0, it, _, dst, _ => (Status.corruption "loop fuel", dst, { it with corrupt := true })
  | fuel + 1, it, table, dst, status =>
    if status.isOk then
      let step := epochStep it (epochKey epoch table)
      if !step.2 then (status, dst, step.1)
      else
        let it3 := step.1
        match TableHandle.decodeFrom it3.value with
        | none =>
          epochLoop r key epoch fuel it3.stepNext (table + 1) dst
            (Status.corruption "bad table handle")
        | some (th, _) =>
          let res := r.tableGet key th dst
          if res.1.isOk && res.2.2 && r.options.uniqueKeys then (res.1, res.2.1, it3)
          else epochLoop r key epoch fuel it3.stepNext (table + 1) res.2.1 res.1
    else (status, dst, it)

/-- `PlfsIoReader::Get(key, epoch, dst)` (lines 1057-1098). -/
def PlfsIoReader.getEpoch (r : PlfsIoReader) (key : Bytes) (epoch : Nat)
    (it : BlockIter) (dst : Bytes) : Status × Bytes × BlockIter :=
  let res := epochLoop r key epoch (r.epochIndex.length + 1) it 0 dst Status.ok
  let st := if res.1.isOk then res.2.2.statusBI else res.1
  (st, res.2.1, res.2.2)

/-- The epoch loop of `Gets` (lines 1106-1114). -/
def getsLoop (r : PlfsIoReader) (key : Bytes) :
    Nat → Nat → BlockIter → Bytes → Status → Status × Bytes × BlockIter
  | 0, _, it, dst, _ => (Status.corruption "loop fuel", dst, it)
  | fuel + 1, epoch, it, dst, status =>
    if status.isOk then
      let res := r.getEpoch key epoch it dst
      if epoch < r.numEpoches - 1 then
        getsLoop r key fuel (epoch + 1) res.2.2 res.2.1 res.1
      else res
    else (status, dst, it)

/-- `PlfsIoReader::Gets(key, dst)` (lines 1100-1118): nothing to do when
`num_epoches == 0`; otherwise create the epoch iterator and fold `Get`
over the epochs from 0 upward. -/
def PlfsIoReader.gets (r : PlfsIoReader) (key : Bytes) (dst : Bytes) : Status × Bytes :=
  if r.numEpoches == 0 then (Status.ok, dst)
  else
    let it := blockIterInit r.epochIndex
    let res := getsLoop r key (r.numEpoches + 1) 0 it dst Status.ok
    (res.1, res.2.1)

/-- `PlfsIoReader::Open` (lines 1139-1189): read and decode the trailing
footer, then load the epoch-index block. -/
def PlfsIoReader.openR (options : DirOptions) (data index : LogSource) :
    Status × Option PlfsIoReader :=
  if index.ssize < kFooterEncodeLength then
    (Status.corruption "index too short to be valid", none)
  else
    let rd := index.sread (index.ssize - kFooterEncodeLength) kFooterEncodeLength
    if !rd.1.isOk then (rd.1, none)
    else
      match Footer.decodeFrom rd.2 with
      | none => (Status.corruption "bad footer", none)
      | some footer =>
        let rb := readBlock index options footer.epochIndexHandle.offset
          footer.epochIndexHandle.size true
        if !rb.1.isOk then (rb.1, none)
        else
          (Status.ok, some
            { options := options, numEpoches := footer.numEpoches,
              epochIndex := rb.2, indexSrc := index, dataSrc := data })

/-! ## Primitive codec roundtrips (toward the C1 pipeline) -/

theorem putFixed32_length (n : Nat) : (putFixed32 n).length = 4 := rfl

theorem getFixed32_put (n : Nat) (rest : Bytes) (h : n < 4294967296) :
    getFixed32 (putFixed32 n ++ rest) = n := by
  simp [putFixed32, getFixed32]
  omega

theorem getFixed64_put (n : Nat) (rest : Bytes) (h : n < 18446744073709551616) :
    getFixed64 (putFixed64 n ++ rest) = n := by
  simp [putFixed64, putFixed32, getFixed64, getFixed32]
  omega

theorem getVarint_putVarintAux : ∀ (fuel n : Nat) (rest : Bytes), n < 2 ^ (7 * fuel) →
    getVarint (putVarintAux (fuel + 1) n ++ rest) = some (n, rest) := by
  intro fuel
  induction fuel with
  | zero =>
    intro n rest h
    have h0 : n = 0 := by simpa using h
    subst h0
    simp [putVarintAux, getVarint]
  | succ f ih =>
    intro n rest h
    by_cases hn : n < 128
    · simp [putVarintAux, getVarint, hn]
    · have hb : ¬ (n % 128 + 128 < 128) := by omega
      have hd : n / 128 < 2 ^ (7 * f) := by
        have h7 : 7 * (f + 1) = 7 * f + 7 := by ring
        rw [h7, pow_add] at h
        omega
      have hstep : putVarintAux (f + 1 + 1) n = (n % 128 + 128) :: putVarintAux (f + 1) (n / 128) := by
        rw [putVarintAux]
        simp [hn]
      rw [hstep, List.cons_append]
      simp only [getVarint, if_neg hb, ih (n / 128) rest hd]
      have : n % 128 + 128 < 256 := by omega
      have heq : (n % 128 + 128) % 128 + n / 128 * 128 = n := by omega
      rw [heq]

theorem getVarint_putVarint (n : Nat) (rest : Bytes) (h : n < 2 ^ 63) :
    getVarint (putVarint n ++ rest) = some (n, rest) :=
  getVarint_putVarintAux 9 n rest (by norm_num at h ⊢; omega)

theorem putVarintAux_length_le : ∀ (fuel n : Nat), (putVarintAux fuel n).length ≤ fuel := by
  intro fuel
  induction fuel with
  | zero => intro n; simp [putVarintAux]
  | succ f ih =>
    intro n
    rw [putVarintAux]
    split
    · simp
    · simpa using ih (n / 128)

theorem putVarint_length_le (n : Nat) : (putVarint n).length ≤ 10 :=
  putVarintAux_length_le 10 n

theorem getLengthPrefixedSlice_put (s rest : Bytes) (h : s.length < 2 ^ 63) :
    getLengthPrefixedSlice (putLengthPrefixedSlice s ++ rest) = some (s, rest) := by
  unfold putLengthPrefixedSlice getLengthPrefixedSlice
  rw [List.append_assoc, getVarint_putVarint _ _ h]
  simp [List.take_left, List.drop_left]

theorem blockHandle_roundtrip (h : BlockHandle) (rest : Bytes)
    (ho : h.offset < 2 ^ 63) (hs : h.size < 2 ^ 63) :
    BlockHandle.decodeFrom (h.encodeTo ++ rest) = some (h, rest) := by
  obtain ⟨off, sz⟩ := h
  dsimp only at ho hs ⊢
  unfold BlockHandle.encodeTo BlockHandle.decodeFrom
  dsimp only
  rw [List.append_assoc]
  simp only [getVarint_putVarint _ _ ho, getVarint_putVarint _ _ hs]

theorem tableHandle_roundtrip (h : TableHandle) (rest : Bytes)
    (hsm : h.smallestKey.length < 2 ^ 63) (hlg : h.largestKey.length < 2 ^ 63)
    (hfo : h.filterOffset < 2 ^ 63) (hfs : h.filterSize < 2 ^ 63)
    (ho : h.offset < 2 ^ 63) (hs : h.size < 2 ^ 63) :
    TableHandle.decodeFrom (h.encodeTo ++ rest) = some (h, rest) := by
  obtain ⟨sm, lg, fo, fs, off, sz⟩ := h
  dsimp only at hsm hlg hfo hfs ho hs ⊢
  unfold TableHandle.encodeTo TableHandle.decodeFrom
  dsimp only
  simp only [List.append_assoc]
  simp only [getLengthPrefixedSlice_put _ _ hsm, getLengthPrefixedSlice_put _ _ hlg,
      getVarint_putVarint _ _ hfo, getVarint_putVarint _ _ hfs,
      getVarint_putVarint _ _ ho, getVarint_putVarint _ _ hs]

/-! ## CRC32C facts -/

theorem crcStep_lt (c : Nat) (h : c < 4294967296) : crcStep c < 4294967296 := by
  unfold crcStep
  split
  · have h1 : c / 2 < 2 ^ 32 := by omega
    have h2 : (0x82F63B78 : Nat) < 2 ^ 32 := by norm_num
    have := Nat.xor_lt_two_pow h1 h2
    simpa using this
  · omega

theorem crcByte_lt (c b : Nat) (h : c < 4294967296) : crcByte c b < 4294967296 := by
  unfold crcByte
  have h0 : c ^^^ b % 256 < 4294967296 := by
    have h1 : c < 2 ^ 32 := by omega
    have h2 : b % 256 < 2 ^ 32 := by omega
    have := Nat.xor_lt_two_pow h1 h2
    simpa using this
  exact crcStep_lt _ (crcStep_lt _ (crcStep_lt _ (crcStep_lt _ (crcStep_lt _
    (crcStep_lt _ (crcStep_lt _ (crcStep_lt _ h0)))))))

theorem crc_foldl_lt (data : Bytes) : ∀ (c : Nat), c < 4294967296 →
    data.foldl crcByte c < 4294967296 := by
  induction data with
  | nil => intro c h; simpa using h
  | cons b bs ih =>
    intro c h
    simpa using ih (crcByte c b) (crcByte_lt c b h)

theorem crc32cExtend_lt (crc : Nat) (data : Bytes) (h : crc < 4294967296) :
    crc32cExtend crc data < 4294967296 := by
  unfold crc32cExtend
  have h1 : crc ^^^ 0xFFFFFFFF < 4294967296 := by
    have ha : crc < 2 ^ 32 := by omega
    have hb : (0xFFFFFFFF : Nat) < 2 ^ 32 := by norm_num
    have := Nat.xor_lt_two_pow ha hb
    simpa using this
  have h2 := crc_foldl_lt data _ h1
  have h3 : data.foldl crcByte (crc ^^^ 0xFFFFFFFF) < 2 ^ 32 := by omega
  have hb : (0xFFFFFFFF : Nat) < 2 ^ 32 := by norm_num
  have := Nat.xor_lt_two_pow h3 hb
  simpa using this

theorem crc32cValue_lt (data : Bytes) : crc32cValue data < 4294967296 :=
  crc32cExtend_lt 0 data (by norm_num)

theorem crcUnmask_mask (c : Nat) (h : c < 4294967296) : crcUnmask (crcMask c) = c := by
  simp only [crcMask, crcUnmask]
  have h1 : c / 32768 + c % 32768 * 131072 < 4294967296 := by omega
  have h2 : ((c / 32768 + c % 32768 * 131072 + 2726488792) % 4294967296 + 4294967296 -
      2726488792) % 4294967296 = c / 32768 + c % 32768 * 131072 := by omega
  rw [h2]
  omega

theorem crc32cExtend_append (crc : Nat) (a b : Bytes) :
    crc32cExtend crc (a ++ b) = crc32cExtend (crc32cExtend crc a) b := by
  unfold crc32cExtend
  rw [List.foldl_append]
  congr 1
  rw [Nat.xor_cancel_right]

theorem crc32cValue_append (a b : Bytes) :
    crc32cValue (a ++ b) = crc32cExtend (crc32cValue a) b := by
  unfold crc32cValue
  exact crc32cExtend_append 0 a b

/-! ## Byte-string ordering facts -/

theorem byteCompare_self (a : Bytes) : byteCompare a a = .eq := by
  induction a with
  | nil => rfl
  | cons x xs ih => simp [byteCompare, ih]

theorem byteCompare_eq_iff (a : Bytes) : ∀ b : Bytes, byteCompare a b = .eq ↔ a = b := by
  induction a with
  | nil => intro b; cases b <;> simp [byteCompare]
  | cons x xs ih =>
    intro b
    cases b with
    | nil => simp [byteCompare]
    | cons y ys =>
      by_cases h1 : x < y
      · simp only [byteCompare, if_pos h1]
        constructor
        · intro h; cases h
        · intro h
          cases h
          omega
      · by_cases h2 : y < x
        · simp only [byteCompare, if_neg h1, if_pos h2]
          constructor
          · intro h; cases h
          · intro h
            cases h
            omega
        · have hxy : x = y := by omega
          subst hxy
          simp [byteCompare, h1, h2, ih]

theorem byteCompare_swap (a : Bytes) : ∀ b : Bytes, byteCompare b a = (byteCompare a b).swap := by
  induction a with
  | nil => intro b; cases b <;> rfl
  | cons x xs ih =>
    intro b
    cases b with
    | nil => rfl
    | cons y ys =>
      by_cases h1 : x < y
      · have h2 : ¬ y < x := by omega
        simp [byteCompare, h1, h2, Ordering.swap]
      · by_cases h2 : y < x
        · simp [byteCompare, h1, h2, Ordering.swap]
        · simp [byteCompare, h1, h2, ih]

theorem byteCompare_le_trans : ∀ a b c : Bytes,
    byteCompare a b ≠ .gt → byteCompare b c ≠ .gt → byteCompare a c ≠ .gt := by
  intro a
  induction a with
  | nil =>
    intro b c _ _
    cases c <;> simp [byteCompare]
  | cons x xs ih =>
    intro b c h1 h2
    cases b with
    | nil => simp [byteCompare] at h1
    | cons y ys =>
      cases c with
      | nil => simp [byteCompare] at h2
      | cons z zs =>
        simp only [byteCompare] at h1 h2 ⊢
        by_cases hxy : x < y
        · by_cases hyz : y < z
          · simp [show x < z by omega]
          · by_cases hzy : z < y
            · simp [hyz, hzy] at h2
            · simp [show x < z by omega]
        · by_cases hyx : y < x
          · simp [hxy, hyx] at h1
          · have hxy' : x = y := by omega
            subst hxy'
            by_cases hyz : x < z
            · simp [hyz]
            · by_cases hzy : z < x
              · simp [hyz, hzy] at h2
              · simp [hxy, hyx] at h1
                simp [hyz, hzy] at h2 ⊢
                exact ih ys zs h1 h2

theorem byteCompare_lt_of_lt_of_le : ∀ a b c : Bytes,
    byteCompare a b = .lt → byteCompare b c ≠ .gt → byteCompare a c = .lt := by
  intro a
  induction a with
  | nil =>
    intro b c h1 h2
    cases b with
    | nil => cases h1
    | cons y ys =>
      cases c with
      | nil => simp [byteCompare] at h2
      | cons z zs => rfl
  | cons x xs ih =>
    intro b c h1 h2
    cases b with
    | nil => cases h1
    | cons y ys =>
      cases c with
      | nil => simp [byteCompare] at h2
      | cons z zs =>
        simp only [byteCompare] at h1 h2 ⊢
        by_cases hxy : x < y
        · by_cases hyz : y < z
          · simp [show x < z by omega]
          · by_cases hzy : z < y
            · simp [hyz, hzy] at h2
            · simp [show x < z by omega]
        · by_cases hyx : y < x
          · simp [hxy, hyx] at h1
          · have hxy' : x = y := by omega
            subst hxy'
            by_cases hyz : x < z
            · simp [hyz]
            · by_cases hzy : z < x
              · simp [hyz, hzy] at h2
              · simp [hxy, hyx] at h1
                simp [hyz, hzy] at h2 ⊢
                exact ih ys zs h1 h2

theorem byteCompare_lt_of_le_of_lt : ∀ a b c : Bytes,
    byteCompare a b ≠ .gt → byteCompare b c = .lt → byteCompare a c = .lt := by
  intro a
  induction a with
  | nil =>
    intro b c h1 h2
    cases c with
    | nil =>
      cases b with
      | nil => cases h2
      | cons y ys => simp [byteCompare] at h2
    | cons z zs => rfl
  | cons x xs ih =>
    intro b c h1 h2
    cases b with
    | nil => simp [byteCompare] at h1
    | cons y ys =>
      cases c with
      | nil => simp [byteCompare] at h2
      | cons z zs =>
        simp only [byteCompare] at h1 h2 ⊢
        by_cases hxy : x < y
        · by_cases hyz : y < z
          · simp [show x < z by omega]
          · by_cases hzy : z < y
            · simp [hyz, hzy] at h2
            · simp [show x < z by omega]
        · by_cases hyx : y < x
          · simp [hxy, hyx] at h1
          · have hxy' : x = y := by omega
            subst hxy'
            by_cases hyz : x < z
            · simp [hyz]
            · by_cases hzy : z < x
              · simp [hyz, hzy] at h2
              · simp [hxy, hyx] at h1
                simp [hyz, hzy] at h2 ⊢
                exact ih ys zs h1 h2

theorem bytesLe_refl (a : Bytes) : bytesLe a a = true := by
  unfold bytesLe
  rw [byteCompare_self]
  decide

theorem bytesLe_total (a b : Bytes) : bytesLe a b = true ∨ bytesLe b a = true := by
  have hs := byteCompare_swap a b
  unfold bytesLe
  cases h : byteCompare a b <;> rw [h] at hs <;> rw [hs] <;> decide

theorem bytesLt_eq_not_le (a b : Bytes) : bytesLt a b = !(bytesLe b a) := by
  have hs := byteCompare_swap a b
  unfold bytesLt bytesLe
  cases h : byteCompare a b <;> rw [h] at hs <;> rw [hs] <;> decide

theorem bytesLe_antisymm (a b : Bytes) (h1 : bytesLe a b = true) (h2 : bytesLe b a = true) :
    a = b := by
  have hs := byteCompare_swap a b
  unfold bytesLe at h1 h2
  rw [hs] at h2
  rw [← byteCompare_eq_iff]
  cases h : byteCompare a b
  · rw [h] at h2; exact absurd h2 (by decide)
  · rfl
  · rw [h] at h1; exact absurd h1 (by decide)

theorem bytesLe_iff (a b : Bytes) : bytesLe a b = true ↔ byteCompare a b ≠ .gt := by
  unfold bytesLe
  cases h : byteCompare a b <;> decide

theorem bytesLt_iff (a b : Bytes) : bytesLt a b = true ↔ byteCompare a b = .lt := by
  unfold bytesLt
  cases h : byteCompare a b <;> decide

theorem bytesLe_trans (a b c : Bytes) (h1 : bytesLe a b = true) (h2 : bytesLe b c = true) :
    bytesLe a c = true := by
  rw [bytesLe_iff] at h1 h2 ⊢
  exact byteCompare_le_trans a b c h1 h2

theorem bytesLt_of_lt_of_le (a b c : Bytes) (h1 : bytesLt a b = true) (h2 : bytesLe b c = true) :
    bytesLt a c = true := by
  rw [bytesLt_iff] at h1 ⊢
  rw [bytesLe_iff] at h2
  exact byteCompare_lt_of_lt_of_le a b c h1 h2

theorem bytesLt_of_le_of_lt (a b c : Bytes) (h1 : bytesLe a b = true) (h2 : bytesLt b c = true) :
    bytesLt a c = true := by
  rw [bytesLe_iff] at h1
  rw [bytesLt_iff] at h2 ⊢
  exact byteCompare_lt_of_le_of_lt a b c h1 h2

theorem bytesLe_of_lt (a b : Bytes) (h : bytesLt a b = true) : bytesLe a b = true := by
  rw [bytesLt_iff] at h
  rw [bytesLe_iff, h]
  decide

theorem bytesLt_irrefl (a : Bytes) : bytesLt a a = false := by
  unfold bytesLt
  rw [byteCompare_self]
  decide

theorem bytesLt_trans (a b c : Bytes) (h1 : bytesLt a b = true) (h2 : bytesLt b c = true) :
    bytesLt a c = true :=
  bytesLt_of_le_of_lt a b c (bytesLe_of_lt a b h1) h2

/-! ## Block write/read roundtrip -/

/-- The 5-byte trailer `Finalize` writes and `ReadBlock` verifies: type
byte `0`, then the masked CRC over `contents || type` (`u32` LE). -/
def blockTrailer (body : Bytes) : Bytes :=
  0 :: putFixed32 (crcMask (crc32cExtend (crc32cValue body) [0]))

theorem blockTrailer_length (body : Bytes) : (blockTrailer body).length = 5 := by
  simp [blockTrailer, putFixed32]

theorem crcMask_lt (c : Nat) : crcMask c < 4294967296 := by
  unfold crcMask
  omega

theorem finalizeWith_fst (b : BlockBuilder) (padTarget : Option Nat) :
    (b.finalizeWith padTarget).1 =
      b.store.drop b.blockStart ++ blockTrailer (b.store.drop b.blockStart)
        ++ List.replicate (match padTarget with
            | some sz => sz - ((b.store.drop b.blockStart).length + kBlockTrailerSize)
            | none => 0) 0 := by
  unfold BlockBuilder.finalizeWith blockTrailer
  simp [List.append_assoc]

theorem finalizeWith_store (b : BlockBuilder) (padTarget : Option Nat) :
    (b.finalizeWith padTarget).2.store =
      b.store ++ blockTrailer (b.store.drop b.blockStart)
        ++ List.replicate (match padTarget with
            | some sz => sz - ((b.store.drop b.blockStart).length + kBlockTrailerSize)
            | none => 0) 0 := by
  unfold BlockBuilder.finalizeWith blockTrailer
  simp [List.append_assoc]

theorem finalizeWith_blockStart (b : BlockBuilder) (padTarget : Option Nat) :
    (b.finalizeWith padTarget).2.blockStart = b.blockStart := rfl

theorem readBlock_ok (full body tail : Bytes) (offset : Nat) (opts : DirOptions)
    (hfull : full.drop offset = body ++ blockTrailer body ++ tail) :
    readBlock (LogSource.ofBytes full) opts offset body.length true = (Status.ok, body) := by
  have hbt : (body ++ blockTrailer body).length = body.length + kBlockTrailerSize := by
    simp [blockTrailer_length, kBlockTrailerSize]
  have hTake : ((body ++ blockTrailer body ++ tail).take (body.length + kBlockTrailerSize))
      = body ++ blockTrailer body := by
    rw [← hbt, List.take_left]
  have hread : (LogSource.ofBytes full).sread offset (body.length + kBlockTrailerSize)
      = (Status.ok, body ++ blockTrailer body) := by
    unfold LogSource.ofBytes
    dsimp only
    rw [hfull, hTake]
  have hsplit1 : body ++ blockTrailer body = (body ++ [0]) ++
      putFixed32 (crcMask (crc32cExtend (crc32cValue body) [0])) := by
    unfold blockTrailer
    simp
  have hTake1 : (body ++ blockTrailer body).take (body.length + 1) = body ++ [0] := by
    rw [hsplit1]
    have h1 : (body ++ [0]).length = body.length + 1 := by simp
    rw [← h1, List.take_left]
  have hDrop1 : (body ++ blockTrailer body).drop (body.length + 1)
      = putFixed32 (crcMask (crc32cExtend (crc32cValue body) [0])) := by
    rw [hsplit1]
    have h1 : (body ++ [0]).length = body.length + 1 := by simp
    rw [← h1, List.drop_left]
  have hTakeN : (body ++ blockTrailer body).take body.length = body := by
    rw [List.take_append_of_le_length (Nat.le_refl _)]
    simp
  have hfix : getFixed32 (putFixed32 (crcMask (crc32cExtend (crc32cValue body) [0])))
      = crcMask (crc32cExtend (crc32cValue body) [0]) := by
    have := getFixed32_put (crcMask (crc32cExtend (crc32cValue body) [0])) []
      (crcMask_lt _)
    simpa using this
  have hcrceq : crc32cValue (body ++ [0]) = crc32cExtend (crc32cValue body) [0] :=
    crc32cValue_append body [0]
  unfold readBlock
  dsimp only
  rw [if_pos rfl, hread]
  dsimp only
  rw [hbt]
  simp only [Status.isOk, Bool.not_true, Bool.false_eq_true, if_false, ne_eq,
    not_true_eq_false, Bool.true_and]
  split
  · rw [hDrop1, hTake1, hfix, crcUnmask_mask _ (crc32cExtend_lt _ _ (crc32cValue_lt _)), hcrceq]
    simp [hTakeN]
  · rw [hTakeN]

/-! ## Sorting the write buffer -/

theorem insertByKey_perm (buffer : Bytes) (x : Nat) :
    ∀ l : List Nat, List.Perm (insertByKey buffer x l) (x :: l) := by
  intro l
  induction l with
  | nil => simp [insertByKey]
  | cons y ys ih =>
    unfold insertByKey
    split
    · exact List.Perm.refl _
    · exact List.Perm.trans (List.Perm.cons y ih) (List.Perm.swap x y ys)

theorem sortOffsets_perm (buffer : Bytes) (l : List Nat) :
    List.Perm (sortOffsets buffer l) l := by
  induction l with
  | nil => simp [sortOffsets]
  | cons x xs ih =>
    unfold sortOffsets at *
    simp only [List.foldr_cons]
    exact List.Perm.trans (insertByKey_perm buffer x _) (List.Perm.cons x ih)

/-- Keys along an offset list are nondecreasing. -/
def offsetsSortedBy (buffer : Bytes) (l : List Nat) : Prop :=
  List.Pairwise (fun a b => bytesLe (keyAtOffset buffer a) (keyAtOffset buffer b) = true) l

theorem insertByKey_sorted (buffer : Bytes) (x : Nat) :
    ∀ l : List Nat, offsetsSortedBy buffer l → offsetsSortedBy buffer (insertByKey buffer x l) := by
  intro l
  induction l with
  | nil =>
    intro _
    simp [insertByKey, offsetsSortedBy]
  | cons y ys ih =>
    intro hs
    rw [offsetsSortedBy, List.pairwise_cons] at hs
    unfold insertByKey
    split
    · rename_i hxy
      rw [offsetsSortedBy, List.pairwise_cons]
      refine ⟨?_, ?_⟩
      · intro b hb
        rcases List.mem_cons.mp hb with hb | hb
        · rw [hb]; exact hxy
        · exact bytesLe_trans _ _ _ hxy (hs.1 b hb)
      · rw [offsetsSortedBy] at *
        exact List.pairwise_cons.mpr hs
    · rename_i hxy
      have hyx : bytesLe (keyAtOffset buffer y) (keyAtOffset buffer x) = true := by
        rcases bytesLe_total (keyAtOffset buffer x) (keyAtOffset buffer y) with h | h
        · exact absurd h (by simpa using hxy)
        · exact h
      rw [offsetsSortedBy, List.pairwise_cons]
      refine ⟨?_, ih hs.2⟩
      intro b hb
      have hmem := (insertByKey_perm buffer x ys).mem_iff.mp hb
      rcases List.mem_cons.mp hmem with hb2 | hb2
      · rw [hb2]; exact hyx
      · exact hs.1 b hb2

theorem sortOffsets_sorted (buffer : Bytes) (l : List Nat) :
    offsetsSortedBy buffer (sortOffsets buffer l) := by
  induction l with
  | nil => simp [sortOffsets, offsetsSortedBy]
  | cons x xs ih =>
    unfold sortOffsets at *
    simp only [List.foldr_cons]
    exact insertByKey_sorted buffer x _ ih

theorem insertByKey_filter_eq (buffer : Bytes) (x : Nat) (k : Bytes)
    (hx : keyAtOffset buffer x = k) :
    ∀ l : List Nat, (insertByKey buffer x l).filter (fun o => keyAtOffset buffer o == k)
      = x :: l.filter (fun o => keyAtOffset buffer o == k) := by
  intro l
  induction l with
  | nil => simp [insertByKey, hx]
  | cons y ys ih =>
    unfold insertByKey
    split
    · simp [hx]
    · rename_i hxy
      have hyk : ¬ (keyAtOffset buffer y == k) = true := by
        intro hk
        rw [beq_iff_eq] at hk
        rw [hx, hk] at hxy
        simp [bytesLe_refl] at hxy
      rw [List.filter_cons, if_neg hyk, List.filter_cons, if_neg hyk, ih]

theorem insertByKey_filter_ne (buffer : Bytes) (x : Nat) (k : Bytes)
    (hx : keyAtOffset buffer x ≠ k) :
    ∀ l : List Nat, (insertByKey buffer x l).filter (fun o => keyAtOffset buffer o == k)
      = l.filter (fun o => keyAtOffset buffer o == k) := by
  intro l
  have hxk : ¬ (keyAtOffset buffer x == k) = true := by
    intro hk
    exact hx (beq_iff_eq.mp hk)
  induction l with
  | nil => simp [insertByKey, hxk]
  | cons y ys ih =>
    unfold insertByKey
    split
    · rw [List.filter_cons, if_neg hxk]
    · rw [List.filter_cons, ih]
      rw [List.filter_cons]

theorem sortOffsets_filter (buffer : Bytes) (k : Bytes) (l : List Nat) :
    (sortOffsets buffer l).filter (fun o => keyAtOffset buffer o == k)
      = l.filter (fun o => keyAtOffset buffer o == k) := by
  induction l with
  | nil => rfl
  | cons x xs ih =>
    unfold sortOffsets at *
    simp only [List.foldr_cons]
    by_cases hx : keyAtOffset buffer x = k
    · rw [insertByKey_filter_eq buffer x k hx, ih, List.filter_cons,
        if_pos (by simp [hx])]
    · rw [insertByKey_filter_ne buffer x k hx, ih, List.filter_cons,
        if_neg (by simp [hx])]

/-! ## Write-buffer contents model -/

/-- The write buffer `w` holds exactly the logical entries `l`, in
insertion order: each recorded arena offset parses back to its entry. -/
def WBModels (w : WriteBuffer) (l : List (Bytes × Bytes)) : Prop :=
  w.offsets.length = l.length ∧ w.finished = false ∧
  ∀ i, i < l.length →
    w.offsets.getD i 0 ≤ w.buffer.length ∧
    (l.getD i ([], [])).1.length < 2 ^ 63 ∧
    (l.getD i ([], [])).2.length < 2 ^ 63 ∧
    ∃ suffix, w.buffer.drop (w.offsets.getD i 0) =
      putLengthPrefixedSlice (l.getD i ([], [])).1
        ++ putLengthPrefixedSlice (l.getD i ([], [])).2 ++ suffix

theorem wbModels_init : WBModels WriteBuffer.initWB [] := by
  refine ⟨rfl, rfl, ?_⟩
  intro i h
  simp at h

theorem wbModels_add (w : WriteBuffer) (l : List (Bytes × Bytes)) (k v : Bytes)
    (w' : WriteBuffer) (hm : WBModels w l) (hk : k.length < 2 ^ 63)
    (hv : v.length < 2 ^ 63) (hadd : w.addWB k v = .ok w') :
    WBModels w' (l ++ [(k, v)]) := by
  obtain ⟨hlen, hfin, hent⟩ := hm
  unfold WriteBuffer.addWB at hadd
  rw [hfin] at hadd
  simp only [Bool.false_eq_true, if_false] at hadd
  split at hadd
  · cases hadd
  · rename_i hke
    cases hadd
    refine ⟨by simp [hlen], rfl, ?_⟩
    intro i hi
    simp only [List.length_append, List.length_cons, List.length_nil] at hi
    by_cases hilt : i < l.length
    · obtain ⟨hoff, hkl, hvl, suffix, hsuf⟩ := hent i hilt
      have hgo : (w.offsets ++ [w.buffer.length]).getD i 0 = w.offsets.getD i 0 := by
        rw [List.getD_append]
        omega
      have hgl : ((l ++ [(k, v)]).getD i ([], [])) = l.getD i ([], []) := by
        rw [List.getD_append]
        omega
      refine ⟨?_, ?_, ?_, ?_⟩
      · simp only [hgo]
        simp only [List.length_append]
        omega
      · rw [hgl]; exact hkl
      · rw [hgl]; exact hvl
      · refine ⟨suffix ++ (putLengthPrefixedSlice k ++ putLengthPrefixedSlice v), ?_⟩
        simp only [hgo, hgl]
        rw [List.append_assoc w.buffer, List.drop_append_eq_append_drop]
        have h0 : w.offsets.getD i 0 - w.buffer.length = 0 := by omega
        rw [h0, hsuf]
        simp [List.append_assoc]
    · have hieq : i = l.length := by omega
      subst hieq
      have hgo : (w.offsets ++ [w.buffer.length]).getD l.length 0 = w.buffer.length := by
        rw [List.getD_append_right w.offsets _ _ _ (le_of_eq hlen)]
        simp [hlen]
      have hgl : ((l ++ [(k, v)]).getD l.length ([], [])) = (k, v) := by
        rw [List.getD_append_right l _ _ _ (le_refl _)]
        simp
      refine ⟨?_, ?_, ?_, ?_⟩
      · simp only [hgo, List.length_append]
        omega
      · rw [hgl]; exact hk
      · rw [hgl]; exact hv
      · refine ⟨[], ?_⟩
        simp only [hgo, hgl]
        rw [List.append_assoc w.buffer, List.drop_append_eq_append_drop]
        simp

theorem keyAtOffset_eq_fst (buffer : Bytes) (off : Nat) :
    keyAtOffset buffer off = (entryAtOffset buffer off).1 := by
  unfold keyAtOffset entryAtOffset
  cases h : getLengthPrefixedSlice (buffer.drop off) with
  | none => rfl
  | some p =>
    obtain ⟨pk, pv⟩ := p
    cases h2 : getLengthPrefixedSlice pv with
    | none => simp [h2]
    | some q => simp [h2]

theorem wbModels_entryAt (w : WriteBuffer) (l : List (Bytes × Bytes))
    (hm : WBModels w l) (i : Nat) (hi : i < l.length) :
    entryAtOffset w.buffer (w.offsets.getD i 0) = l.getD i ([], []) := by
  obtain ⟨hlen, hfin, hent⟩ := hm
  obtain ⟨hoff, hkl, hvl, suffix, hsuf⟩ := hent i hi
  unfold entryAtOffset
  rw [hsuf, List.append_assoc, getLengthPrefixedSlice_put _ _ hkl]
  dsimp only
  rw [getLengthPrefixedSlice_put _ _ hvl]

theorem wbModels_entries (w : WriteBuffer) (l : List (Bytes × Bytes))
    (hm : WBModels w l) : w.entries = l := by
  unfold WriteBuffer.entries
  apply List.ext_getElem
  · simp [hm.1]
  · intro i h1 h2
    have hio : i < w.offsets.length := by simpa using h1
    rw [List.getElem_map]
    have hgd : w.offsets[i] = w.offsets.getD i 0 := (List.getD_eq_getElem w.offsets 0 hio).symm
    have hgl : l[i] = l.getD i ([], []) := (List.getD_eq_getElem l ([], []) h2).symm
    rw [hgd, hgl]
    exact wbModels_entryAt w l hm i h2

theorem finishWB_entries_filter (w : WriteBuffer) (l : List (Bytes × Bytes))
    (hm : WBModels w l) (k : Bytes) :
    w.finishWB.entries.filter (fun e => e.1 == k) = l.filter (fun e => e.1 == k) := by
  unfold WriteBuffer.finishWB WriteBuffer.entries
  dsimp only
  rw [List.filter_map]
  have hfun : ((fun e : Bytes × Bytes => e.1 == k) ∘ entryAtOffset w.buffer)
      = (fun o => keyAtOffset w.buffer o == k) := by
    funext o
    simp [Function.comp, keyAtOffset_eq_fst]
  rw [hfun, sortOffsets_filter, ← hfun, ← List.filter_map]
  have := wbModels_entries w l hm
  unfold WriteBuffer.entries at this
  rw [this]

theorem finishWB_entries_sorted (w : WriteBuffer) :
    List.Pairwise (fun a b : Bytes × Bytes => bytesLe a.1 b.1 = true) w.finishWB.entries := by
  unfold WriteBuffer.finishWB WriteBuffer.entries
  dsimp only
  rw [List.pairwise_map]
  have hs := sortOffsets_sorted w.buffer w.offsets
  unfold offsetsSortedBy at hs
  apply List.Pairwise.imp _ hs
  intro a b h
  rw [keyAtOffset_eq_fst, keyAtOffset_eq_fst] at h
  exact h

/-! ## Compositional model of the block encoding -/

theorem commonPrefixLen_le_left (a : Bytes) : ∀ b : Bytes, commonPrefixLen a b ≤ a.length := by
  induction a with
  | nil => intro b; cases b <;> simp [commonPrefixLen]
  | cons x xs ih =>
    intro b
    cases b with
    | nil => simp [commonPrefixLen]
    | cons y ys =>
      unfold commonPrefixLen
      split
      · simpa using ih ys
      · simp

theorem commonPrefixLen_le_right (a : Bytes) : ∀ b : Bytes, commonPrefixLen a b ≤ b.length := by
  induction a with
  | nil => intro b; cases b <;> simp [commonPrefixLen]
  | cons x xs ih =>
    intro b
    cases b with
    | nil => simp [commonPrefixLen]
    | cons y ys =>
      unfold commonPrefixLen
      split
      · simpa using ih ys
      · simp

theorem commonPrefixLen_take_eq (a : Bytes) : ∀ b : Bytes,
    a.take (commonPrefixLen a b) = b.take (commonPrefixLen a b) := by
  induction a with
  | nil => intro b; cases b <;> simp [commonPrefixLen]
  | cons x xs ih =>
    intro b
    cases b with
    | nil => simp [commonPrefixLen]
    | cons y ys =>
      unfold commonPrefixLen
      split
      · rename_i hxy
        rw [beq_iff_eq] at hxy
        simp [hxy, ih ys]
      · simp

theorem putVarint_length_pos (n : Nat) : 0 < (putVarint n).length := by
  unfold putVarint putVarintAux
  split <;> simp

/-- One prefix-compressed entry:
`(varint shared, varint non_shared, varint value_len, key suffix, value)`. -/
def entryEncoding (shared : Nat) (key value : Bytes) : Bytes :=
  putVarint shared ++ putVarint (key.length - shared) ++ putVarint value.length
    ++ key.drop shared ++ value

theorem entryEncoding_length_pos (shared : Nat) (key value : Bytes) :
    0 < (entryEncoding shared key value).length := by
  unfold entryEncoding
  have := putVarint_length_pos shared
  simp
  omega

/-- The builder's counter after feeding `es`, starting from `c`. -/
def bbCnt (r : Nat) : List (Bytes × Bytes) → Nat → Nat
  | [], c => c
  | _ :: rest, c => bbCnt r rest ((if c < r then c else 0) + 1)

/-- The builder's `last_key_` after feeding `es`, starting from `pk`. -/
def bbLast : List (Bytes × Bytes) → Bytes → Bytes
  | [], pk => pk
  | (k, _) :: rest, _ => bbLast rest k

/-- The entry region a `BlockBuilder` with restart interval `r` produces
for the entry list `es`, starting from previous key `pk` and counter
`cnt`. -/
def encodeEntries (r : Nat) : List (Bytes × Bytes) → Bytes → Nat → Bytes
  | [], _, _ => []
  | (k, v) :: rest, pk, cnt =>
    entryEncoding (if cnt < r then commonPrefixLen pk k else 0) k v
      ++ encodeEntries r rest k ((if cnt < r then cnt else 0) + 1)

theorem encodeEntries_snoc (r : Nat) (e : Bytes × Bytes) : ∀ (es : List (Bytes × Bytes))
    (pk : Bytes) (cnt : Nat),
    encodeEntries r (es ++ [e]) pk cnt = encodeEntries r es pk cnt ++
      entryEncoding (if bbCnt r es cnt < r then commonPrefixLen (bbLast es pk) e.1 else 0)
        e.1 e.2 := by
  intro es
  induction es with
  | nil =>
    intro pk cnt
    simp [encodeEntries, bbCnt, bbLast]
  | cons x rest ih =>
    intro pk cnt
    obtain ⟨k, v⟩ := x
    obtain ⟨ek, ev⟩ := e
    simp only [List.cons_append, encodeEntries, List.append_eq]
    rw [ih]
    simp only [bbCnt, bbLast, List.append_assoc]

theorem bbCnt_le (r : Nat) (hr : 1 ≤ r) : ∀ (es : List (Bytes × Bytes)) (c : Nat),
    c ≤ r → bbCnt r es c ≤ r := by
  intro es
  induction es with
  | nil => intro c hc; simpa [bbCnt] using hc
  | cons x rest ih =>
    intro c hc
    unfold bbCnt
    apply ih
    split <;> omega

theorem bbCnt_formula (r : Nat) (hr : 1 ≤ r) : ∀ (es : List (Bytes × Bytes)) (c : Nat),
    c ≤ r → es ≠ [] → bbCnt r es c = (c % r + es.length - 1) % r + 1 := by
  intro es
  induction es with
  | nil => intro c hc hne; exact absurd rfl hne
  | cons x rest ih =>
    intro c hc _
    unfold bbCnt
    by_cases hres : rest = []
    · subst hres
      simp only [bbCnt, List.length_cons, List.length_nil]
      have hcr : (if c < r then c else 0) + 1 = c % r + 1 := by
        split
        · rw [Nat.mod_eq_of_lt (by omega)]
        · have : c = r := by omega
          subst this
          simp
      rw [hcr]
      have h1 : c % r < r := Nat.mod_lt _ (by omega)
      have h2 : c % r + 1 - 1 = c % r := by omega
      rw [h2, Nat.mod_eq_of_lt h1]
    · have hc2 : (if c < r then c else 0) + 1 ≤ r := by split <;> omega
      rw [ih _ hc2 hres]
      have hcr : ((if c < r then c else 0) + 1) % r = (c % r + 1) % r := by
        split
        · rw [Nat.mod_eq_of_lt (show c < r by omega)]
        · have : c = r := by omega
          subst this
          simp
      rw [hcr]
      have hlen : 1 ≤ rest.length := by
        cases rest with
        | nil => exact absurd rfl hres
        | cons a b => simp
      have h1 : c % r < r := Nat.mod_lt _ (by omega)
      have hstep : (c % r + 1) % r + rest.length - 1 = ((c % r + 1) % r + (rest.length - 1)) := by
        omega
      rw [hstep, Nat.mod_add_mod]
      have hstep2 : c % r + 1 + (rest.length - 1) = c % r + (rest.length + 1) - 1 := by omega
      rw [hstep2]
      simp

theorem sub_mul_mod_eq (r : Nat) : ∀ (b a : Nat), b * r ≤ a → (a - b * r) % r = a % r := by
  intro b
  induction b with
  | zero => intro a _; simp
  | succ n ih =>
    intro a h
    have hexp : (n + 1) * r = n * r + r := by ring
    rw [hexp] at h ⊢
    have h1 : r ≤ a := by omega
    have h2 : a - (n * r + r) = (a - r) - n * r := by omega
    rw [h2, ih _ (by omega)]
    exact (Nat.mod_eq_sub_mod h1).symm

theorem bbCnt_drop_mul (r : Nat) (hr : 1 ≤ r) (es : List (Bytes × Bytes)) (i : Nat)
    (hlt : i * r < es.length) :
    bbCnt r (es.drop (i * r)) 0 = bbCnt r es 0 := by
  have hne1 : es.drop (i * r) ≠ [] := by
    intro hnil
    have := List.drop_eq_nil_iff_le.mp hnil
    omega
  have hne2 : es ≠ [] := by
    intro hnil
    subst hnil
    simp at hlt
  rw [bbCnt_formula r hr _ 0 (by omega) hne1, bbCnt_formula r hr _ 0 (by omega) hne2]
  rw [List.length_drop]
  have h1 : 0 % r + (es.length - i * r) - 1 = es.length - 1 - i * r := by
    simp only [Nat.zero_mod]
    omega
  have h2 : 0 % r + es.length - 1 = es.length - 1 := by
    simp only [Nat.zero_mod]
    omega
  rw [h1, h2]
  have hmod := sub_mul_mod_eq r i (es.length - 1) (by omega)
  rw [hmod]

theorem bbLast_append (es : List (Bytes × Bytes)) (e : Bytes × Bytes) :
    ∀ pk, bbLast (es ++ [e]) pk = e.1 := by
  induction es with
  | nil => intro pk; obtain ⟨k, v⟩ := e; rfl
  | cons x rest ih =>
    intro pk
    obtain ⟨k, v⟩ := x
    simpa [bbLast] using ih k

theorem bbLast_drop (es : List (Bytes × Bytes)) : ∀ (j : Nat), j < es.length →
    ∀ (pk pk' : Bytes), bbLast (es.drop j) pk = bbLast es pk' := by
  induction es with
  | nil => intro j h; simp at h
  | cons x rest ih =>
    intro j h pk pk'
    obtain ⟨k, v⟩ := x
    cases j with
    | zero => rfl
    | succ j' =>
      simp only [List.length_cons] at h
      have hj : j' < rest.length := by omega
      simp only [List.drop_succ_cons, bbLast]
      exact ih j' hj pk k

theorem parseEntryAt_encoding (body : Bytes) (p : Nat) (pk key value rest : Bytes)
    (shared : Nat)
    (hsh : shared ≤ pk.length) (hshk : shared ≤ key.length)
    (hpref : pk.take shared = key.take shared)
    (hs63 : shared < 2 ^ 63) (hns63 : key.length - shared < 2 ^ 63)
    (hv63 : value.length < 2 ^ 63)
    (hdrop : body.drop p = entryEncoding shared key value ++ rest) :
    parseEntryAt body body.length p pk
      = some (key, value, p + (entryEncoding shared key value).length) := by
  have hdlen : (key.drop shared).length = key.length - shared := by simp
  have hplt : p < body.length := by
    have hdl : (body.drop p).length = body.length - p := List.length_drop _ _
    rw [hdrop] at hdl
    have h1 := putVarint_length_pos shared
    simp only [entryEncoding, List.length_append] at hdl
    omega
  unfold parseEntryAt
  rw [if_neg (show ¬ body.length ≤ p by omega)]
  have hregion : (body.take body.length).drop p
      = putVarint shared ++ (putVarint (key.length - shared) ++ (putVarint value.length
        ++ (key.drop shared ++ (value ++ rest)))) := by
    rw [List.take_length, hdrop]
    simp [entryEncoding, List.append_assoc]
  rw [hregion]
  simp only [getVarint_putVarint _ _ hs63, getVarint_putVarint _ _ hns63,
    getVarint_putVarint _ _ hv63]
  have hr3len : (key.drop shared ++ (value ++ rest)).length
      = (key.length - shared) + (value.length + rest.length) := by
    simp [hdlen]
  rw [if_pos ⟨hsh, by rw [hr3len]; omega⟩]
  have htake1 : (key.drop shared ++ (value ++ rest)).take (key.length - shared)
      = key.drop shared := by
    rw [← hdlen, List.take_left]
  have hdrop1 : (key.drop shared ++ (value ++ rest)).drop (key.length - shared)
      = value ++ rest := by
    rw [← hdlen, List.drop_left]
  have htake2 : (value ++ rest).take value.length = value := by
    rw [← List.length_append value rest] at *
    exact List.take_left value rest
  have hkey : pk.take shared ++ (key.drop shared ++ (value ++ rest)).take (key.length - shared)
      = key := by
    rw [htake1, hpref, List.take_append_drop]
  rw [hkey, hdrop1, htake2]
  have hlen1 : (putVarint shared ++ (putVarint (key.length - shared) ++ (putVarint value.length
        ++ (key.drop shared ++ (value ++ rest))))).length
      - (key.drop shared ++ (value ++ rest)).length
      = (putVarint shared).length + (putVarint (key.length - shared)).length
        + (putVarint value.length).length := by
    simp only [List.length_append]
    omega
  rw [hlen1]
  have hlen2 : p + ((putVarint shared).length + (putVarint (key.length - shared)).length
        + (putVarint value.length).length) + (key.length - shared) + value.length
      = p + (entryEncoding shared key value).length := by
    simp only [entryEncoding, List.length_append, hdlen]
    omega
  rw [hlen2]

/-- Starting at offset `p` of block `c` (entries ending at `limit`,
previous key `pk`), the remaining entries parse to exactly `es`. -/
def DecodesTo (c : Bytes) (limit : Nat) : Nat → Bytes → List (Bytes × Bytes) → Prop
  | p, _, [] => p = limit
  | p, pk, (k, v) :: rest =>
    ∃ nxt, parseEntryAt c limit p pk = some (k, v, nxt) ∧ DecodesTo c limit nxt k rest

theorem parseEntryAt_restrict (c : Bytes) (limit p : Nat) (pk : Bytes)
    (hle : limit ≤ c.length) :
    parseEntryAt c limit p pk = parseEntryAt (c.take limit) (c.take limit).length p pk := by
  have hlen : (c.take limit).length = limit := by
    rw [List.length_take]
    omega
  unfold parseEntryAt
  rw [hlen, List.take_take]
  simp

theorem decodesTo_encode (r : Nat) (c : Bytes) (limit : Nat) (hle : limit ≤ c.length) :
    ∀ (es : List (Bytes × Bytes)) (p : Nat) (pk : Bytes) (cnt : Nat),
    (c.take limit).drop p = encodeEntries r es pk cnt →
    (∀ e ∈ es, e.1.length < 2 ^ 63 ∧ e.2.length < 2 ^ 63) →
    p ≤ limit →
    DecodesTo c limit p pk es := by
  intro es
  induction es with
  | nil =>
    intro p pk cnt hdrop _ hple
    have hlen : (c.take limit).length = limit := by
      rw [List.length_take]
      omega
    have h1 : (c.take limit).length - p = 0 := by
      have := congrArg List.length hdrop
      simpa [encodeEntries] using this
    unfold DecodesTo
    omega
  | cons e rest ih =>
    intro p pk cnt hdrop hb hple
    obtain ⟨k, v⟩ := e
    have hk63 : k.length < 2 ^ 63 := (hb (k, v) (by simp)).1
    have hv63 : v.length < 2 ^ 63 := (hb (k, v) (by simp)).2
    have hlen : (c.take limit).length = limit := by
      rw [List.length_take]
      omega
    rw [encodeEntries] at hdrop
    set shared := if cnt < r then commonPrefixLen pk k else 0 with hsh_def
    have hsh : shared ≤ pk.length := by
      rw [hsh_def]
      split
      · exact commonPrefixLen_le_left pk k
      · simp
    have hshk : shared ≤ k.length := by
      rw [hsh_def]
      split
      · exact commonPrefixLen_le_right pk k
      · simp
    have hpref : pk.take shared = k.take shared := by
      rw [hsh_def]
      split
      · exact commonPrefixLen_take_eq pk k
      · simp
    have hparse := parseEntryAt_encoding (c.take limit) p pk k v
      (encodeEntries r rest k ((if cnt < r then cnt else 0) + 1)) shared
      hsh hshk hpref (by omega) (by omega) hv63 hdrop
    rw [← parseEntryAt_restrict c limit p pk hle] at hparse
    refine ⟨p + (entryEncoding shared k v).length, hparse, ?_⟩
    have hdlen := congrArg List.length hdrop
    simp only [List.length_drop, List.length_append, hlen] at hdlen
    apply ih (p + (entryEncoding shared k v).length) k ((if cnt < r then cnt else 0) + 1)
    · rw [← List.drop_drop]
      rw [hdrop, List.drop_append_eq_append_drop]
      have h0 : (entryEncoding shared k v).length - (entryEncoding shared k v).length = 0 := by
        omega
      simp
    · intro x hx
      exact hb x (by simp [hx])
    · omega

/-- The builder state `b` holds exactly the (current-block) entries `es`
under restart interval `r`: the entry region, counter, last key and
restart array are those of the compositional encoding. -/
structure BBInv (r : Nat) (es : List (Bytes × Bytes)) (b : BlockBuilder) : Prop where
  hint : b.restartInterval = r
  hfin : b.finished = false
  hnum : b.numEntries = es.length
  hcnt : b.counter = bbCnt r es 0
  hlast : b.lastKey = bbLast es []
  hstart : b.blockStart ≤ b.store.length
  hbody : b.store.drop b.blockStart = encodeEntries r es [] 0
  hrlen : b.restarts.length = (es.length - 1) / r + 1
  hrest : ∀ i, i < b.restarts.length →
    b.restarts.getD i 0 ≤ (encodeEntries r es [] 0).length ∧
    (encodeEntries r es [] 0).drop (b.restarts.getD i 0) = encodeEntries r (es.drop (i * r)) [] 0

theorem BBInv_init (r : Nat) : BBInv r [] (BlockBuilder.init r) := by
  refine ⟨rfl, rfl, rfl, rfl, rfl, by simp [BlockBuilder.init], by simp [BlockBuilder.init, encodeEntries], by simp [BlockBuilder.init], ?_⟩
  intro i hi
  simp only [BlockBuilder.init] at hi ⊢
  simp only [List.length_cons, List.length_nil] at hi
  have : i = 0 := by omega
  subst this
  simp [encodeEntries]

theorem BBInv_reset (r : Nat) (b : BlockBuilder) (h : b.restartInterval = r) :
    BBInv r [] b.reset := by
  refine ⟨h, rfl, rfl, rfl, rfl, by simp [BlockBuilder.reset], by simp [BlockBuilder.reset, encodeEntries], by simp [BlockBuilder.reset], ?_⟩
  intro i hi
  simp only [BlockBuilder.reset] at hi ⊢
  simp only [List.length_cons, List.length_nil] at hi
  have : i = 0 := by omega
  subst this
  simp [encodeEntries]

theorem bbCnt_snoc (r : Nat) (e : Bytes × Bytes) : ∀ (es : List (Bytes × Bytes)) (c : Nat),
    bbCnt r (es ++ [e]) c = (if bbCnt r es c < r then bbCnt r es c else 0) + 1 := by
  intro es
  induction es with
  | nil => intro c; rfl
  | cons x rest ih =>
    intro c
    simp only [List.cons_append, bbCnt, List.append_eq, ih]

theorem mod_succ_eq (n r : Nat) (hr : 1 ≤ r) :
    (n + 1) % r = if n % r + 1 = r then 0 else n % r + 1 := by
  have h1 : n % r < r := Nat.mod_lt _ (by omega)
  rw [Nat.add_mod]
  by_cases hcase : n % r + 1 = r
  · rw [if_pos hcase]
    rcases Nat.eq_or_lt_of_le hr with h | h
    · rw [← h]
      simp [Nat.mod_one]
    · have h2 : 1 % r = 1 := Nat.mod_eq_of_lt h
      rw [h2, hcase, Nat.mod_self]
  · rw [if_neg hcase]
    rcases Nat.eq_or_lt_of_le hr with h | h
    · omega
    · have h2 : 1 % r = 1 := Nat.mod_eq_of_lt h
      rw [h2, Nat.mod_eq_of_lt (by omega)]

theorem BlockBuilder.add_eq (b : BlockBuilder) (k v : Bytes) : b.add k v = { b with
    store := b.store ++ entryEncoding
      (if b.counter < b.restartInterval then commonPrefixLen b.lastKey k else 0) k v,
    restarts := if b.counter < b.restartInterval then b.restarts
      else b.restarts ++ [b.curSize],
    counter := (if b.counter < b.restartInterval then b.counter else 0) + 1,
    lastKey := k, numEntries := b.numEntries + 1 } := rfl

theorem div_succ_of_mod_ne (n r : Nat) (hr : 1 ≤ r) (h : ¬ (n + 1) % r = 0) :
    (n + 1) / r = n / r := by
  rw [Nat.succ_div]
  rw [if_neg (fun hd => h (Nat.dvd_iff_mod_eq_zero.mp hd))]
  omega

theorem div_succ_of_mod_eq (n r : Nat) (hr : 1 ≤ r) (h : (n + 1) % r = 0) :
    (n + 1) / r = n / r + 1 := by
  rw [Nat.succ_div]
  rw [if_pos (Nat.dvd_iff_mod_eq_zero.mpr h)]

theorem pred_div_mul_of_dvd (n r : Nat) (hr : 1 ≤ r) (hn : 1 ≤ n) (h : n % r = 0) :
    ((n - 1) / r + 1) * r = n := by
  obtain ⟨m, rfl⟩ := Nat.dvd_iff_mod_eq_zero.mpr h
  have hm : 1 ≤ m := by
    by_contra hc
    push_neg at hc
    interval_cases m
    simp at hn
  obtain ⟨mp, rfl⟩ : ∃ mp, m = mp + 1 := ⟨m - 1, by omega⟩
  have hexp : r * (mp + 1) - 1 = r * mp + (r - 1) := by
    have hh : r * (mp + 1) = r * mp + r := by ring
    omega
  rw [hexp]
  rw [Nat.mul_add_div (show 0 < r by omega)]
  rw [Nat.div_eq_of_lt (show r - 1 < r by omega)]
  ring

theorem BBInv_add (r : Nat) (hr : 1 ≤ r) (es : List (Bytes × Bytes)) (b : BlockBuilder)
    (inv : BBInv r es b) (k v : Bytes) : BBInv r (es ++ [(k, v)]) (b.add k v) := by
  obtain ⟨hint, hfin, hnum, hcnt, hlast, hstart, hbody, hrlen, hrest⟩ := inv
  rw [BlockBuilder.add_eq, hint, hcnt, hlast]
  have hbodyLen : b.store.length - b.blockStart = (encodeEntries r es [] 0).length := by
    rw [← hbody]
    simp
  have hcurSize : b.curSize = (encodeEntries r es [] 0).length := by
    unfold BlockBuilder.curSize
    exact hbodyLen
  have hsnoc := encodeEntries_snoc r (k, v) es [] 0
  have hdropStore : ∀ ext : Bytes, (b.store ++ ext).drop b.blockStart
      = encodeEntries r es [] 0 ++ ext := by
    intro ext
    rw [List.drop_append_eq_append_drop]
    rw [hbody]
    have h0 : b.blockStart - b.store.length = 0 := by omega
    rw [h0]
    simp
  have hlistdrop : ∀ j : Nat, j ≤ es.length →
      (es ++ [(k, v)]).drop j = es.drop j ++ [(k, v)] := by
    intro j hj
    rw [List.drop_append_eq_append_drop]
    have h0 : j - es.length = 0 := by omega
    rw [h0]
    simp
  have hsuffix : ∀ i, i < b.restarts.length → i * r ≤ es.length ∧
      (if bbCnt r (es.drop (i * r)) 0 < r then
        commonPrefixLen (bbLast (es.drop (i * r)) []) k else 0)
      = (if bbCnt r es 0 < r then commonPrefixLen (bbLast es []) k else 0) := by
    intro i hi
    by_cases hi0 : i = 0
    · subst hi0
      simp
    · have hn1 : 1 ≤ es.length := by
        by_contra hc
        push_neg at hc
        have h0 : es.length = 0 := by omega
        rw [h0] at hrlen
        simp only [Nat.zero_sub, Nat.zero_div] at hrlen
        omega
      have hile : i ≤ (es.length - 1) / r := by omega
      have hirle : i * r ≤ es.length - 1 :=
        le_trans (Nat.mul_le_mul_right r hile) (Nat.div_mul_le_self _ _)
      have hirlt : i * r < es.length := by omega
      refine ⟨by omega, ?_⟩
      rw [bbCnt_drop_mul r hr es i hirlt]
      rw [bbLast_drop es (i * r) hirlt [] []]
  by_cases hC : bbCnt r es 0 < r
  · simp only [if_pos hC]
    have hn : es.length = 0 ∨ (1 ≤ es.length ∧ ¬ es.length % r = 0) := by
      by_cases hn0 : es.length = 0
      · left; exact hn0
      · right
        refine ⟨by omega, ?_⟩
        have hne : es ≠ [] := by
          intro hnil
          rw [hnil] at hn0
          simp at hn0
        rw [bbCnt_formula r hr es 0 (by omega) hne] at hC
        have h0 : 0 % r + es.length - 1 = es.length - 1 := by
          simp only [Nat.zero_mod]
          omega
        rw [h0] at hC
        have hsucc : es.length - 1 + 1 = es.length := by omega
        rw [← hsucc, mod_succ_eq _ _ hr, if_neg (by omega)]
        omega
    have hsnocPos : encodeEntries r (es ++ [(k, v)]) [] 0
        = encodeEntries r es [] 0 ++ entryEncoding (commonPrefixLen (bbLast es []) k) k v := by
      rw [hsnoc, if_pos hC]
    refine ⟨rfl, hfin, ?_, ?_, ?_, ?_, ?_, ?_, ?_⟩
    · simp [hnum]
    · rw [bbCnt_snoc, if_pos hC]
    · rw [bbLast_append]
    · simp only [List.length_append]
      omega
    · rw [hdropStore, hsnocPos]
    · simp only [List.length_append, List.length_cons, List.length_nil]
      rw [hrlen]
      rcases hn with h0 | ⟨h1, hmod⟩
      · rw [h0]
      · have hs1 : es.length + 1 - 1 = es.length := by omega
        rw [hs1]
        have hs2 : es.length - 1 + 1 = es.length := by omega
        have hdiv := div_succ_of_mod_ne (es.length - 1) r hr (by rw [hs2]; exact hmod)
        rw [hs2] at hdiv
        rw [hdiv]
    · intro i hi
      obtain ⟨hboundOld, hdropOld⟩ := hrest i hi
      obtain ⟨hirle, hshared⟩ := hsuffix i hi
      rw [if_pos hC] at hshared
      rw [hsnocPos]
      constructor
      · simp only [List.length_append]
        omega
      · rw [List.drop_append_eq_append_drop]
        have h0 : b.restarts.getD i 0 - (encodeEntries r es [] 0).length = 0 := by omega
        rw [h0, hdropOld, List.drop_zero]
        rw [hlistdrop (i * r) hirle, encodeEntries_snoc]
        rw [hshared]
  · simp only [if_neg hC]
    have hcr : bbCnt r es 0 = r := by
      have := bbCnt_le r hr es 0 (by omega)
      omega
    have hne : es ≠ [] := by
      intro hnil
      rw [hnil] at hcr
      simp [bbCnt] at hcr
      omega
    have hn1 : 1 ≤ es.length := by
      cases es with
      | nil => exact absurd rfl hne
      | cons a l => simp
    have hmod : es.length % r = 0 := by
      rw [bbCnt_formula r hr es 0 (by omega) hne] at hcr
      have h0 : 0 % r + es.length - 1 = es.length - 1 := by
        simp only [Nat.zero_mod]
        omega
      rw [h0] at hcr
      have hsucc : es.length - 1 + 1 = es.length := by omega
      rw [← hsucc, mod_succ_eq _ _ hr, if_pos (by omega)]
    have hsnocNeg : encodeEntries r (es ++ [(k, v)]) [] 0
        = encodeEntries r es [] 0 ++ entryEncoding 0 k v := by
      rw [hsnoc, if_neg hC]
    refine ⟨rfl, hfin, ?_, ?_, ?_, ?_, ?_, ?_, ?_⟩
    · simp [hnum]
    · rw [bbCnt_snoc, if_neg hC]
    · rw [bbLast_append]
    · simp only [List.length_append]
      omega
    · rw [hdropStore, hsnocNeg]
    · simp only [List.length_append, List.length_cons, List.length_nil]
      rw [hrlen]
      have hs1 : es.length + 1 - 1 = es.length := by omega
      rw [hs1]
      have hs2 : es.length - 1 + 1 = es.length := by omega
      have hdiv := div_succ_of_mod_eq (es.length - 1) r hr (by rw [hs2]; exact hmod)
      rw [hs2] at hdiv
      rw [hdiv]
    · intro i hi
      simp only [List.length_append, List.length_cons, List.length_nil] at hi
      by_cases hiold : i < b.restarts.length
      · obtain ⟨hboundOld, hdropOld⟩ := hrest i hiold
        obtain ⟨hirle, hshared⟩ := hsuffix i hiold
        have hgd : (b.restarts ++ [b.curSize]).getD i 0 = b.restarts.getD i 0 := by
          rw [List.getD_append]
          exact hiold
        rw [if_neg hC] at hshared
        rw [hgd, hsnocNeg]
        constructor
        · simp only [List.length_append]
          omega
        · rw [List.drop_append_eq_append_drop]
          have h0 : b.restarts.getD i 0 - (encodeEntries r es [] 0).length = 0 := by omega
          rw [h0, hdropOld, List.drop_zero]
          rw [hlistdrop (i * r) hirle, encodeEntries_snoc]
          rw [hshared]
      · have hieq : i = b.restarts.length := by omega
        subst hieq
        have hgd : (b.restarts ++ [b.curSize]).getD b.restarts.length 0 = b.curSize := by
          rw [List.getD_append_right b.restarts _ _ _ (le_refl _)]
          simp
        rw [hgd, hcurSize, hsnocNeg]
        have hmul : b.restarts.length * r = es.length := by
          rw [hrlen]
          exact pred_div_mul_of_dvd es.length r hr hn1 hmod
        constructor
        · simp only [List.length_append]
          omega
        · rw [hmul, List.drop_left]
          rw [hlistdrop es.length (le_refl _)]
          rw [List.drop_length]
          simp only [List.nil_append]
          simp [encodeEntries, commonPrefixLen, entryEncoding]

/-! ## Finished-block readback -/

theorem concatFixed32_length (l : List Nat) :
    (concatBytes (l.map putFixed32)).length = 4 * l.length := by
  induction l with
  | nil => rfl
  | cons x xs ih =>
    simp only [List.map_cons, concatBytes, List.foldr_cons, List.length_append]
    unfold concatBytes at ih
    rw [ih]
    simp [putFixed32]
    ring

theorem concatFixed32_drop (l : List Nat) : ∀ i, i < l.length →
    (concatBytes (l.map putFixed32)).drop (4 * i)
      = putFixed32 (l.getD i 0) ++ concatBytes ((l.drop (i + 1)).map putFixed32) := by
  induction l with
  | nil => intro i hi; simp at hi
  | cons x xs ih =>
    intro i hi
    cases i with
    | zero =>
      simp only [List.map_cons, concatBytes, List.foldr_cons, Nat.mul_zero, List.drop_zero]
      rfl
    | succ j =>
      simp only [List.length_cons] at hi
      have hj : j < xs.length := by omega
      have hstep : 4 * (j + 1) = 4 + 4 * j := by ring
      simp only [List.map_cons, concatBytes, List.foldr_cons, hstep, List.getD_cons_succ,
        List.drop_succ_cons]
      rw [List.drop_append_eq_append_drop]
      have hd1 : (putFixed32 x).drop (4 + 4 * j) = [] := by
        apply List.drop_eq_nil_of_le
        rw [putFixed32_length]
        omega
      have hd2 : 4 + 4 * j - (putFixed32 x).length = 4 * j := by
        rw [putFixed32_length]
        omega
      rw [hd1, hd2, List.nil_append]
      have hih := ih j hj
      unfold concatBytes at hih
      exact hih

/-- A finished block holding the entries `es` with restart interval `r`
and restart array `restarts`, with everything small enough for the `u32`
restart array to read back. -/
def GoodBlockR (r : Nat) (es : List (Bytes × Bytes)) (restarts : List Nat) (B : Bytes) : Prop :=
  1 ≤ r ∧
  (∀ e ∈ es, e.1.length < 2 ^ 63 ∧ e.2.length < 2 ^ 63) ∧
  (encodeEntries r es [] 0).length < 4294967296 ∧
  B = encodeEntries r es [] 0 ++ concatBytes (restarts.map putFixed32)
    ++ putFixed32 restarts.length ∧
  restarts.length = (es.length - 1) / r + 1 ∧
  restarts.length < 4294967296 ∧
  ∀ i, i < restarts.length →
    restarts.getD i 0 ≤ (encodeEntries r es [] 0).length ∧
    (encodeEntries r es [] 0).drop (restarts.getD i 0)
      = encodeEntries r (es.drop (i * r)) [] 0

theorem finishBB_fst (r : Nat) (es : List (Bytes × Bytes)) (b : BlockBuilder)
    (inv : BBInv r es b) :
    b.finishBB.1 = encodeEntries r es [] 0
      ++ concatBytes (b.restarts.map putFixed32) ++ putFixed32 b.restarts.length := by
  unfold BlockBuilder.finishBB
  dsimp only
  rw [List.drop_append_eq_append_drop]
  have h0 : b.blockStart - b.store.length = 0 := by
    have := inv.hstart
    omega
  rw [h0, List.drop_zero, inv.hbody]
  simp [List.append_assoc]

theorem goodBlockR_of_BBInv (r : Nat) (hr : 1 ≤ r) (es : List (Bytes × Bytes))
    (b : BlockBuilder) (inv : BBInv r es b)
    (hsz : (encodeEntries r es [] 0).length < 4294967296)
    (hnr : b.restarts.length < 4294967296)
    (hes : ∀ e ∈ es, e.1.length < 2 ^ 63 ∧ e.2.length < 2 ^ 63) :
    GoodBlockR r es b.restarts b.finishBB.1 :=
  ⟨hr, hes, hsz, finishBB_fst r es b inv, inv.hrlen, hnr, inv.hrest⟩

theorem goodBlockR_length (r : Nat) (es : List (Bytes × Bytes)) (restarts : List Nat)
    (B : Bytes) (hg : GoodBlockR r es restarts B) :
    B.length = (encodeEntries r es [] 0).length + 4 * restarts.length + 4 := by
  obtain ⟨hr, hes, hsz, hB, hrlen, hnr, hrest⟩ := hg
  rw [hB]
  simp only [List.length_append, concatFixed32_length, putFixed32_length]

theorem goodBlockR_iterInit (r : Nat) (es : List (Bytes × Bytes)) (restarts : List Nat)
    (B : Bytes) (hg : GoodBlockR r es restarts B) :
    blockIterInit B =
      { contents := B, restartOffset := (encodeEntries r es [] 0).length,
        numRestarts := restarts.length, pos := 0, key := [], value := [],
        valid := false, corrupt := false } := by
  have hBlen := goodBlockR_length r es restarts B hg
  obtain ⟨hr, hes, hsz, hB, hrlen, hnr, hrest⟩ := hg
  have hdrop4 : B.drop (B.length - 4) = putFixed32 restarts.length := by
    rw [hB]
    have hlen2 : (encodeEntries r es [] 0 ++ concatBytes (restarts.map putFixed32)
        ++ putFixed32 restarts.length).length - 4
        = (encodeEntries r es [] 0 ++ concatBytes (restarts.map putFixed32)).length := by
      simp only [List.length_append, concatFixed32_length, putFixed32_length]
      omega
    rw [hlen2, List.drop_left]
  have hnum : getFixed32 (B.drop (B.length - 4)) = restarts.length := by
    rw [hdrop4]
    have := getFixed32_put restarts.length [] hnr
    simpa using this
  unfold blockIterInit
  rw [if_neg (show ¬ B.length < 4 by omega)]
  rw [hnum]
  rw [if_pos (show 4 * (restarts.length + 1) ≤ B.length by omega)]
  have harith : B.length - 4 - 4 * restarts.length = (encodeEntries r es [] 0).length := by
    omega
  rw [harith]

theorem goodBlockR_restartPoint (r : Nat) (es : List (Bytes × Bytes)) (restarts : List Nat)
    (B : Bytes) (hg : GoodBlockR r es restarts B) (i : Nat) (hi : i < restarts.length) :
    BlockIter.restartPoint (blockIterInit B) i = restarts.getD i 0 := by
  have hBlen := goodBlockR_length r es restarts B hg
  have hinit := goodBlockR_iterInit r es restarts B hg
  obtain ⟨hr, hes, hsz, hB, hrlen, hnr, hrest⟩ := hg
  unfold BlockIter.restartPoint
  rw [hinit]
  have hdrop : B.drop ((encodeEntries r es [] 0).length + 4 * i)
      = putFixed32 (restarts.getD i 0)
        ++ (concatBytes ((restarts.drop (i + 1)).map putFixed32)
          ++ putFixed32 restarts.length) := by
    rw [hB, List.append_assoc, List.drop_append_eq_append_drop]
    have h1 : (encodeEntries r es [] 0).length + 4 * i
        - (encodeEntries r es [] 0).length = 4 * i := by omega
    have h2 : (encodeEntries r es [] 0).drop
        ((encodeEntries r es [] 0).length + 4 * i) = [] := by
      apply List.drop_eq_nil_of_le
      omega
    rw [h1, h2, List.nil_append]
    rw [List.drop_append_eq_append_drop]
    have h3 : 4 * i ≤ (concatBytes (restarts.map putFixed32)).length := by
      rw [concatFixed32_length]
      omega
    have h4 : 4 * i - (concatBytes (restarts.map putFixed32)).length = 0 := by omega
    rw [h4, List.drop_zero, concatFixed32_drop restarts i hi]
    simp [List.append_assoc]
  rw [hdrop]
  have hval : restarts.getD i 0 < 4294967296 := by
    have := (hrest i hi).1
    omega
  exact getFixed32_put _ _ hval

/-! ## Iterator walk specifications -/

theorem parseEntry_some_lt (c : Bytes) (limit p : Nat) (pk : Bytes) (x : Bytes × Bytes × Nat)
    (h : parseEntryAt c limit p pk = some x) : p < limit := by
  unfold parseEntryAt at h
  by_cases hle : limit ≤ p
  · rw [if_pos hle] at h
    cases h
  · omega

theorem encodeEntries_length_ge (r : Nat) : ∀ (es : List (Bytes × Bytes)) (pk : Bytes)
    (cnt : Nat), 3 * es.length ≤ (encodeEntries r es pk cnt).length := by
  intro es
  induction es with
  | nil => intro pk cnt; simp [encodeEntries]
  | cons e rest ih =>
    intro pk cnt
    obtain ⟨k, v⟩ := e
    have h1 := putVarint_length_pos (if cnt < r then commonPrefixLen pk k else 0)
    have h2 := putVarint_length_pos (k.length - (if cnt < r then commonPrefixLen pk k else 0))
    have h3 := putVarint_length_pos v.length
    have hr := ih k ((if cnt < r then cnt else 0) + 1)
    simp only [encodeEntries, entryEncoding, List.length_append, List.length_cons]
    omega

theorem dropWhile_append_of_all {p : Bytes × Bytes → Bool} (a b : List (Bytes × Bytes))
    (h : ∀ x ∈ a, p x = true) : (a ++ b).dropWhile p = b.dropWhile p := by
  induction a with
  | nil => simp
  | cons x xs ih =>
    rw [List.cons_append, List.dropWhile_cons, if_pos (h x (by simp))]
    exact ih (fun y hy => h y (by simp [hy]))

theorem pairwise_le_getD (es : List (Bytes × Bytes))
    (hs : List.Pairwise (fun a b : Bytes × Bytes => bytesLe a.1 b.1 = true) es)
    (i j : Nat) (hij : i ≤ j) (hj : j < es.length) :
    bytesLe (es.getD i ([], [])).1 (es.getD j ([], [])).1 = true := by
  rcases Nat.eq_or_lt_of_le hij with h | h
  · subst h
    exact bytesLe_refl _
  · have hi : i < es.length := by omega
    rw [List.getD_eq_getElem es ([], []) hi, List.getD_eq_getElem es ([], []) hj]
    exact (List.pairwise_iff_getElem.mp hs) i j hi hj h

/-- An iterator over block `B` with entry limit `L`, positioned at `p`
with previous key `pk` (not corrupt). -/
def mkIter (B : Bytes) (L nr p : Nat) (pk vv : Bytes) (valid0 : Bool) : BlockIter :=
  { contents := B, restartOffset := L, numRestarts := nr, pos := p, key := pk,
    value := vv, valid := valid0, corrupt := false }

theorem mkIter_contents (B : Bytes) (L nr p : Nat) (pk vv : Bytes) (b : Bool) :
    (mkIter B L nr p pk vv b).contents = B := rfl

theorem mkIter_restartOffset (B : Bytes) (L nr p : Nat) (pk vv : Bytes) (b : Bool) :
    (mkIter B L nr p pk vv b).restartOffset = L := rfl

theorem mkIter_pos (B : Bytes) (L nr p : Nat) (pk vv : Bytes) (b : Bool) :
    (mkIter B L nr p pk vv b).pos = p := rfl

theorem mkIter_key (B : Bytes) (L nr p : Nat) (pk vv : Bytes) (b : Bool) :
    (mkIter B L nr p pk vv b).key = pk := rfl

theorem mkIter_value (B : Bytes) (L nr p : Nat) (pk vv : Bytes) (b : Bool) :
    (mkIter B L nr p pk vv b).value = vv := rfl

theorem mkIter_valid (B : Bytes) (L nr p : Nat) (pk vv : Bytes) (b : Bool) :
    (mkIter B L nr p pk vv b).valid = b := rfl

theorem mkIter_corrupt (B : Bytes) (L nr p : Nat) (pk vv : Bytes) (b : Bool) :
    (mkIter B L nr p pk vv b).corrupt = false := rfl

theorem seekLinear_spec (B : Bytes) (L : Nat) (target : Bytes) :
    ∀ (es : List (Bytes × Bytes)) (fuel : Nat) (nr p : Nat) (pk vv : Bytes) (valid0 : Bool),
    DecodesTo B L p pk es → es.length < fuel →
    (seekLinear fuel (mkIter B L nr p pk vv valid0) target).contents = B ∧
    (seekLinear fuel (mkIter B L nr p pk vv valid0) target).restartOffset = L ∧
    (seekLinear fuel (mkIter B L nr p pk vv valid0) target).corrupt = false ∧
    (match es.dropWhile (fun e => bytesLt e.1 target) with
     | [] => (seekLinear fuel (mkIter B L nr p pk vv valid0) target).valid = false
     | cur :: post =>
        (seekLinear fuel (mkIter B L nr p pk vv valid0) target).valid = true ∧
        (seekLinear fuel (mkIter B L nr p pk vv valid0) target).key = cur.1 ∧
        (seekLinear fuel (mkIter B L nr p pk vv valid0) target).value = cur.2 ∧
        DecodesTo B L (seekLinear fuel (mkIter B L nr p pk vv valid0) target).pos
          cur.1 post) := by
  intro es
  induction es with
  | nil =>
    intro fuel nr p pk vv valid0 hdec hfuel
    unfold DecodesTo at hdec
    obtain ⟨fuel2, rfl⟩ : ∃ f, fuel = f + 1 := ⟨fuel - 1, by omega⟩
    unfold seekLinear
    have hstep : (mkIter B L nr p pk vv valid0).stepNext
        = mkIter B L nr p pk vv false := by
      unfold BlockIter.stepNext mkIter
      subst hdec
      simp
    rw [hstep]
    simp only [mkIter_valid, Bool.not_false, if_true, List.dropWhile_nil]
    refine ⟨by trivial, by trivial, by trivial, by trivial⟩
  | cons e rest ih =>
    intro fuel nr p pk vv valid0 hdec hfuel
    obtain ⟨k, v⟩ := e
    unfold DecodesTo at hdec
    obtain ⟨nxt, hparse, hdec2⟩ := hdec
    have hplt : p < L := parseEntry_some_lt B L p pk _ hparse
    obtain ⟨fuel2, rfl⟩ : ∃ f, fuel = f + 1 := ⟨fuel - 1, by omega⟩
    unfold seekLinear
    have hstep : (mkIter B L nr p pk vv valid0).stepNext = mkIter B L nr nxt k v true := by
      unfold BlockIter.stepNext mkIter
      simp only [if_neg (show ¬ L ≤ p by omega)]
      rw [hparse]
    rw [hstep]
    rw [List.dropWhile_cons]
    by_cases hlt : bytesLt k target = true
    · have hcond : (fun e : Bytes × Bytes => bytesLt e.1 target) (k, v) = true := hlt
      rw [if_pos hcond]
      simp only [mkIter_valid, mkIter_key, Bool.not_true, Bool.false_eq_true, if_false, hlt]
      exact ih fuel2 nr nxt k v true hdec2 (by simpa using hfuel)
    · have hcond : ¬ (fun e : Bytes × Bytes => bytesLt e.1 target) (k, v) = true := hlt
      rw [if_neg hcond]
      rw [Bool.not_eq_true] at hlt
      simp only [mkIter_valid, mkIter_key, Bool.not_true, Bool.false_eq_true, if_false, hlt,
        Bool.not_false, if_true]
      refine ⟨by trivial, by trivial, by trivial, by trivial, by trivial, by trivial, hdec2⟩

theorem goodBlockR_le_length (r : Nat) (es : List (Bytes × Bytes)) (restarts : List Nat)
    (B : Bytes) (hg : GoodBlockR r es restarts B) :
    (encodeEntries r es [] 0).length ≤ B.length := by
  have := goodBlockR_length r es restarts B hg
  omega

theorem goodBlockR_decodesAt (r : Nat) (es : List (Bytes × Bytes)) (restarts : List Nat)
    (B : Bytes) (hg : GoodBlockR r es restarts B) (i : Nat) (hi : i < restarts.length) :
    DecodesTo B (encodeEntries r es [] 0).length (restarts.getD i 0) []
      (es.drop (i * r)) := by
  have hle := goodBlockR_le_length r es restarts B hg
  obtain ⟨hr, hes, hsz, hB, hrlen, hnr, hrest⟩ := hg
  have htake : B.take (encodeEntries r es [] 0).length = encodeEntries r es [] 0 := by
    rw [hB, List.append_assoc, List.take_left]
  apply decodesTo_encode r B (encodeEntries r es [] 0).length hle
  · rw [htake]
    exact (hrest i hi).2
  · intro e he
    exact hes e (List.mem_of_mem_drop he)
  · exact (hrest i hi).1

theorem goodBlockR_index_lt (r : Nat) (es : List (Bytes × Bytes)) (restarts : List Nat)
    (B : Bytes) (hg : GoodBlockR r es restarts B) (hne : es ≠ []) (i : Nat)
    (hi : i < restarts.length) : i * r < es.length := by
  obtain ⟨hr, hes, hsz, hB, hrlen, hnr, hrest⟩ := hg
  have hn1 : 1 ≤ es.length := by
    cases es with
    | nil => exact absurd rfl hne
    | cons a l => simp
  have hile : i ≤ (es.length - 1) / r := by omega
  have := le_trans (Nat.mul_le_mul_right r hile) (Nat.div_mul_le_self (es.length - 1) r)
  omega

theorem goodBlockR_keyAtRestart (r : Nat) (es : List (Bytes × Bytes)) (restarts : List Nat)
    (B : Bytes) (hg : GoodBlockR r es restarts B) (hne : es ≠ []) (i : Nat)
    (hi : i < restarts.length) :
    (blockIterInit B).keyAtRestart i = some ((es.getD (i * r) ([], [])).1) := by
  have hinit := goodBlockR_iterInit r es restarts B hg
  have hrp := goodBlockR_restartPoint r es restarts B hg i hi
  have hdec := goodBlockR_decodesAt r es restarts B hg i hi
  have hlt := goodBlockR_index_lt r es restarts B hg hne i hi
  have hdropc : es.drop (i * r) = es.getD (i * r) ([], []) :: es.drop (i * r + 1) := by
    rw [List.getD_eq_getElem es ([], []) hlt]
    exact List.drop_eq_getElem_cons hlt
  rw [hdropc] at hdec
  unfold DecodesTo at hdec
  obtain ⟨nxt, hparse, _⟩ := hdec
  unfold BlockIter.keyAtRestart
  rw [hrp, hinit]
  rw [hparse]
  rfl

theorem seekBsearch_spec (r : Nat) (es : List (Bytes × Bytes)) (restarts : List Nat)
    (B : Bytes) (hg : GoodBlockR r es restarts B) (hne : es ≠ [])
    (hsorted : List.Pairwise (fun a b : Bytes × Bytes => bytesLe a.1 b.1 = true) es)
    (target : Bytes) :
    ∀ (fuel left right : Nat), left ≤ right → right < restarts.length →
    (left = 0 ∨ bytesLt (es.getD (left * r) ([], [])).1 target = true) →
    (∀ j, right < j → j < restarts.length →
      bytesLt (es.getD (j * r) ([], [])).1 target = false) →
    right - left < fuel →
    ∃ lf, seekBsearch (blockIterInit B) target fuel left right = (lf, false) ∧
      lf < restarts.length ∧
      (lf = 0 ∨ bytesLt (es.getD (lf * r) ([], [])).1 target = true) ∧
      (∀ j, lf < j → j < restarts.length →
        bytesLt (es.getD (j * r) ([], [])).1 target = false) := by
  intro fuel
  induction fuel with
  | zero =>
    intro left right hlr hrn hlow hhigh hgap
    omega
  | succ f ih =>
    intro left right hlr hrn hlow hhigh hgap
    unfold seekBsearch
    by_cases hltlr : left < right
    · rw [if_pos hltlr]
      have hmid1 : left < (left + right + 1) / 2 := by omega
      have hmid2 : (left + right + 1) / 2 ≤ right := by omega
      have hkey := goodBlockR_keyAtRestart r es restarts B hg hne ((left + right + 1) / 2)
        (by omega)
      simp only [hkey]
      by_cases hkm : bytesLt (es.getD ((left + right + 1) / 2 * r) ([], [])).1 target = true
      · simp only [hkm, if_true]
        exact ih ((left + right + 1) / 2) right (by omega) hrn (Or.inr hkm) hhigh (by omega)
      · rw [Bool.not_eq_true] at hkm
        simp only [hkm, Bool.false_eq_true, if_false]
        apply ih left ((left + right + 1) / 2 - 1) (by omega) (by omega) hlow _ (by omega)
        intro j hj1 hj2
        by_cases hjr : right < j
        · exact hhigh j hjr hj2
        · have hmj : (left + right + 1) / 2 * r ≤ j * r :=
            Nat.mul_le_mul_right r (by omega)
          have hjlt : j * r < es.length :=
            goodBlockR_index_lt r es restarts B hg hne j (by omega)
          have hle2 := pairwise_le_getD es hsorted ((left + right + 1) / 2 * r) (j * r)
            hmj hjlt
          rw [Bool.eq_false_iff]
          intro hcon
          have := bytesLt_of_le_of_lt _ _ _ hle2 hcon
          rw [this] at hkm
          cases hkm
    · rw [if_neg hltlr]
      refine ⟨left, rfl, by omega, hlow, ?_⟩
      intro j hj1 hj2
      exact hhigh j (by omega) hj2

theorem mkIter_numRestarts (B : Bytes) (L nr p : Nat) (pk vv : Bytes) (b : Bool) :
    (mkIter B L nr p pk vv b).numRestarts = nr := rfl

theorem mkIter_restartPoint (B : Bytes) (L nr p : Nat) (pk vv : Bytes) (b : Bool) (i : Nat) :
    (mkIter B L nr p pk vv b).restartPoint i = getFixed32 (B.drop (L + 4 * i)) := rfl

theorem goodBlockR_iterInit_mk (r : Nat) (es : List (Bytes × Bytes)) (restarts : List Nat)
    (B : Bytes) (hg : GoodBlockR r es restarts B) :
    blockIterInit B
      = mkIter B (encodeEntries r es [] 0).length restarts.length 0 [] [] false := by
  rw [goodBlockR_iterInit r es restarts B hg]
  rfl

theorem seek_spec (r : Nat) (es : List (Bytes × Bytes)) (restarts : List Nat) (B : Bytes)
    (hg : GoodBlockR r es restarts B)
    (hsorted : List.Pairwise (fun a b : Bytes × Bytes => bytesLe a.1 b.1 = true) es)
    (target : Bytes) :
    ((blockIterInit B).seek target).contents = B ∧
    ((blockIterInit B).seek target).restartOffset = (encodeEntries r es [] 0).length ∧
    ((blockIterInit B).seek target).corrupt = false ∧
    (match es.dropWhile (fun e => bytesLt e.1 target) with
     | [] => ((blockIterInit B).seek target).valid = false
     | cur :: post => ((blockIterInit B).seek target).valid = true ∧
        ((blockIterInit B).seek target).key = cur.1 ∧
        ((blockIterInit B).seek target).value = cur.2 ∧
        DecodesTo B (encodeEntries r es [] 0).length
          ((blockIterInit B).seek target).pos cur.1 post) := by
  have hinit := goodBlockR_iterInit_mk r es restarts B hg
  have hrlen : restarts.length = (es.length - 1) / r + 1 := hg.2.2.2.2.1
  have hrpos : 1 ≤ restarts.length := by
    rw [hrlen]
    exact Nat.succ_le_succ (Nat.zero_le _)
  have hne0 : (restarts.length == 0) = false := by
    rw [beq_eq_false_iff_ne, hrlen]
    exact Nat.succ_ne_zero _
  have hles := encodeEntries_length_ge r es [] 0
  by_cases hne : es = []
  · subst hne
    have hr1 : restarts.length = 1 := by
      rw [hrlen]
      simp
    have hv0 : restarts.getD 0 0 = 0 := by
      have := (hg.2.2.2.2.2.2 0 (by omega)).1
      simp only [encodeEntries, List.length_nil] at this
      omega
    have hrp := goodBlockR_restartPoint r [] restarts B hg 0 (by omega)
    have hdec : DecodesTo B (encodeEntries r ([] : List (Bytes × Bytes)) [] 0).length 0 [] [] := by
      simp only [encodeEntries, List.length_nil]
      unfold DecodesTo
      rfl
    unfold BlockIter.seek
    rw [hinit]
    simp only [mkIter_numRestarts, hne0, Bool.false_eq_true, if_false, hr1]
    have hbs : seekBsearch (mkIter B (encodeEntries r ([] : List (Bytes × Bytes)) [] 0).length
        1 0 [] [] false) target (1 + 1) 0 (1 - 1) = (0, false) := by
      unfold seekBsearch
      simp
    simp only [hbs, Bool.false_eq_true, if_false]
    have hrp2 : (mkIter B (encodeEntries r ([] : List (Bytes × Bytes)) [] 0).length
        1 0 [] [] false).restartPoint 0 = 0 := by
      rw [mkIter_restartPoint]
      rw [hinit, mkIter_restartPoint] at hrp
      rw [hrp, hv0]
    rw [hrp2]
    have hsl := seekLinear_spec B (encodeEntries r ([] : List (Bytes × Bytes)) [] 0).length
      target [] ((encodeEntries r ([] : List (Bytes × Bytes)) [] 0).length + 1) 1 0 [] []
      false hdec (by simp)
    simpa using hsl
  · have hbs := seekBsearch_spec r es restarts B hg hne hsorted target
      (restarts.length + 1) 0 (restarts.length - 1) (by omega) (by omega) (Or.inl rfl)
      (by intro j hj1 hj2; omega) (by omega)
    obtain ⟨lf, hbseq, hlf, hlow, hhigh⟩ := hbs
    rw [hinit] at hbseq
    have hrp : (mkIter B (encodeEntries r es [] 0).length restarts.length 0 [] []
        false).restartPoint lf = restarts.getD lf 0 := by
      rw [← hinit]
      exact goodBlockR_restartPoint r es restarts B hg lf hlf
    have hdec := goodBlockR_decodesAt r es restarts B hg lf hlf
    have hfuel : (es.drop (lf * r)).length < (encodeEntries r es [] 0).length + 1 := by
      have hdle : (es.drop (lf * r)).length ≤ es.length := by
        rw [List.length_drop]
        omega
      omega
    have hsl := seekLinear_spec B (encodeEntries r es [] 0).length target
      (es.drop (lf * r)) ((encodeEntries r es [] 0).length + 1) restarts.length
      (restarts.getD lf 0) [] [] false hdec hfuel
    have htake : ∀ x ∈ es.take (lf * r), bytesLt x.1 target = true := by
      intro x hx
      obtain ⟨j, hj, hxe⟩ := List.mem_iff_getElem.mp hx
      have hjlt : j < lf * r := by
        have := hj
        simp only [List.length_take] at this
        omega
      have hlfr : lf * r < es.length := goodBlockR_index_lt r es restarts B hg hne lf hlf
      have hgetj : (es.take (lf * r))[j] = es.get ⟨j, by omega⟩ := List.getElem_take _
      have hlf0 : lf ≠ 0 := by
        intro h0
        rw [h0] at hjlt
        simp at hjlt
      have hltkey : bytesLt (es.getD (lf * r) ([], [])).1 target = true := by
        rcases hlow with h0 | h
        · exact absurd h0 hlf0
        · exact h
      have hlej : bytesLe (es.getD j ([], [])).1 (es.getD (lf * r) ([], [])).1 = true :=
        pairwise_le_getD es hsorted j (lf * r) (by omega) hlfr
      have hxj : x.1 = (es.getD j ([], [])).1 := by
        rw [← hxe, hgetj, List.getD_eq_getElem es ([], []) (by omega),
          List.get_eq_getElem]
      rw [hxj]
      exact bytesLt_of_le_of_lt _ _ _ hlej hltkey
    have hdw : es.dropWhile (fun e => bytesLt e.1 target)
        = (es.drop (lf * r)).dropWhile (fun e => bytesLt e.1 target) := by
      conv_lhs => rw [← List.take_append_drop (lf * r) es]
      exact dropWhile_append_of_all _ _ htake
    unfold BlockIter.seek
    rw [hinit]
    simp only [mkIter_numRestarts, hne0, Bool.false_eq_true, if_false, hbseq, hrp]
    rw [hdw]
    exact hsl

/-! ## Skip-less and gather loop specifications -/

theorem goodBlockR_restart0 (r : Nat) (es : List (Bytes × Bytes)) (restarts : List Nat)
    (B : Bytes) (hg : GoodBlockR r es restarts B) : restarts.getD 0 0 = 0 := by
  have hrpos : 1 ≤ restarts.length := by
    rw [hg.2.2.2.2.1]
    exact Nat.succ_le_succ (Nat.zero_le _)
  obtain ⟨hbound, hdrop⟩ := hg.2.2.2.2.2.2 0 (by omega)
  simp only [Nat.zero_mul, List.drop_zero] at hdrop
  have := congrArg List.length hdrop
  simp only [List.length_drop] at this
  omega

theorem goodBlockR_decodes0 (r : Nat) (es : List (Bytes × Bytes)) (restarts : List Nat)
    (B : Bytes) (hg : GoodBlockR r es restarts B) :
    DecodesTo B (encodeEntries r es [] 0).length 0 [] es := by
  have hrpos : 1 ≤ restarts.length := by
    rw [hg.2.2.2.2.1]
    exact Nat.succ_le_succ (Nat.zero_le _)
  have h0 := goodBlockR_restart0 r es restarts B hg
  have := goodBlockR_decodesAt r es restarts B hg 0 (by omega)
  rw [h0] at this
  simpa using this

theorem skipLess_spec (B : Bytes) (L : Nat) (target : Bytes) :
    ∀ (rem : List (Bytes × Bytes)) (fuel nr p : Nat) (cur : Bytes × Bytes),
    rem.length + 1 < fuel →
    DecodesTo B L p cur.1 rem →
    (skipLess fuel (mkIter B L nr p cur.1 cur.2 true) target).contents = B ∧
    (skipLess fuel (mkIter B L nr p cur.1 cur.2 true) target).restartOffset = L ∧
    (skipLess fuel (mkIter B L nr p cur.1 cur.2 true) target).corrupt = false ∧
    (match (cur :: rem).dropWhile (fun e => bytesLt e.1 target) with
     | [] => (skipLess fuel (mkIter B L nr p cur.1 cur.2 true) target).valid = false
     | c :: post =>
        (skipLess fuel (mkIter B L nr p cur.1 cur.2 true) target).valid = true ∧
        (skipLess fuel (mkIter B L nr p cur.1 cur.2 true) target).key = c.1 ∧
        (skipLess fuel (mkIter B L nr p cur.1 cur.2 true) target).value = c.2 ∧
        DecodesTo B L (skipLess fuel (mkIter B L nr p cur.1 cur.2 true) target).pos
          c.1 post) := by
  intro rem
  induction rem with
  | nil =>
    intro fuel nr p cur hfuel hdec
    obtain ⟨f1, rfl⟩ : ∃ f, fuel = f + 1 := ⟨fuel - 1, by omega⟩
    unfold skipLess
    rw [List.dropWhile_cons]
    by_cases hlt : bytesLt cur.1 target = true
    · simp only [mkIter_valid, mkIter_key, hlt, Bool.true_and, if_pos rfl]
      unfold DecodesTo at hdec
      have hstep : (mkIter B L nr p cur.1 cur.2 true).stepNext
          = mkIter B L nr p cur.1 cur.2 false := by
        unfold BlockIter.stepNext mkIter
        subst hdec
        simp
      rw [hstep]
      obtain ⟨f2, rfl⟩ : ∃ f, f1 = f + 1 := ⟨f1 - 1, by omega⟩
      unfold skipLess
      simp only [mkIter_valid, Bool.false_and, Bool.false_eq_true, if_false, hlt,
        List.dropWhile_nil]
      exact ⟨rfl, rfl, rfl, rfl⟩
    · rw [Bool.not_eq_true] at hlt
      simp only [mkIter_valid, mkIter_key, hlt, Bool.true_and, Bool.and_false,
        Bool.false_eq_true, if_false]
      refine ⟨by trivial, by trivial, by trivial, by trivial, by trivial, by trivial, hdec⟩
  | cons c rest ih =>
    intro fuel nr p cur hfuel hdec
    obtain ⟨f1, rfl⟩ : ∃ f, fuel = f + 1 := ⟨fuel - 1, by omega⟩
    unfold skipLess
    rw [List.dropWhile_cons]
    by_cases hlt : bytesLt cur.1 target = true
    · simp only [mkIter_valid, mkIter_key, hlt, Bool.true_and, if_pos rfl]
      unfold DecodesTo at hdec
      obtain ⟨nxt, hparse, hdec2⟩ := hdec
      have hplt : p < L := parseEntry_some_lt B L p cur.1 _ hparse
      have hstep : (mkIter B L nr p cur.1 cur.2 true).stepNext
          = mkIter B L nr nxt c.1 c.2 true := by
        unfold BlockIter.stepNext mkIter
        simp only [if_neg (show ¬ L ≤ p by omega)]
        rw [hparse]
      rw [hstep]
      exact ih f1 nr nxt c (by simp at hfuel ⊢; omega) hdec2
    · rw [Bool.not_eq_true] at hlt
      simp only [mkIter_valid, mkIter_key, hlt, Bool.true_and, Bool.and_false,
        Bool.false_eq_true, if_false]
      refine ⟨by trivial, by trivial, by trivial, by trivial, by trivial, by trivial, hdec⟩

theorem gatherLoop_invalid (unique : Bool) (fuel : Nat) (hf : 0 < fuel) (it : BlockIter)
    (hv : it.valid = false) (key dst : Bytes) (found eok : Bool) :
    gatherLoop unique fuel it key dst found eok = (dst, found, eok, it) := by
  obtain ⟨f1, rfl⟩ : ∃ f, fuel = f + 1 := ⟨fuel - 1, by omega⟩
  unfold gatherLoop
  rw [hv]
  simp

theorem gatherLoop_eok (unique : Bool) (fuel : Nat) (hf : 0 < fuel) (it : BlockIter)
    (key dst : Bytes) (found : Bool) :
    gatherLoop unique fuel it key dst found true = (dst, found, true, it) := by
  obtain ⟨f1, rfl⟩ : ∃ f, fuel = f + 1 := ⟨fuel - 1, by omega⟩
  unfold gatherLoop
  simp

theorem gatherLoop_spec (B : Bytes) (L : Nat) (key : Bytes) (unique : Bool) :
    ∀ (rem : List (Bytes × Bytes)) (fuel nr p : Nat) (cur : Bytes × Bytes)
      (dst : Bytes) (found0 : Bool),
    rem.length + 1 < fuel →
    DecodesTo B L p cur.1 rem →
    (gatherLoop unique fuel (mkIter B L nr p cur.1 cur.2 true) key dst found0 false).1
      = dst ++ concatBytes ((if unique
          then ((cur :: rem).takeWhile (fun e => e.1 == key)).take 1
          else (cur :: rem).takeWhile (fun e => e.1 == key)).map Prod.snd) ∧
    (gatherLoop unique fuel (mkIter B L nr p cur.1 cur.2 true) key dst found0 false).2.1
      = (found0 || !((cur :: rem).takeWhile (fun e => e.1 == key)).isEmpty) ∧
    (gatherLoop unique fuel (mkIter B L nr p cur.1 cur.2 true) key dst found0 false).2.2.1
      = (if unique && !((cur :: rem).takeWhile (fun e => e.1 == key)).isEmpty then true
         else !((cur :: rem).dropWhile (fun e => e.1 == key)).isEmpty) ∧
    (gatherLoop unique fuel (mkIter B L nr p cur.1 cur.2 true) key dst found0
      false).2.2.2.corrupt = false := by
  intro rem
  induction rem with
  | nil =>
    intro fuel nr p cur dst found0 hfuel hdec
    obtain ⟨f1, rfl⟩ : ∃ f, fuel = f + 1 := ⟨fuel - 1, by omega⟩
    unfold DecodesTo at hdec
    have hstep : (mkIter B L nr p cur.1 cur.2 true).stepNext
        = mkIter B L nr p cur.1 cur.2 false := by
      unfold BlockIter.stepNext mkIter
      subst hdec
      simp
    unfold gatherLoop
    simp only [mkIter_valid, mkIter_key, mkIter_value, Bool.not_false, Bool.true_and,
      Bool.and_self, eq_self_iff_true, if_true]
    rw [List.takeWhile_cons, List.dropWhile_cons]
    by_cases hq : (cur.1 == key) = true
    · simp only [hq, eq_self_iff_true, if_true]
      rw [hstep]
      by_cases hu : unique = true
      · subst hu
        simp only [eq_self_iff_true, if_true]
        rw [gatherLoop_invalid true f1 (by omega) _ rfl key (dst ++ cur.2) true true]
        simp [concatBytes, mkIter_corrupt]
      · have hu2 : unique = false := by
          cases unique
          · rfl
          · exact absurd rfl hu
        subst hu2
        simp only [Bool.false_eq_true, if_false]
        rw [gatherLoop_invalid false f1 (by omega) _ rfl key (dst ++ cur.2) true false]
        simp [concatBytes, mkIter_corrupt]
    · rw [Bool.not_eq_true] at hq
      simp only [hq, Bool.false_eq_true, if_false]
      rw [hstep]
      rw [gatherLoop_invalid unique f1 (by omega) _ rfl key dst found0 true]
      simp [concatBytes, mkIter_corrupt]
  | cons c rest ih =>
    intro fuel nr p cur dst found0 hfuel hdec
    obtain ⟨f1, rfl⟩ : ∃ f, fuel = f + 1 := ⟨fuel - 1, by omega⟩
    unfold DecodesTo at hdec
    obtain ⟨nxt, hparse, hdec2⟩ := hdec
    have hplt : p < L := parseEntry_some_lt B L p cur.1 _ hparse
    have hstep : (mkIter B L nr p cur.1 cur.2 true).stepNext
        = mkIter B L nr nxt c.1 c.2 true := by
      unfold BlockIter.stepNext mkIter
      simp only [if_neg (show ¬ L ≤ p by omega)]
      rw [hparse]
    unfold gatherLoop
    simp only [mkIter_valid, mkIter_key, mkIter_value, Bool.not_false, Bool.true_and,
      Bool.and_self, eq_self_iff_true, if_true]
    rw [List.takeWhile_cons, List.dropWhile_cons]
    by_cases hq : (cur.1 == key) = true
    · simp only [hq, eq_self_iff_true, if_true]
      rw [hstep]
      by_cases hu : unique = true
      · subst hu
        simp only [eq_self_iff_true, if_true]
        obtain ⟨f2, rfl⟩ : ∃ f, f1 = f + 1 := ⟨f1 - 1, by omega⟩
        unfold gatherLoop
        simp [concatBytes, mkIter_corrupt, mkIter_valid]
      · have hu2 : unique = false := by
          cases unique
          · rfl
          · exact absurd rfl hu
        subst hu2
        simp only [Bool.false_eq_true, if_false]
        have hih := ih f1 nr nxt c (dst ++ cur.2) true (by simp at hfuel ⊢; omega) hdec2
        refine ⟨?_, ?_, ?_, hih.2.2.2⟩
        · rw [hih.1]
          simp [concatBytes, List.append_assoc]
        · rw [hih.2.1]
          simp
        · rw [hih.2.2.1]
          simp
    · rw [Bool.not_eq_true] at hq
      simp only [hq, Bool.false_eq_true, if_false]
      rw [hstep]
      rw [gatherLoop_eok unique f1 (by omega) _ key dst found0]
      simp [concatBytes, mkIter_corrupt]

theorem skipLess_invalid (fuel : Nat) (hf : 0 < fuel) (it : BlockIter)
    (hv : it.valid = false) (target : Bytes) : skipLess fuel it target = it := by
  obtain ⟨f1, rfl⟩ : ∃ f, fuel = f + 1 := ⟨fuel - 1, by omega⟩
  unfold skipLess
  rw [hv]
  simp

theorem statusBI_of_not_corrupt (it : BlockIter) (h : it.corrupt = false) :
    it.statusBI = Status.ok := by
  unfold BlockIter.statusBI
  rw [h]
  simp

theorem iter_eq_mkIter (it : BlockIter) (B : Bytes) (L : Nat) (k v : Bytes) (bl : Bool)
    (hc : it.contents = B) (hro : it.restartOffset = L) (hk : it.key = k)
    (hv : it.value = v) (hval : it.valid = bl) (hcor : it.corrupt = false) :
    it = mkIter B L it.numRestarts it.pos k v bl := by
  obtain ⟨c, ro, nr, p, kk, vv, vl, cor⟩ := it
  simp only at hc hro hk hv hval hcor
  subst hc
  subst hro
  subst hk
  subst hv
  subst hval
  subst hcor
  rfl

theorem dataBlockGet_spec (rd : PlfsIoReader) (key : Bytes) (handle : BlockHandle)
    (dst : Bytes) (es : List (Bytes × Bytes)) (restarts : List Nat) (B : Bytes)
    (hread : readBlock rd.dataSrc rd.options handle.offset handle.size true
      = (Status.ok, B))
    (hg : GoodBlockR 16 es restarts B)
    (hsorted : List.Pairwise (fun a b : Bytes × Bytes => bytesLe a.1 b.1 = true) es) :
    rd.dataBlockGet key handle dst =
      (Status.ok,
       dst ++ concatBytes ((if rd.options.uniqueKeys
          then ((es.dropWhile (fun e => bytesLt e.1 key)).takeWhile
            (fun e => e.1 == key)).take 1
          else (es.dropWhile (fun e => bytesLt e.1 key)).takeWhile
            (fun e => e.1 == key)).map Prod.snd),
       !((es.dropWhile (fun e => bytesLt e.1 key)).takeWhile
            (fun e => e.1 == key)).isEmpty,
       (if rd.options.uniqueKeys
            && !((es.dropWhile (fun e => bytesLt e.1 key)).takeWhile
              (fun e => e.1 == key)).isEmpty then true
        else !((es.dropWhile (fun e => bytesLt e.1 key)).dropWhile
          (fun e => e.1 == key)).isEmpty)) := by
  have hBlen := goodBlockR_length 16 es restarts B hg
  have hles := encodeEntries_length_ge 16 es [] 0
  have hinit := goodBlockR_iterInit_mk 16 es restarts B hg
  unfold PlfsIoReader.dataBlockGet
  rw [hread]
  simp only [Status.isOk, Bool.not_true, Bool.false_eq_true, if_false]
  by_cases huniq : rd.options.uniqueKeys = true
  · rw [huniq]
    simp only [if_true, eq_self_iff_true]
    have hseek := seek_spec 16 es restarts B hg hsorted key
    obtain ⟨hc, hro, hcor, hmatch⟩ := hseek
    cases hrem : es.dropWhile (fun e => bytesLt e.1 key) with
    | nil =>
      rw [hrem] at hmatch
      rw [gatherLoop_invalid true (B.length + 1) (by omega) _ hmatch key dst false false]
      rw [statusBI_of_not_corrupt _ hcor]
      simp [concatBytes]
    | cons cur post =>
      rw [hrem] at hmatch
      obtain ⟨hval, hkey, hvalue, hdec⟩ := hmatch
      have hiter := iter_eq_mkIter ((blockIterInit B).seek key) B
        (encodeEntries 16 es [] 0).length cur.1 cur.2 true hc hro hkey hvalue hval hcor
      rw [hiter]
      have hfuel : post.length + 1 < B.length + 1 := by
        have h1 : es.length = (es.takeWhile (fun e => bytesLt e.1 key)).length
            + (cur :: post).length := by
          rw [← hrem, ← List.length_append, List.takeWhile_append_dropWhile]
        simp only [List.length_cons] at h1
        omega
      have hgather := gatherLoop_spec B (encodeEntries 16 es [] 0).length key true post
        (B.length + 1) ((blockIterInit B).seek key).numRestarts
        ((blockIterInit B).seek key).pos cur dst false hfuel hdec
      obtain ⟨hg1, hg2, hg3, hg4⟩ := hgather
      rw [statusBI_of_not_corrupt _ hg4, hg1, hg2, hg3]
      simp
  · have huniq2 : rd.options.uniqueKeys = false := by
      cases h : rd.options.uniqueKeys
      · rfl
      · exact absurd h huniq
    rw [huniq2]
    simp only [Bool.false_eq_true, if_false]
    have hdec0 := goodBlockR_decodes0 16 es restarts B hg
    have hrp0 : (mkIter B (encodeEntries 16 es [] 0).length restarts.length 0 [] []
        false).restartPoint 0 = 0 := by
      rw [← hinit]
      rw [goodBlockR_restartPoint 16 es restarts B hg 0 (by
        rw [hg.2.2.2.2.1]
        exact Nat.succ_le_succ (Nat.zero_le _))]
      exact goodBlockR_restart0 16 es restarts B hg
    have hstf : (blockIterInit B).seekToFirst
        = (mkIter B (encodeEntries 16 es [] 0).length restarts.length 0 [] []
            false).stepNext := by
      unfold BlockIter.seekToFirst
      rw [hinit, hrp0]
      rfl
    cases hes : es with
    | nil =>
      have hstep : (mkIter B (encodeEntries 16 es [] 0).length restarts.length 0 [] []
          false).stepNext = mkIter B (encodeEntries 16 es [] 0).length restarts.length
            0 [] [] false := by
        subst hes
        unfold DecodesTo at hdec0
        unfold BlockIter.stepNext mkIter
        simp only [mkIter_valid]
        rw [if_pos (by omega)]
      rw [hstf, hstep]
      rw [skipLess_invalid (B.length + 1) (by omega) _ rfl key]
      rw [gatherLoop_invalid false (B.length + 1) (by omega) _ rfl key dst false false]
      rw [statusBI_of_not_corrupt _ rfl]
      subst hes
      simp [concatBytes]
    | cons cur post =>
      subst hes
      unfold DecodesTo at hdec0
      obtain ⟨nxt, hparse, hdec2⟩ := hdec0
      have hplt : 0 < (encodeEntries 16 (cur :: post) [] 0).length :=
        parseEntry_some_lt B _ 0 [] _ hparse
      have hstep : (mkIter B (encodeEntries 16 (cur :: post) [] 0).length
          restarts.length 0 [] [] false).stepNext
          = mkIter B (encodeEntries 16 (cur :: post) [] 0).length restarts.length
            nxt cur.1 cur.2 true := by
        unfold BlockIter.stepNext mkIter
        simp only [if_neg (show ¬ (encodeEntries 16 (cur :: post) [] 0).length ≤ 0
          by omega)]
        rw [hparse]
      rw [hstf, hstep]
      have hfuel : post.length + 1 < B.length + 1 := by
        simp only [List.length_cons] at hles
        omega
      have hskip := skipLess_spec B (encodeEntries 16 (cur :: post) [] 0).length key
        post (B.length + 1) restarts.length nxt cur hfuel hdec2
      obtain ⟨hc, hro, hcor, hmatch⟩ := hskip
      cases hrem : (cur :: post).dropWhile (fun e => bytesLt e.1 key) with
      | nil =>
        rw [hrem] at hmatch
        rw [gatherLoop_invalid false (B.length + 1) (by omega) _ hmatch key dst
          false false]
        rw [statusBI_of_not_corrupt _ hcor]
        simp [concatBytes]
      | cons cur2 post2 =>
        rw [hrem] at hmatch
        obtain ⟨hval, hkey, hvalue, hdec3⟩ := hmatch
        have hiter := iter_eq_mkIter (skipLess (B.length + 1) (mkIter B
          (encodeEntries 16 (cur :: post) [] 0).length restarts.length nxt cur.1
          cur.2 true) key) B (encodeEntries 16 (cur :: post) [] 0).length cur2.1
          cur2.2 true hc hro hkey hvalue hval hcor
        rw [hiter]
        have hfuel2 : post2.length + 1 < B.length + 1 := by
          have h1 : (cur :: post).length
              = ((cur :: post).takeWhile (fun e => bytesLt e.1 key)).length
                + (cur2 :: post2).length := by
            rw [← hrem, ← List.length_append, List.takeWhile_append_dropWhile]
          simp only [List.length_cons] at h1 hles
          omega
        have hgather := gatherLoop_spec B (encodeEntries 16 (cur :: post) [] 0).length
          key false post2 (B.length + 1)
          (skipLess (B.length + 1) (mkIter B
            (encodeEntries 16 (cur :: post) [] 0).length restarts.length nxt cur.1
            cur.2 true) key).numRestarts
          (skipLess (B.length + 1) (mkIter B
            (encodeEntries 16 (cur :: post) [] 0).length restarts.length nxt cur.1
            cur.2 true) key).pos cur2 dst false hfuel2 hdec3
        obtain ⟨hg1, hg2, hg3, hg4⟩ := hgather
        rw [statusBI_of_not_corrupt _ hg4, hg1, hg2, hg3]
        simp

/-! ## Sorted-run and filter utilities -/

theorem concatBytes_append (a b : List Bytes) :
    concatBytes (a ++ b) = concatBytes a ++ concatBytes b := by
  induction a with
  | nil => simp [concatBytes]
  | cons x xs ih =>
    simp only [List.cons_append, concatBytes, List.foldr_cons] at *
    rw [ih, List.append_assoc]

theorem takeWhile_eq_filter_of_ge (key : Bytes) : ∀ (es : List (Bytes × Bytes)),
    List.Pairwise (fun a b : Bytes × Bytes => bytesLe a.1 b.1 = true) es →
    (∀ x ∈ es, bytesLe key x.1 = true) →
    es.takeWhile (fun e => e.1 == key) = es.filter (fun e => e.1 == key) := by
  intro es
  induction es with
  | nil => intro _ _; rfl
  | cons y ys ih =>
    intro hs hall
    rw [List.takeWhile_cons, List.filter_cons]
    by_cases hq : (y.1 == key) = true
    · rw [hq]
      simp only [if_true]
      rw [ih (List.pairwise_cons.mp hs).2 (fun x hx => hall x (by simp [hx]))]
    · rw [Bool.not_eq_true] at hq
      rw [hq]
      simp only [Bool.false_eq_true, if_false]
      have hky : bytesLt key y.1 = true := by
        rw [bytesLt_eq_not_le]
        rcases Bool.eq_false_or_eq_true (bytesLe y.1 key) with h | h
        · have hkeq := bytesLe_antisymm _ _ (hall y (by simp)) h
          rw [hkeq] at hq
          simp at hq
        · rw [h]
          rfl
      symm
      rw [List.filter_eq_nil_iff]
      intro z hz
      have hyz := (List.pairwise_cons.mp hs).1 z hz
      have : bytesLt key z.1 = true := bytesLt_of_lt_of_le _ _ _ hky hyz
      intro hzk
      rw [beq_iff_eq] at hzk
      rw [hzk] at this
      rw [bytesLt_eq_not_le] at this
      rw [bytesLe_refl] at this
      simp at this

theorem sorted_gather_filter (key : Bytes) : ∀ (es : List (Bytes × Bytes)),
    List.Pairwise (fun a b : Bytes × Bytes => bytesLe a.1 b.1 = true) es →
    (es.dropWhile (fun e => bytesLt e.1 key)).takeWhile (fun e => e.1 == key)
      = es.filter (fun e => e.1 == key) := by
  intro es
  induction es with
  | nil => intro _; rfl
  | cons e rest ih =>
    intro hs
    rw [List.dropWhile_cons, List.filter_cons]
    by_cases hlt : bytesLt e.1 key = true
    · rw [hlt]
      simp only [if_true]
      have hne : (e.1 == key) = false := by
        rw [beq_eq_false_iff_ne]
        intro hk
        rw [hk, bytesLt_eq_not_le, bytesLe_refl] at hlt
        simp at hlt
      rw [hne]
      simp only [Bool.false_eq_true, if_false]
      exact ih (List.pairwise_cons.mp hs).2
    · rw [Bool.not_eq_true] at hlt
      rw [hlt]
      simp only [Bool.false_eq_true, if_false]
      have hgekey : bytesLe key e.1 = true := by
        rw [bytesLt_eq_not_le] at hlt
        simp only [Bool.not_eq_false'] at hlt
        exact hlt
      rw [takeWhile_eq_filter_of_ge key (e :: rest) hs ?hall]
      · rw [List.filter_cons]
      case hall =>
        intro x hx
        rcases List.mem_cons.mp hx with h | h
        · rw [h]; exact hgekey
        · exact bytesLe_trans _ _ _ hgekey ((List.pairwise_cons.mp hs).1 x h)

theorem strict_filter_take1 (key : Bytes) : ∀ (es : List (Bytes × Bytes)),
    List.Pairwise (fun a b : Bytes × Bytes => bytesLt a.1 b.1 = true) es →
    (es.filter (fun e => e.1 == key)).take 1 = es.filter (fun e => e.1 == key) := by
  intro es
  induction es with
  | nil => intro _; rfl
  | cons e rest ih =>
    intro hs
    rw [List.filter_cons]
    by_cases hq : (e.1 == key) = true
    · rw [hq]
      simp only [if_true]
      have hnil : rest.filter (fun e => e.1 == key) = [] := by
        rw [List.filter_eq_nil_iff]
        intro z hz hzk
        rw [beq_iff_eq] at hq hzk
        have := (List.pairwise_cons.mp hs).1 z hz
        rw [hq, hzk, bytesLt_eq_not_le, bytesLe_refl] at this
        simp at this
      rw [hnil]
      rfl
    · rw [Bool.not_eq_true] at hq
      rw [hq]
      simp only [Bool.false_eq_true, if_false]
      exact ih (List.pairwise_cons.mp hs).2

theorem dropWhile_head_not {p : Bytes × Bytes → Bool} :
    ∀ (l : List (Bytes × Bytes)) (x : Bytes × Bytes) (xs : List (Bytes × Bytes)),
    l.dropWhile p = x :: xs → p x = false := by
  intro l
  induction l with
  | nil => intro x xs h; cases h
  | cons y ys ih =>
    intro x xs h
    rw [List.dropWhile_cons] at h
    by_cases hy : p y = true
    · rw [hy] at h
      simp only [if_true] at h
      exact ih x xs h
    · rw [Bool.not_eq_true] at hy
      rw [hy] at h
      simp only [Bool.false_eq_true, if_false] at h
      cases h
      exact hy

theorem rem_ge (key : Bytes) (es : List (Bytes × Bytes))
    (hs : List.Pairwise (fun a b : Bytes × Bytes => bytesLe a.1 b.1 = true) es) :
    ∀ x ∈ es.dropWhile (fun e => bytesLt e.1 key), bytesLe key x.1 = true := by
  intro x hx
  cases hrem : es.dropWhile (fun e => bytesLt e.1 key) with
  | nil =>
    rw [hrem] at hx
    cases hx
  | cons h0 rest =>
    rw [hrem] at hx
    have hh0 : bytesLt h0.1 key = false := dropWhile_head_not es h0 rest hrem
    have hkeyle : bytesLe key h0.1 = true := by
      rw [bytesLt_eq_not_le] at hh0
      simp only [Bool.not_eq_false'] at hh0
      exact hh0
    rcases List.mem_cons.mp hx with h | h
    · rw [h]
      exact hkeyle
    · have hsub : List.Pairwise (fun a b : Bytes × Bytes => bytesLe a.1 b.1 = true)
          (h0 :: rest) := by
        rw [← hrem]
        exact hs.sublist (List.dropWhile_sublist _)
      exact bytesLe_trans _ _ _ hkeyle ((List.pairwise_cons.mp hsub).1 x h)

theorem eok_witness (key : Bytes) (es : List (Bytes × Bytes))
    (hs : List.Pairwise (fun a b : Bytes × Bytes => bytesLe a.1 b.1 = true) es)
    (h : ((es.dropWhile (fun e => bytesLt e.1 key)).dropWhile
      (fun e => e.1 == key)).isEmpty = false) :
    ∃ w ∈ es, bytesLt key w.1 = true := by
  cases hdw : (es.dropWhile (fun e => bytesLt e.1 key)).dropWhile
      (fun e => e.1 == key) with
  | nil =>
    rw [hdw] at h
    simp at h
  | cons w ws =>
    have hwmem1 : w ∈ es.dropWhile (fun e => bytesLt e.1 key) := by
      have : w ∈ (es.dropWhile (fun e => bytesLt e.1 key)).dropWhile
          (fun e => e.1 == key) := by
        rw [hdw]
        simp
      exact (List.dropWhile_sublist _).subset this
    have hwmem : w ∈ es := (List.dropWhile_sublist _).subset hwmem1
    have hwne : (w.1 == key) = false :=
      dropWhile_head_not (es.dropWhile (fun e => bytesLt e.1 key)) w ws hdw
    have hwge : bytesLe key w.1 = true := rem_ge key es hs w hwmem1
    refine ⟨w, hwmem, ?_⟩
    rw [bytesLt_eq_not_le]
    rcases Bool.eq_false_or_eq_true (bytesLe w.1 key) with h2 | h2
    · have hkeq := bytesLe_antisymm _ _ hwge h2
      rw [← hkeq] at hwne
      simp at hwne
    · rw [h2]
      rfl

theorem dataBlockGet_filter (rd : PlfsIoReader) (key : Bytes) (handle : BlockHandle)
    (dst : Bytes) (es : List (Bytes × Bytes)) (restarts : List Nat) (B : Bytes)
    (hread : readBlock rd.dataSrc rd.options handle.offset handle.size true
      = (Status.ok, B))
    (hg : GoodBlockR 16 es restarts B)
    (hsorted : List.Pairwise (fun a b : Bytes × Bytes => bytesLe a.1 b.1 = true) es)
    (hstrict : rd.options.uniqueKeys = true →
      List.Pairwise (fun a b : Bytes × Bytes => bytesLt a.1 b.1 = true) es) :
    rd.dataBlockGet key handle dst =
      (Status.ok,
       dst ++ concatBytes ((es.filter (fun e => e.1 == key)).map Prod.snd),
       !(es.filter (fun e => e.1 == key)).isEmpty,
       (if rd.options.uniqueKeys && !(es.filter (fun e => e.1 == key)).isEmpty
        then true
        else !((es.dropWhile (fun e => bytesLt e.1 key)).dropWhile
          (fun e => e.1 == key)).isEmpty)) := by
  rw [dataBlockGet_spec rd key handle dst es restarts B hread hg hsorted]
  rw [sorted_gather_filter key es hsorted]
  by_cases huniq : rd.options.uniqueKeys = true
  · rw [huniq]
    simp only [if_true, eq_self_iff_true]
    rw [strict_filter_take1 key es (hstrict huniq)]
  · have huniq2 : rd.options.uniqueKeys = false := by
      cases h : rd.options.uniqueKeys
      · rfl
      · exact absurd h huniq
    rw [huniq2]
    simp only [Bool.false_eq_true, if_false]

/-- The concatenation of the data chunks of a list of (index entry,
chunk) pairs. -/
def flatChunks : List ((Bytes × Bytes) × List (Bytes × Bytes)) → List (Bytes × Bytes)
  | [] => []
  | e :: r => e.2 ++ flatChunks r

theorem listIsEmpty_append {α : Type} (a b : List α) :
    (a ++ b).isEmpty = (a.isEmpty && b.isEmpty) := by
  cases a <;> simp

theorem filter_nil_of_none {α : Type} (p : α → Bool) :
    ∀ (l : List α), (∀ a ∈ l, p a = false) → l.filter p = [] := by
  intro l
  induction l with
  | nil => intro _; rfl
  | cons x xs ih =>
    intro h
    rw [List.filter_cons, h x (List.mem_cons_self x xs)]
    simp only [Bool.false_eq_true, if_false]
    exact ih (fun a ha => h a (List.mem_cons_of_mem _ ha))

theorem later_filter_nil (key : Bytes) (later : List (Bytes × Bytes))
    (h : ∀ z ∈ later, bytesLt key z.1 = true) :
    later.filter (fun e => e.1 == key) = [] := by
  apply filter_nil_of_none
  intro z hz
  cases hpz : (z.1 == key)
  · rfl
  · have hzk : z.1 = key := eq_of_beq hpz
    have h2 := h z hz
    rw [hzk, bytesLt_irrefl] at h2
    cases h2

/-- A well-formed (index entry, data chunk) pair of a table: the index
value decodes to a handle, reading that handle from the data log yields
a well-formed block holding exactly the chunk's entries, and every entry
key is bounded by the index entry's separator key. -/
def ChunkOK (rd : PlfsIoReader) (e : (Bytes × Bytes) × List (Bytes × Bytes)) : Prop :=
  ∃ bh rest2 restarts B,
    BlockHandle.decodeFrom e.1.2 = some (bh, rest2) ∧
    readBlock rd.dataSrc rd.options bh.offset bh.size true = (Status.ok, B) ∧
    GoodBlockR 16 e.2 restarts B ∧
    (∀ x ∈ e.2, bytesLe x.1 e.1.1 = true)

theorem tableLoop_exit (rd : PlfsIoReader) (key : Bytes) (fuel : Nat) (hf : 0 < fuel)
    (it : BlockIter) (dst : Bytes) (found eok : Bool) (status : Status)
    (hcond : (status.isOk && !eok && it.valid) = false) :
    tableLoop rd key fuel it dst found eok status = (status, dst, found, it) := by
  obtain ⟨f1, rfl⟩ : ∃ f, fuel = f + 1 := ⟨fuel - 1, by omega⟩
  unfold tableLoop
  rw [hcond]
  simp

theorem tableLoop_spec (rd : PlfsIoReader) (key IB : Bytes) (L : Nat) :
    ∀ (rest : List ((Bytes × Bytes) × List (Bytes × Bytes))) (fuel nr p : Nat)
      (cur : (Bytes × Bytes) × List (Bytes × Bytes)) (dst : Bytes) (found0 : Bool),
    rest.length + 1 < fuel →
    DecodesTo IB L p cur.1.1 (rest.map Prod.fst) →
    ChunkOK rd cur →
    (∀ e ∈ rest, ChunkOK rd e) →
    List.Pairwise (fun a b : Bytes × Bytes => bytesLe a.1 b.1 = true)
      (cur.2 ++ flatChunks rest) →
    (rd.options.uniqueKeys = true →
      List.Pairwise (fun a b : Bytes × Bytes => bytesLt a.1 b.1 = true)
        (cur.2 ++ flatChunks rest)) →
    (tableLoop rd key fuel (mkIter IB L nr p cur.1.1 cur.1.2 true) dst found0 false
      Status.ok).1 = Status.ok ∧
    (tableLoop rd key fuel (mkIter IB L nr p cur.1.1 cur.1.2 true) dst found0 false
      Status.ok).2.1 = dst ++ concatBytes
        (((cur.2 ++ flatChunks rest).filter (fun e => e.1 == key)).map Prod.snd) ∧
    (tableLoop rd key fuel (mkIter IB L nr p cur.1.1 cur.1.2 true) dst found0 false
      Status.ok).2.2.1 = (found0 ||
        !((cur.2 ++ flatChunks rest).filter (fun e => e.1 == key)).isEmpty) ∧
    (tableLoop rd key fuel (mkIter IB L nr p cur.1.1 cur.1.2 true) dst found0 false
      Status.ok).2.2.2.corrupt = false := by
  intro rest
  induction rest with
  | nil =>
    intro fuel nr p cur dst found0 hfuel hdec hcur _ hglob hstrictG
    obtain ⟨f1, rfl⟩ : ∃ f, fuel = f + 1 := ⟨fuel - 1, by omega⟩
    simp only [flatChunks, List.append_nil] at hglob hstrictG ⊢
    obtain ⟨bh, rest2, restartsC, Bc, hdecode, hreadC, hgoodC, hsepC⟩ := hcur
    have hdbg := dataBlockGet_filter rd key bh dst cur.2 restartsC Bc hreadC hgoodC
      hglob hstrictG
    unfold DecodesTo at hdec
    have hstep : (mkIter IB L nr p cur.1.1 cur.1.2 true).stepNext
        = mkIter IB L nr p cur.1.1 cur.1.2 false := by
      unfold BlockIter.stepNext mkIter
      subst hdec
      simp
    unfold tableLoop
    simp only [Status.isOk, mkIter_valid, mkIter_value, Bool.not_false, Bool.true_and,
      Bool.and_true, Bool.and_self, eq_self_iff_true, if_true]
    rw [hdecode]
    simp only [hdbg]
    rw [hstep]
    rw [tableLoop_exit rd key f1 (by omega) _ _ _ _ _ (by simp [mkIter_valid])]
    simp [mkIter_corrupt]
  | cons e2 rest2 ih =>
    intro fuel nr p cur dst found0 hfuel hdec hcur hrest hglob hstrictG
    obtain ⟨f1, rfl⟩ : ∃ f, fuel = f + 1 := ⟨fuel - 1, by omega⟩
    simp only [List.length_cons] at hfuel
    simp only [flatChunks] at hglob hstrictG ⊢
    have hsplit := List.pairwise_append.mp hglob
    have hcs := hsplit.1
    have hlater := hsplit.2.1
    have hcross := hsplit.2.2
    have hstrictC : rd.options.uniqueKeys = true →
        List.Pairwise (fun a b : Bytes × Bytes => bytesLt a.1 b.1 = true) cur.2 :=
      fun hu => (List.pairwise_append.mp (hstrictG hu)).1
    obtain ⟨bh, rest3, restartsC, Bc, hdecode, hreadC, hgoodC, hsepC⟩ := hcur
    have hdbg := dataBlockGet_filter rd key bh dst cur.2 restartsC Bc hreadC hgoodC
      hcs hstrictC
    simp only [List.map_cons] at hdec
    unfold DecodesTo at hdec
    obtain ⟨nxt, hparse, hdec2⟩ := hdec
    have hplt : p < L := parseEntry_some_lt IB L p cur.1.1 _ hparse
    have hstep : (mkIter IB L nr p cur.1.1 cur.1.2 true).stepNext
        = mkIter IB L nr nxt e2.1.1 e2.1.2 true := by
      unfold BlockIter.stepNext mkIter
      simp only [if_neg (show ¬ L ≤ p by omega)]
      rw [hparse]
    unfold tableLoop
    simp only [Status.isOk, mkIter_valid, mkIter_value, Bool.not_false, Bool.true_and,
      Bool.and_true, Bool.and_self, eq_self_iff_true, if_true]
    rw [hdecode]
    simp only [hdbg]
    rw [hstep]
    by_cases hub : (rd.options.uniqueKeys
        && !((cur.2.filter (fun e => e.1 == key)).isEmpty)) = true
    · have hub0 := hub
      simp only [Bool.and_eq_true] at hub0
      obtain ⟨hu, hne⟩ := hub0
      have hlaterNil : (e2.2 ++ flatChunks rest2).filter (fun e => e.1 == key) = [] := by
        apply later_filter_nil
        intro z hz
        have hnef : (cur.2.filter (fun e => e.1 == key)).isEmpty = false := by
          cases h : (cur.2.filter (fun e => e.1 == key)).isEmpty
          · rfl
          · rw [h] at hne
            cases hne
        obtain ⟨x, hx⟩ : ∃ x, x ∈ cur.2.filter (fun e => e.1 == key) := by
          cases hfc : cur.2.filter (fun e => e.1 == key) with
          | nil =>
            rw [hfc] at hnef
            cases hnef
          | cons x xs => exact ⟨x, List.mem_cons_self x xs⟩
        obtain ⟨hxmem, hxk⟩ := List.mem_filter.mp hx
        have hxk2 : x.1 = key := eq_of_beq hxk
        have hlt := (List.pairwise_append.mp (hstrictG hu)).2.2 x hxmem z hz
        rw [hxk2] at hlt
        exact hlt
      rw [hub]
      simp only [if_true]
      rw [tableLoop_exit rd key f1 (by omega) _ _ _ _ _ (by simp)]
      simp [mkIter_corrupt, List.filter_append, hlaterNil]
    · have hub2 : (rd.options.uniqueKeys
          && !((cur.2.filter (fun e => e.1 == key)).isEmpty)) = false := by
        cases h : (rd.options.uniqueKeys
            && !((cur.2.filter (fun e => e.1 == key)).isEmpty))
        · rfl
        · exact absurd h hub
      rw [hub2]
      simp only [Bool.false_eq_true, if_false]
      cases hdw : ((cur.2.dropWhile (fun e => bytesLt e.1 key)).dropWhile
          (fun e => e.1 == key)).isEmpty
      · have hlaterNil : (e2.2 ++ flatChunks rest2).filter (fun e => e.1 == key)
            = [] := by
          apply later_filter_nil
          intro z hz
          obtain ⟨w, hwmem, hwlt⟩ := eok_witness key cur.2 hcs hdw
          exact bytesLt_of_lt_of_le key w.1 z.1 hwlt (hcross w hwmem z hz)
        simp only [Bool.not_false]
        rw [tableLoop_exit rd key f1 (by omega) _ _ _ _ _ (by simp)]
        simp [mkIter_corrupt, List.filter_append, hlaterNil]
      · simp only [Bool.not_true]
        have hih := ih f1 nr nxt e2
          (dst ++ concatBytes ((cur.2.filter (fun e => e.1 == key)).map Prod.snd))
          (found0 || !(cur.2.filter (fun e => e.1 == key)).isEmpty)
          (by omega) hdec2 (hrest e2 (List.mem_cons_self e2 rest2))
          (fun e he => hrest e (List.mem_cons_of_mem _ he))
          hlater
          (fun hu => (List.pairwise_append.mp (hstrictG hu)).2.1)
        obtain ⟨hi1, hi2, hi3, hi4⟩ := hih
        refine ⟨hi1, ?_, ?_, hi4⟩
        · rw [hi2]
          simp [List.filter_append, List.map_append, concatBytes_append,
            List.append_assoc]
        · rw [hi3]
          simp [List.filter_append, listIsEmpty_append, Bool.not_and, Bool.or_assoc]

theorem skipFromStart_spec (r : Nat) (es : List (Bytes × Bytes)) (restarts : List Nat)
    (B : Bytes) (hg : GoodBlockR r es restarts B) (target : Bytes) :
    (skipLess (B.length + 1) (blockIterInit B).seekToFirst target).contents = B ∧
    (skipLess (B.length + 1) (blockIterInit B).seekToFirst target).restartOffset
      = (encodeEntries r es [] 0).length ∧
    (skipLess (B.length + 1) (blockIterInit B).seekToFirst target).corrupt = false ∧
    (match es.dropWhile (fun e => bytesLt e.1 target) with
     | [] => (skipLess (B.length + 1) (blockIterInit B).seekToFirst target).valid = false
     | cur :: post =>
        (skipLess (B.length + 1) (blockIterInit B).seekToFirst target).valid = true ∧
        (skipLess (B.length + 1) (blockIterInit B).seekToFirst target).key = cur.1 ∧
        (skipLess (B.length + 1) (blockIterInit B).seekToFirst target).value = cur.2 ∧
        DecodesTo B (encodeEntries r es [] 0).length
          (skipLess (B.length + 1) (blockIterInit B).seekToFirst target).pos
          cur.1 post) := by
  have hinit := goodBlockR_iterInit_mk r es restarts B hg
  have hles := encodeEntries_length_ge r es [] 0
  have hBlen := goodBlockR_length r es restarts B hg
  have hdec0 := goodBlockR_decodes0 r es restarts B hg
  have hrp0 : (mkIter B (encodeEntries r es [] 0).length restarts.length 0 [] []
      false).restartPoint 0 = 0 := by
    rw [← hinit]
    rw [goodBlockR_restartPoint r es restarts B hg 0 (by
      rw [hg.2.2.2.2.1]
      exact Nat.succ_le_succ (Nat.zero_le _))]
    exact goodBlockR_restart0 r es restarts B hg
  have hstf : (blockIterInit B).seekToFirst
      = (mkIter B (encodeEntries r es [] 0).length restarts.length 0 [] []
          false).stepNext := by
    unfold BlockIter.seekToFirst
    rw [hinit, hrp0]
    rfl
  cases hes : es with
  | nil =>
    have hstep : (mkIter B (encodeEntries r es [] 0).length restarts.length 0 [] []
        false).stepNext = mkIter B (encodeEntries r es [] 0).length restarts.length
          0 [] [] false := by
      subst hes
      unfold DecodesTo at hdec0
      unfold BlockIter.stepNext mkIter
      simp only [mkIter_valid]
      rw [if_pos (by omega)]
    rw [hstf, hstep]
    rw [skipLess_invalid (B.length + 1) (by omega) _ rfl target]
    subst hes
    simp [mkIter_contents, mkIter_restartOffset, mkIter_corrupt, mkIter_valid]
  | cons cur post =>
    subst hes
    unfold DecodesTo at hdec0
    obtain ⟨nxt, hparse, hdec2⟩ := hdec0
    have hplt : 0 < (encodeEntries r (cur :: post) [] 0).length :=
      parseEntry_some_lt B _ 0 [] _ hparse
    have hstep : (mkIter B (encodeEntries r (cur :: post) [] 0).length
        restarts.length 0 [] [] false).stepNext
        = mkIter B (encodeEntries r (cur :: post) [] 0).length restarts.length
          nxt cur.1 cur.2 true := by
      unfold BlockIter.stepNext mkIter
      simp only [if_neg (show ¬ (encodeEntries r (cur :: post) [] 0).length ≤ 0
        by omega)]
      rw [hparse]
    rw [hstf, hstep]
    have hfuel : post.length + 1 < B.length + 1 := by
      simp only [List.length_cons] at hles
      omega
    exact skipLess_spec B (encodeEntries r (cur :: post) [] 0).length target
      post (B.length + 1) restarts.length nxt cur hfuel hdec2

theorem flatChunks_append (a b : List ((Bytes × Bytes) × List (Bytes × Bytes))) :
    flatChunks (a ++ b) = flatChunks a ++ flatChunks b := by
  induction a with
  | nil => rfl
  | cons e r ih =>
    simp only [List.cons_append, flatChunks, List.append_eq, ih, List.append_assoc]

theorem mem_flatChunks (x : Bytes × Bytes) :
    ∀ (l : List ((Bytes × Bytes) × List (Bytes × Bytes))),
    x ∈ flatChunks l → ∃ e ∈ l, x ∈ e.2 := by
  intro l
  induction l with
  | nil => intro h; cases h
  | cons e r ih =>
    intro h
    rcases List.mem_append.mp h with h2 | h2
    · exact ⟨e, List.mem_cons_self e r, h2⟩
    · obtain ⟨e2, he2, hx2⟩ := ih h2
      exact ⟨e2, List.mem_cons_of_mem _ he2, hx2⟩

theorem dropWhile_map_fst (p : Bytes × Bytes → Bool)
    (l : List ((Bytes × Bytes) × List (Bytes × Bytes))) :
    (l.map Prod.fst).dropWhile p = (l.dropWhile (fun e => p e.1)).map Prod.fst := by
  induction l with
  | nil => rfl
  | cons e r ih =>
    rw [List.map_cons, List.dropWhile_cons, List.dropWhile_cons]
    cases hp : p e.1
    · simp only [Bool.false_eq_true, if_false, List.map_cons]
    · simp only [if_true, ih]

theorem mem_takeWhile_prop {α : Type} (p : α → Bool) :
    ∀ (l : List α) (x : α), x ∈ l.takeWhile p → p x = true := by
  intro l
  induction l with
  | nil => intro x h; cases h
  | cons e r ih =>
    intro x h
    rw [List.takeWhile_cons] at h
    cases hp : p e
    · rw [hp] at h
      simp only [Bool.false_eq_true, if_false] at h
      cases h
    · rw [hp] at h
      simp only [if_true] at h
      rcases List.mem_cons.mp h with h2 | h2
      · rw [h2]
        exact hp
      · exact ih x h2

theorem tableGet_spec (rd : PlfsIoReader) (key : Bytes) (th : TableHandle) (dst : Bytes)
    (rI : Nat) (pairs : List ((Bytes × Bytes) × List (Bytes × Bytes)))
    (restartsI : List Nat) (IB : Bytes)
    (hread : readBlock rd.indexSrc rd.options th.offset th.size true = (Status.ok, IB))
    (hgI : GoodBlockR rI (pairs.map Prod.fst) restartsI IB)
    (hsortedI : List.Pairwise (fun a b : Bytes × Bytes => bytesLe a.1 b.1 = true)
      (pairs.map Prod.fst))
    (hchunks : ∀ e ∈ pairs, ChunkOK rd e)
    (hglob : List.Pairwise (fun a b : Bytes × Bytes => bytesLe a.1 b.1 = true)
      (flatChunks pairs))
    (hstrict : rd.options.uniqueKeys = true →
      List.Pairwise (fun a b : Bytes × Bytes => bytesLt a.1 b.1 = true)
        (flatChunks pairs))
    (hrange : ∀ x ∈ flatChunks pairs, bytesLe th.smallestKey x.1 = true
      ∧ bytesLe x.1 th.largestKey = true)
    (hfilter : (th.filterSize != 0) = true →
      rd.keyMayMatch key ⟨th.filterOffset, th.filterSize⟩ = false →
      (flatChunks pairs).filter (fun e => e.1 == key) = []) :
    rd.tableGet key th dst =
      (Status.ok,
       dst ++ concatBytes (((flatChunks pairs).filter (fun e => e.1 == key)).map
         Prod.snd),
       !((flatChunks pairs).filter (fun e => e.1 == key)).isEmpty) := by
  unfold PlfsIoReader.tableGet
  by_cases hout : (bytesLt key th.smallestKey || bytesLt th.largestKey key) = true
  · rw [hout]
    simp only [if_true]
    have hfe : (flatChunks pairs).filter (fun e => e.1 == key) = [] := by
      apply filter_nil_of_none
      intro z hz
      simp only [Bool.or_eq_true] at hout
      cases hpz : (z.1 == key)
      · rfl
      · exfalso
        have hzk : z.1 = key := eq_of_beq hpz
        rcases hout with h | h
        · have h2 := bytesLt_of_lt_of_le key th.smallestKey z.1 h (hrange z hz).1
          rw [hzk, bytesLt_irrefl] at h2
          cases h2
        · have h2 := bytesLt_of_le_of_lt z.1 th.largestKey key (hrange z hz).2 h
          rw [hzk, bytesLt_irrefl] at h2
          cases h2
    rw [hfe]
    simp [concatBytes]
  · have hout2 : (bytesLt key th.smallestKey || bytesLt th.largestKey key) = false := by
      cases h : (bytesLt key th.smallestKey || bytesLt th.largestKey key)
      · rfl
      · exact absurd h hout
    rw [hout2]
    simp only [Bool.false_eq_true, if_false]
    by_cases hbl : ((th.filterSize != 0)
        && !(rd.keyMayMatch key ⟨th.filterOffset, th.filterSize⟩)) = true
    · rw [hbl]
      simp only [if_true]
      have hbl0 := hbl
      simp only [Bool.and_eq_true] at hbl0
      obtain ⟨hfs, hkm⟩ := hbl0
      have hkm2 : rd.keyMayMatch key ⟨th.filterOffset, th.filterSize⟩ = false := by
        cases h : rd.keyMayMatch key ⟨th.filterOffset, th.filterSize⟩
        · rfl
        · rw [h] at hkm
          cases hkm
      rw [hfilter hfs hkm2]
      simp [concatBytes]
    · have hbl2 : ((th.filterSize != 0)
          && !(rd.keyMayMatch key ⟨th.filterOffset, th.filterSize⟩)) = false := by
        cases h : ((th.filterSize != 0)
            && !(rd.keyMayMatch key ⟨th.filterOffset, th.filterSize⟩))
        · rfl
        · exact absurd h hbl
      rw [hbl2]
      simp only [Bool.false_eq_true, if_false]
      rw [hread]
      simp only [Status.isOk, Bool.not_true, Bool.false_eq_true, if_false]
      have hBlen := goodBlockR_length rI (pairs.map Prod.fst) restartsI IB hgI
      have hlesI := encodeEntries_length_ge rI (pairs.map Prod.fst) [] 0
      have hdwmap : (pairs.map Prod.fst).dropWhile (fun e => bytesLt e.1 key)
          = (pairs.dropWhile (fun e => bytesLt e.1.1 key)).map Prod.fst :=
        dropWhile_map_fst _ _
      have hskipNil : (flatChunks (pairs.takeWhile
          (fun e => bytesLt e.1.1 key))).filter (fun e => e.1 == key) = [] := by
        apply filter_nil_of_none
        intro z hz
        obtain ⟨e, hemem, hzin⟩ := mem_flatChunks z _ hz
        have hesep : bytesLt e.1.1 key = true := mem_takeWhile_prop _ _ e hemem
        have hemem2 : e ∈ pairs := (List.takeWhile_sublist _).subset hemem
        obtain ⟨bh, r2, rs, Bc, hdec1, hrd1, hg1, hsep⟩ := hchunks e hemem2
        have hzsep : bytesLe z.1 e.1.1 = true := hsep z hzin
        cases hpz : (z.1 == key)
        · rfl
        · exfalso
          have hzk : z.1 = key := eq_of_beq hpz
          have h2 := bytesLt_of_le_of_lt z.1 e.1.1 key hzsep hesep
          rw [hzk, bytesLt_irrefl] at h2
          cases h2
      have hflatsplit : flatChunks pairs
          = flatChunks (pairs.takeWhile (fun e => bytesLt e.1.1 key))
            ++ flatChunks (pairs.dropWhile (fun e => bytesLt e.1.1 key)) := by
        conv_lhs => rw [← List.takeWhile_append_dropWhile
          (fun e => bytesLt e.1.1 key) pairs]
        exact flatChunks_append _ _
      have hFsplit : (flatChunks pairs).filter (fun e => e.1 == key)
          = (flatChunks (pairs.dropWhile (fun e => bytesLt e.1.1 key))).filter
              (fun e => e.1 == key) := by
        rw [hflatsplit, List.filter_append, hskipNil, List.nil_append]
      have hglobLand : List.Pairwise (fun a b : Bytes × Bytes => bytesLe a.1 b.1 = true)
          (flatChunks (pairs.dropWhile (fun e => bytesLt e.1.1 key))) := by
        rw [hflatsplit] at hglob
        exact (List.pairwise_append.mp hglob).2.1
      have hstrictLand : rd.options.uniqueKeys = true →
          List.Pairwise (fun a b : Bytes × Bytes => bytesLt a.1 b.1 = true)
            (flatChunks (pairs.dropWhile (fun e => bytesLt e.1.1 key))) := by
        intro hu
        have h2 := hstrict hu
        rw [hflatsplit] at h2
        exact (List.pairwise_append.mp h2).2.1
      have hlmem : ∀ e ∈ pairs.dropWhile (fun e => bytesLt e.1.1 key), e ∈ pairs :=
        fun e he => (List.dropWhile_sublist _).subset he
      by_cases huniq : rd.options.uniqueKeys = true
      · rw [huniq]
        simp only [if_true]
        have hseek := seek_spec rI (pairs.map Prod.fst) restartsI IB hgI hsortedI key
        obtain ⟨hc, hro, hcor, hmatch⟩ := hseek
        rw [hdwmap] at hmatch
        cases hland : pairs.dropWhile (fun e => bytesLt e.1.1 key) with
        | nil =>
          rw [hland] at hmatch
          simp only [List.map_nil] at hmatch
          rw [tableLoop_exit rd key (IB.length + 1) (by omega) _ dst false false
            Status.ok (by rw [hmatch]; simp)]
          rw [hFsplit, hland]
          simp only [Status.isOk, if_true]
          rw [statusBI_of_not_corrupt _ hcor]
          simp [flatChunks, concatBytes]
        | cons curP restP =>
          rw [hland] at hmatch
          simp only [List.map_cons] at hmatch
          obtain ⟨hval, hkey, hvalue, hdec⟩ := hmatch
          have hiter := iter_eq_mkIter ((blockIterInit IB).seek key) IB
            (encodeEntries rI (pairs.map Prod.fst) [] 0).length curP.1.1 curP.1.2
            true hc hro hkey hvalue hval hcor
          rw [hiter]
          have hfuel : restP.length + 1 < IB.length + 1 := by
            have h1 : (pairs.map Prod.fst).length
                = ((pairs.map Prod.fst).takeWhile (fun e => bytesLt e.1 key)).length
                  + ((pairs.map Prod.fst).dropWhile (fun e => bytesLt e.1 key)).length := by
              rw [← List.length_append, List.takeWhile_append_dropWhile]
            rw [hdwmap, hland] at h1
            simp only [List.length_map, List.length_cons] at h1 hlesI
            omega
          have hglobL2 : List.Pairwise
              (fun a b : Bytes × Bytes => bytesLe a.1 b.1 = true)
              (curP.2 ++ flatChunks restP) := by
            have h2 := hglobLand
            rw [hland] at h2
            simpa only [flatChunks] using h2
          have hstrictL2 : rd.options.uniqueKeys = true → List.Pairwise
              (fun a b : Bytes × Bytes => bytesLt a.1 b.1 = true)
              (curP.2 ++ flatChunks restP) := by
            intro hu
            have h2 := hstrictLand hu
            rw [hland] at h2
            simpa only [flatChunks] using h2
          have hmemL : ∀ e ∈ curP :: restP, e ∈ pairs := by
            intro e he
            apply hlmem
            rw [hland]
            exact he
          have htl := tableLoop_spec rd key IB
            (encodeEntries rI (pairs.map Prod.fst) [] 0).length restP
            (IB.length + 1) ((blockIterInit IB).seek key).numRestarts
            ((blockIterInit IB).seek key).pos curP dst false hfuel hdec
            (hchunks curP (hmemL curP (List.mem_cons_self curP restP)))
            (fun e he => hchunks e (hmemL e (List.mem_cons_of_mem _ he)))
            hglobL2 hstrictL2
          obtain ⟨ht1, ht2, ht3, ht4⟩ := htl
          rw [ht1, ht2, ht3]
          simp only [Status.isOk, if_true]
          rw [statusBI_of_not_corrupt _ ht4]
          rw [hFsplit, hland]
          simp [flatChunks, Bool.false_or]
      · have huniq2 : rd.options.uniqueKeys = false := by
          cases h : rd.options.uniqueKeys
          · rfl
          · exact absurd h huniq
        rw [huniq2]
        simp only [Bool.false_eq_true, if_false]
        have hseek := skipFromStart_spec rI (pairs.map Prod.fst) restartsI IB hgI key
        obtain ⟨hc, hro, hcor, hmatch⟩ := hseek
        rw [hdwmap] at hmatch
        cases hland : pairs.dropWhile (fun e => bytesLt e.1.1 key) with
        | nil =>
          rw [hland] at hmatch
          simp only [List.map_nil] at hmatch
          rw [tableLoop_exit rd key (IB.length + 1) (by omega) _ dst false false
            Status.ok (by rw [hmatch]; simp)]
          rw [hFsplit, hland]
          simp only [Status.isOk, if_true]
          rw [statusBI_of_not_corrupt _ hcor]
          simp [flatChunks, concatBytes]
        | cons curP restP =>
          rw [hland] at hmatch
          simp only [List.map_cons] at hmatch
          obtain ⟨hval, hkey, hvalue, hdec⟩ := hmatch
          have hiter := iter_eq_mkIter
            (skipLess (IB.length + 1) (blockIterInit IB).seekToFirst key) IB
            (encodeEntries rI (pairs.map Prod.fst) [] 0).length curP.1.1 curP.1.2
            true hc hro hkey hvalue hval hcor
          rw [hiter]
          have hfuel : restP.length + 1 < IB.length + 1 := by
            have h1 : (pairs.map Prod.fst).length
                = ((pairs.map Prod.fst).takeWhile (fun e => bytesLt e.1 key)).length
                  + ((pairs.map Prod.fst).dropWhile (fun e => bytesLt e.1 key)).length := by
              rw [← List.length_append, List.takeWhile_append_dropWhile]
            rw [hdwmap, hland] at h1
            simp only [List.length_map, List.length_cons] at h1 hlesI
            omega
          have hglobL2 : List.Pairwise
              (fun a b : Bytes × Bytes => bytesLe a.1 b.1 = true)
              (curP.2 ++ flatChunks restP) := by
            have h2 := hglobLand
            rw [hland] at h2
            simpa only [flatChunks] using h2
          have hstrictL2 : rd.options.uniqueKeys = true → List.Pairwise
              (fun a b : Bytes × Bytes => bytesLt a.1 b.1 = true)
              (curP.2 ++ flatChunks restP) := by
            intro hu
            have h2 := hstrictLand hu
            rw [hland] at h2
            simpa only [flatChunks] using h2
          have hmemL : ∀ e ∈ curP :: restP, e ∈ pairs := by
            intro e he
            apply hlmem
            rw [hland]
            exact he
          have htl := tableLoop_spec rd key IB
            (encodeEntries rI (pairs.map Prod.fst) [] 0).length restP
            (IB.length + 1)
            (skipLess (IB.length + 1) (blockIterInit IB).seekToFirst key).numRestarts
            (skipLess (IB.length + 1) (blockIterInit IB).seekToFirst key).pos
            curP dst false hfuel hdec
            (hchunks curP (hmemL curP (List.mem_cons_self curP restP)))
            (fun e he => hchunks e (hmemL e (List.mem_cons_of_mem _ he)))
            hglobL2 hstrictL2
          obtain ⟨ht1, ht2, ht3, ht4⟩ := htl
          rw [ht1, ht2, ht3]
          simp only [Status.isOk, if_true]
          rw [statusBI_of_not_corrupt _ ht4]
          rw [hFsplit, hland]
          simp [flatChunks, Bool.false_or]

theorem stepNext_valid_irrel (c : Bytes) (ro nr p : Nat) (k v : Bytes) (b1 b2 : Bool) :
    (mkIter c ro nr p k v b1).stepNext = (mkIter c ro nr p k v b2).stepNext := by
  unfold BlockIter.stepNext mkIter
  dsimp only

theorem seekBsearch_static (c : Bytes) (ro nr p1 p2 : Nat) (k1 v1 k2 v2 : Bytes)
    (b1 b2 : Bool) (target : Bytes) :
    ∀ (fuel l r : Nat),
    seekBsearch (mkIter c ro nr p1 k1 v1 b1) target fuel l r
      = seekBsearch (mkIter c ro nr p2 k2 v2 b2) target fuel l r := by
  intro fuel
  induction fuel with
  | zero => intro l r; rfl
  | succ f ih =>
    intro l r
    unfold seekBsearch
    by_cases h : l < r
    · rw [if_pos h]
      rw [if_pos h]
      dsimp only
      have hk : (mkIter c ro nr p1 k1 v1 b1).keyAtRestart ((l + r + 1) / 2)
          = (mkIter c ro nr p2 k2 v2 b2).keyAtRestart ((l + r + 1) / 2) := rfl
      rw [hk]
      cases hkr : (mkIter c ro nr p2 k2 v2 b2).keyAtRestart ((l + r + 1) / 2) with
      | none => rfl
      | some midKey =>
        dsimp only
        by_cases hlt : bytesLt midKey target = true
        · rw [if_pos hlt, if_pos hlt]
          exact ih _ _
        · rw [if_neg hlt, if_neg hlt]
          exact ih _ _
    · rw [if_neg h]
      rw [if_neg h]

theorem seekLinear_succ_congr (f : Nat) (s1 s2 : BlockIter) (target : Bytes)
    (h : s1.stepNext = s2.stepNext) :
    seekLinear (f + 1) s1 target = seekLinear (f + 1) s2 target := by
  unfold seekLinear
  rw [h]

theorem seek_static (c : Bytes) (ro nr p1 p2 : Nat) (k1 v1 k2 v2 : Bytes)
    (b1 b2 : Bool) (target : Bytes)
    (hcor : ((mkIter c ro nr p2 k2 v2 b2).seek target).corrupt = false) :
    (mkIter c ro nr p1 k1 v1 b1).seek target
      = (mkIter c ro nr p2 k2 v2 b2).seek target := by
  unfold BlockIter.seek at hcor ⊢
  simp only [mkIter_numRestarts] at hcor ⊢
  by_cases h0 : (nr == 0) = true
  · rw [if_pos h0] at hcor
    simp [mkIter] at hcor
  · rw [if_neg h0] at hcor
    rw [if_neg h0]
    rw [if_neg h0]
    have hbs := seekBsearch_static c ro nr p1 p2 k1 v1 k2 v2 b1 b2 target (nr + 1)
      0 (nr - 1)
    simp only [hbs]
    by_cases hb2 : (seekBsearch (mkIter c ro nr p2 k2 v2 b2) target (nr + 1)
        0 (nr - 1)).2 = true
    · simp only [hb2, if_true] at hcor
      simp [mkIter] at hcor
    · simp only [hb2, Bool.false_eq_true, if_false] at hcor ⊢
      exact seekLinear_succ_congr ro _ _ target
        (stepNext_valid_irrel c ro nr _ [] [] b1 b2)

theorem byteCompare_append_same : ∀ (a x y : Bytes),
    byteCompare (a ++ x) (a ++ y) = byteCompare x y := by
  intro a x y
  induction a with
  | nil => rfl
  | cons h t ih =>
    simp only [List.cons_append, byteCompare, lt_irrefl, if_false, List.append_eq, ih]

theorem byteCompare_append_lt : ∀ (x y u v : Bytes), x.length = y.length →
    byteCompare x y = .lt → byteCompare (x ++ u) (y ++ v) = .lt := by
  intro x
  induction x with
  | nil =>
    intro y u v hl hc
    cases y with
    | nil => cases hc
    | cons b bs => simp at hl
  | cons a as ih =>
    intro y u v hl hc
    cases y with
    | nil => simp at hl
    | cons b bs =>
      simp only [List.length_cons] at hl
      simp only [byteCompare] at hc
      simp only [List.cons_append, byteCompare]
      by_cases hab : a < b
      · rw [if_pos hab]
      · rw [if_neg hab] at hc ⊢
        by_cases hba : b < a
        · rw [if_pos hba] at hc
          cases hc
        · rw [if_neg hba] at hc ⊢
          exact ih bs u v (by omega) hc

theorem fixedDec4_compare_lt (n m : Nat) (hm : m ≤ 9999) (h : n < m) :
    byteCompare (fixedDec4 n) (fixedDec4 m) = .lt := by
  unfold fixedDec4
  have ha1 : n / 10 / 10 = n / 100 := by
    rw [Nat.div_div_eq_div_mul]
  have ha2 : n / 100 / 10 = n / 1000 := by
    rw [Nat.div_div_eq_div_mul]
  have hb1 : m / 10 / 10 = m / 100 := by
    rw [Nat.div_div_eq_div_mul]
  have hb2 : m / 100 / 10 = m / 1000 := by
    rw [Nat.div_div_eq_div_mul]
  have d1n : n / 1000 % 10 = n / 1000 := by omega
  have d1m : m / 1000 % 10 = m / 1000 := by omega
  rw [d1n, d1m]
  by_cases h1 : n / 1000 < m / 1000
  · simp only [byteCompare]
    rw [if_pos (by omega : 48 + n / 1000 < 48 + m / 1000)]
  · have e1 : n / 1000 = m / 1000 := by omega
    rw [e1]
    simp only [byteCompare]
    rw [if_neg (by omega : ¬ 48 + m / 1000 < 48 + m / 1000)]
    rw [if_neg (by omega : ¬ 48 + m / 1000 < 48 + m / 1000)]
    by_cases h2 : n / 100 % 10 < m / 100 % 10
    · rw [if_pos (by omega : 48 + n / 100 % 10 < 48 + m / 100 % 10)]
    · have e2 : n / 100 % 10 = m / 100 % 10 := by omega
      rw [e2]
      rw [if_neg (by omega : ¬ 48 + m / 100 % 10 < 48 + m / 100 % 10)]
      rw [if_neg (by omega : ¬ 48 + m / 100 % 10 < 48 + m / 100 % 10)]
      by_cases h3 : n / 10 % 10 < m / 10 % 10
      · rw [if_pos (by omega : 48 + n / 10 % 10 < 48 + m / 10 % 10)]
      · have e3 : n / 10 % 10 = m / 10 % 10 := by omega
        rw [e3]
        rw [if_neg (by omega : ¬ 48 + m / 10 % 10 < 48 + m / 10 % 10)]
        rw [if_neg (by omega : ¬ 48 + m / 10 % 10 < 48 + m / 10 % 10)]
        rw [if_pos (by omega : 48 + n % 10 < 48 + m % 10)]

theorem fixedDec4_length (n : Nat) : (fixedDec4 n).length = 4 := rfl

theorem epochKey_lt_table (e t1 t2 : Nat) (ht : t1 < t2) (h2 : t2 ≤ 9999) :
    bytesLt (epochKey e t1) (epochKey e t2) = true := by
  unfold epochKey bytesLt
  rw [List.append_assoc, List.append_assoc, byteCompare_append_same]
  rw [byteCompare_append_same]
  rw [fixedDec4_compare_lt t1 t2 h2 ht]
  rfl

theorem epochKey_lt_epoch (e1 e2 t1 t2 : Nat) (he : e1 < e2) (h2 : e2 ≤ 9999) :
    bytesLt (epochKey e1 t1) (epochKey e2 t2) = true := by
  unfold epochKey bytesLt
  rw [List.append_assoc, List.append_assoc]
  rw [byteCompare_append_lt (fixedDec4 e1) (fixedDec4 e2) ([45] ++ fixedDec4 t1)
    ([45] ++ fixedDec4 t2) rfl (fixedDec4_compare_lt e1 e2 h2 he)]
  rfl

theorem bytesLt_asymm (a b : Bytes) (h : bytesLt a b = true) : bytesLt b a = false := by
  rw [bytesLt_eq_not_le]
  rw [bytesLe_of_lt a b h]
  rfl

theorem beq_false_of_bytesLt (a b : Bytes) (h : bytesLt a b = true) :
    (a == b) = false ∧ (b == a) = false := by
  constructor
  · cases hq : (a == b)
    · rfl
    · have : a = b := eq_of_beq hq
      rw [this, bytesLt_irrefl] at h
      cases h
  · cases hq : (b == a)
    · rfl
    · have : b = a := eq_of_beq hq
      rw [this] at h
      rw [bytesLt_irrefl] at h
      cases h

/-- The run of epoch-index entries for the tables `rt` of `epoch`,
numbered from `t`. -/
def runOf (epoch : Nat) : Nat → List (TableHandle × List (Bytes × Bytes)) →
    List (Bytes × Bytes)
  | _, [] => []
  | t, e :: r => (epochKey epoch t, e.1.encodeTo) :: runOf epoch (t + 1) r

theorem runOf_length (epoch : Nat) :
    ∀ (rt : List (TableHandle × List (Bytes × Bytes))) (t : Nat),
    (runOf epoch t rt).length = rt.length := by
  intro rt
  induction rt with
  | nil => intro t; rfl
  | cons e r ih =>
    intro t
    simp only [runOf, List.length_cons, ih]

theorem runOf_mem (epoch : Nat) :
    ∀ (rt : List (TableHandle × List (Bytes × Bytes))) (t : Nat)
      (kv : Bytes × Bytes), kv ∈ runOf epoch t rt →
    ∃ j, t ≤ j ∧ j < t + rt.length ∧ kv.1 = epochKey epoch j := by
  intro rt
  induction rt with
  | nil => intro t kv h; cases h
  | cons e r ih =>
    intro t kv h
    rcases List.mem_cons.mp h with h2 | h2
    · exact ⟨t, le_refl t, by simp, by rw [h2]⟩
    · obtain ⟨j, hj1, hj2, hj3⟩ := ih (t + 1) kv h2
      exact ⟨j, by omega, by simp only [List.length_cons]; omega, hj3⟩

/-- Field bounds under which a `TableHandle` decodes back. -/
def THBound (th : TableHandle) : Prop :=
  th.smallestKey.length < 2 ^ 63 ∧ th.largestKey.length < 2 ^ 63 ∧
  th.filterOffset < 2 ^ 63 ∧ th.filterSize < 2 ^ 63 ∧
  th.offset < 2 ^ 63 ∧ th.size < 2 ^ 63

/-- A well-formed on-log table: the handle decodes, its index block holds
sorted separators over well-formed chunks whose entries `tes` are sorted,
lie inside the handle's key range, and are covered by the table's Bloom
filter. -/
def TableOK (rd : PlfsIoReader) (th : TableHandle)
    (tes : List (Bytes × Bytes)) : Prop :=
  THBound th ∧
  List.Pairwise (fun a b : Bytes × Bytes => bytesLe a.1 b.1 = true) tes ∧
  (rd.options.uniqueKeys = true →
    List.Pairwise (fun a b : Bytes × Bytes => bytesLt a.1 b.1 = true) tes) ∧
  (∀ x ∈ tes, bytesLe th.smallestKey x.1 = true ∧ bytesLe x.1 th.largestKey = true) ∧
  (∀ key : Bytes, (th.filterSize != 0) = true →
    rd.keyMayMatch key ⟨th.filterOffset, th.filterSize⟩ = false →
    tes.filter (fun e => e.1 == key) = []) ∧
  ∃ rI pairs restartsI IB,
    flatChunks pairs = tes ∧
    readBlock rd.indexSrc rd.options th.offset th.size true = (Status.ok, IB) ∧
    GoodBlockR rI (pairs.map Prod.fst) restartsI IB ∧
    List.Pairwise (fun a b : Bytes × Bytes => bytesLe a.1 b.1 = true)
      (pairs.map Prod.fst) ∧
    (∀ e ∈ pairs, ChunkOK rd e)

theorem tableGet_of_tableOK (rd : PlfsIoReader) (key : Bytes) (th : TableHandle)
    (tes : List (Bytes × Bytes)) (dst : Bytes) (hok : TableOK rd th tes) :
    rd.tableGet key th dst =
      (Status.ok,
       dst ++ concatBytes ((tes.filter (fun e => e.1 == key)).map Prod.snd),
       !(tes.filter (fun e => e.1 == key)).isEmpty) := by
  obtain ⟨hb, hsort, hstrict, hrange, hfilter, rI, pairs, restartsI, IB, hflat, hread,
    hgI, hsortI, hchunks⟩ := hok
  subst hflat
  exact tableGet_spec rd key th dst rI pairs restartsI IB hread hgI hsortI hchunks
    hsort hstrict hrange (hfilter key)

/-- A sane epoch-index iterator: either invalid (at the end or freshly
constructed), or truthfully positioned on entry `i` of the block with
the remaining entries decoding from its position. -/
def IterSane (EB : Bytes) (L nr : Nat) (ments : List (Bytes × Bytes))
    (it : BlockIter) : Prop :=
  (∃ p k v, it = mkIter EB L nr p k v false) ∨
  (∃ i p, i < ments.length
    ∧ it = mkIter EB L nr p (ments.getD i ([], [])).1 (ments.getD i ([], [])).2 true
    ∧ DecodesTo EB L p (ments.getD i ([], [])).1 (ments.drop (i + 1)))

theorem sane_at_split (EB : Bytes) (L nr : Nat) (preG : List (Bytes × Bytes))
    (e : Bytes × Bytes) (tail post : List (Bytes × Bytes)) (pT : Nat)
    (hdec : DecodesTo EB L pT e.1 (tail ++ post)) :
    IterSane EB L nr (preG ++ (e :: tail) ++ post) (mkIter EB L nr pT e.1 e.2 true) := by
  right
  refine ⟨preG.length, pT, ?_, ?_, ?_⟩
  · simp only [List.append_assoc, List.length_append, List.length_cons]
    omega
  · have hg1 : ((preG ++ (e :: tail) ++ post)).getD preG.length ([], []) = e := by
      rw [List.append_assoc]
      rw [List.getD_append_right _ _ _ _ (le_refl _)]
      simp
    rw [hg1]
  · have hg1 : ((preG ++ (e :: tail) ++ post)).getD preG.length ([], []) = e := by
      rw [List.append_assoc]
      rw [List.getD_append_right _ _ _ _ (le_refl _)]
      simp
    have hg2 : (preG ++ (e :: tail) ++ post).drop (preG.length + 1) = tail ++ post := by
      rw [List.append_assoc]
      rw [List.drop_append_eq_append_drop]
      have h0 : preG.length + 1 - preG.length = 1 := by omega
      rw [List.drop_of_length_le (by omega), h0]
      simp
    rw [hg1, hg2]
    exact hdec

theorem stepNext_numRestarts (it : BlockIter) :
    it.stepNext.numRestarts = it.numRestarts := by
  unfold BlockIter.stepNext
  by_cases h : it.restartOffset ≤ it.pos
  · rw [if_pos h]
  · rw [if_neg h]
    cases hp : parseEntryAt it.contents it.restartOffset it.pos it.key with
    | none => rfl
    | some x => rfl

theorem seekLinear_numRestarts : ∀ (fuel : Nat) (it : BlockIter) (target : Bytes),
    (seekLinear fuel it target).numRestarts = it.numRestarts := by
  intro fuel
  induction fuel with
  | zero => intro it target; rfl
  | succ f ih =>
    intro it target
    unfold seekLinear
    by_cases h1 : it.stepNext.valid = true
    · simp only [h1, Bool.not_true, Bool.false_eq_true, if_false]
      by_cases h2 : bytesLt it.stepNext.key target = true
      · simp only [h2, Bool.not_true, Bool.false_eq_true, if_false]
        rw [ih]
        exact stepNext_numRestarts it
      · have h2f : bytesLt it.stepNext.key target = false := by
          cases h : bytesLt it.stepNext.key target
          · rfl
          · exact absurd h h2
        simp only [h2f, Bool.not_false, if_true]
        exact stepNext_numRestarts it
    · have h1f : it.stepNext.valid = false := by
        cases h : it.stepNext.valid
        · rfl
        · exact absurd h h1
      simp only [h1f, Bool.not_false, if_true]
      exact stepNext_numRestarts it

theorem seek_numRestarts (it : BlockIter) (target : Bytes) :
    (it.seek target).numRestarts = it.numRestarts := by
  unfold BlockIter.seek
  by_cases h0 : (it.numRestarts == 0) = true
  · rw [if_pos h0]
  · rw [if_neg h0]
    by_cases hb : (seekBsearch it target (it.numRestarts + 1) 0
        (it.numRestarts - 1)).2 = true
    · simp only [hb, if_true]
    · simp only [hb, Bool.false_eq_true, if_false]
      rw [seekLinear_numRestarts]

theorem getD_mem_of_lt {α : Type} (l : List α) (i : Nat) (d : α) (h : i < l.length) :
    l.getD i d ∈ l := by
  rw [List.getD_eq_getElem l d h]
  exact List.getElem_mem h

theorem seek_canon (rM : Nat) (ments : List (Bytes × Bytes)) (restartsM : List Nat)
    (EB : Bytes) (hg : GoodBlockR rM ments restartsM EB)
    (hsorted : List.Pairwise (fun a b : Bytes × Bytes => bytesLe a.1 b.1 = true) ments)
    (target : Bytes) (p : Nat) (k v : Bytes) (b : Bool) :
    (mkIter EB (encodeEntries rM ments [] 0).length restartsM.length p k v b).seek
        target
      = (blockIterInit EB).seek target := by
  rw [goodBlockR_iterInit_mk rM ments restartsM EB hg]
  apply seek_static
  have hc := (seek_spec rM ments restartsM EB hg hsorted target).2.2.1
  rw [goodBlockR_iterInit_mk rM ments restartsM EB hg] at hc
  exact hc

theorem ments_dropWhile (target : Bytes) (preG rest : List (Bytes × Bytes))
    (hpre : ∀ kv ∈ preG, bytesLt kv.1 target = true)
    (hhead : ∀ kv ∈ rest.take 1, bytesLt kv.1 target = false) :
    (preG ++ rest).dropWhile (fun e => bytesLt e.1 target) = rest := by
  rw [dropWhile_append_of_all preG rest hpre]
  cases rest with
  | nil => rfl
  | cons kv r2 =>
    rw [List.dropWhile_cons, hhead kv (by simp)]
    simp

theorem epochStep_missing (rM : Nat) (ments : List (Bytes × Bytes))
    (restartsM : List Nat) (EB : Bytes)
    (hg : GoodBlockR rM ments restartsM EB)
    (hsorted : List.Pairwise (fun a b : Bytes × Bytes => bytesLe a.1 b.1 = true) ments)
    (epoch t : Nat) (preG post : List (Bytes × Bytes))
    (hsplit : ments = preG ++ post)
    (hpre : ∀ kv ∈ preG, bytesLt kv.1 (epochKey epoch t) = true)
    (hpost : ∀ kv ∈ post, bytesLt (epochKey epoch t) kv.1 = true)
    (it : BlockIter)
    (hsane : IterSane EB (encodeEntries rM ments [] 0).length restartsM.length
      ments it) :
    ∃ it2, epochStep it (epochKey epoch t) = (it2, false)
      ∧ IterSane EB (encodeEntries rM ments [] 0).length restartsM.length ments it2
      ∧ it2.corrupt = false := by
  have hcond : (!it.valid || it.key != epochKey epoch t) = true := by
    rcases hsane with ⟨p, k, v, hit⟩ | ⟨i, p, hi, hit, hdec⟩
    · rw [hit, mkIter_valid]
      rfl
    · rw [hit, mkIter_valid, mkIter_key]
      have hmem : ments.getD i ([], []) ∈ ments := getD_mem_of_lt ments i ([], []) hi
      have hmem2 : ments.getD i ([], []) ∈ preG ++ post := by
        rw [← hsplit]
        exact hmem
      have hne : ((ments.getD i ([], [])).1 == epochKey epoch t) = false := by
        rcases List.mem_append.mp hmem2 with h2 | h2
        · exact (beq_false_of_bytesLt _ _ (hpre _ h2)).1
        · exact (beq_false_of_bytesLt _ _ (hpost _ h2)).2
      simp only [Bool.not_true, Bool.false_or, bne, hne]
      rfl
  obtain ⟨p, k, v, b, hit⟩ : ∃ p k v b, it = mkIter EB
      (encodeEntries rM ments [] 0).length restartsM.length p k v b := by
    rcases hsane with ⟨p, k, v, hit⟩ | ⟨i, p, hi, hit, hdec⟩
    · exact ⟨p, k, v, false, hit⟩
    · exact ⟨p, _, _, true, hit⟩
  have hcanon := seek_canon rM ments restartsM EB hg hsorted (epochKey epoch t) p k v b
  obtain ⟨hc, hro, hcor, hmatch⟩ := seek_spec rM ments restartsM EB hg hsorted
    (epochKey epoch t)
  have hnr : ((blockIterInit EB).seek (epochKey epoch t)).numRestarts
      = restartsM.length := by
    rw [seek_numRestarts, goodBlockR_iterInit_mk rM ments restartsM EB hg,
      mkIter_numRestarts]
  have hdw : ments.dropWhile (fun e => bytesLt e.1 (epochKey epoch t)) = post := by
    rw [hsplit]
    apply ments_dropWhile _ _ _ hpre
    intro kv hkv
    have hmem : kv ∈ post := by
      cases hp2 : post with
      | nil =>
        rw [hp2] at hkv
        cases hkv
      | cons a r =>
        rw [hp2] at hkv
        simp only [List.take_succ_cons, List.take_zero] at hkv
        rcases List.mem_cons.mp hkv with h2 | h2
        · rw [h2]
          exact List.mem_cons_self a r
        · cases h2
    exact bytesLt_asymm _ _ (hpost kv hmem)
  rw [hdw] at hmatch
  unfold epochStep
  rw [hcond]
  simp only [if_true]
  rw [hit, hcanon]
  cases hp2 : post with
  | nil =>
    rw [hp2] at hmatch
    simp only [hmatch, Bool.not_false, if_true]
    refine ⟨(blockIterInit EB).seek (epochKey epoch t), rfl, ?_, hcor⟩
    left
    have hform := iter_eq_mkIter ((blockIterInit EB).seek (epochKey epoch t)) EB
      (encodeEntries rM ments [] 0).length
      ((blockIterInit EB).seek (epochKey epoch t)).key
      ((blockIterInit EB).seek (epochKey epoch t)).value false hc hro rfl rfl
      hmatch hcor
    rw [hnr] at hform
    exact ⟨((blockIterInit EB).seek (epochKey epoch t)).pos,
      ((blockIterInit EB).seek (epochKey epoch t)).key,
      ((blockIterInit EB).seek (epochKey epoch t)).value, hform⟩
  | cons kv post2 =>
    rw [hp2] at hmatch
    obtain ⟨hval, hkey, hvalue, hdec⟩ := hmatch
    simp only [hval, Bool.not_true, Bool.false_eq_true, if_false]
    have hkne : (((blockIterInit EB).seek (epochKey epoch t)).key
        != epochKey epoch t) = true := by
      rw [hkey]
      have hlt := hpost kv (by rw [hp2]; exact List.mem_cons_self kv post2)
      simp only [bne, (beq_false_of_bytesLt _ _ hlt).2]
      rfl
    rw [hkne]
    simp only [if_true]
    refine ⟨(blockIterInit EB).seek (epochKey epoch t), rfl, ?_, hcor⟩
    have hform := iter_eq_mkIter ((blockIterInit EB).seek (epochKey epoch t)) EB
      (encodeEntries rM ments [] 0).length kv.1 kv.2 true hc hro hkey hvalue
      hval hcor
    rw [hnr] at hform
    rw [hform]
    have hsplit2 : ments = preG ++ (kv :: post2) ++ [] := by
      rw [hsplit, hp2, List.append_nil]
    have hdec2 : DecodesTo EB (encodeEntries rM ments [] 0).length
        ((blockIterInit EB).seek (epochKey epoch t)).pos kv.1 (post2 ++ []) := by
      rw [List.append_nil]
      exact hdec
    have hsane2 := sane_at_split EB (encodeEntries rM ments [] 0).length
      restartsM.length preG kv post2 []
      ((blockIterInit EB).seek (epochKey epoch t)).pos hdec2
    rw [← hsplit2] at hsane2
    exact hsane2

theorem epochStep_found (rM : Nat) (ments : List (Bytes × Bytes))
    (restartsM : List Nat) (EB : Bytes)
    (hg : GoodBlockR rM ments restartsM EB)
    (hsorted : List.Pairwise (fun a b : Bytes × Bytes => bytesLe a.1 b.1 = true) ments)
    (epoch t : Nat) (preG post : List (Bytes × Bytes))
    (th : TableHandle) (tes : List (Bytes × Bytes))
    (rt2 : List (TableHandle × List (Bytes × Bytes)))
    (hsplit : ments = preG ++ runOf epoch t ((th, tes) :: rt2) ++ post)
    (hpre : ∀ kv ∈ preG, bytesLt kv.1 (epochKey epoch t) = true)
    (hpost : ∀ kv ∈ post,
      bytesLt (epochKey epoch (t + (rt2.length + 1))) kv.1 = true)
    (hcap : t + rt2.length + 1 ≤ 9999)
    (it : BlockIter)
    (hsane : IterSane EB (encodeEntries rM ments [] 0).length restartsM.length
      ments it) :
    ∃ pT, epochStep it (epochKey epoch t)
        = (mkIter EB (encodeEntries rM ments [] 0).length restartsM.length pT
            (epochKey epoch t) th.encodeTo true, true)
      ∧ DecodesTo EB (encodeEntries rM ments [] 0).length pT (epochKey epoch t)
          (runOf epoch (t + 1) rt2 ++ post) := by
  have hrun : runOf epoch t ((th, tes) :: rt2)
      = (epochKey epoch t, th.encodeTo) :: runOf epoch (t + 1) rt2 := rfl
  have hsplit2 : ments = preG ++ ((epochKey epoch t, th.encodeTo)
      :: (runOf epoch (t + 1) rt2 ++ post)) := by
    rw [hsplit, hrun, List.append_assoc, List.cons_append]
  have hdw : ments.dropWhile (fun e => bytesLt e.1 (epochKey epoch t))
      = (epochKey epoch t, th.encodeTo) :: (runOf epoch (t + 1) rt2 ++ post) := by
    rw [hsplit2]
    apply ments_dropWhile _ _ _ hpre
    intro kv hkv
    simp only [List.take_succ_cons, List.take_zero] at hkv
    rcases List.mem_cons.mp hkv with h2 | h2
    · rw [h2]
      exact bytesLt_irrefl _
    · cases h2
  obtain ⟨hc, hro, hcor, hmatch⟩ := seek_spec rM ments restartsM EB hg hsorted
    (epochKey epoch t)
  rw [hdw] at hmatch
  obtain ⟨hval, hkey2, hvalue, hdecS⟩ := hmatch
  have hnr : ((blockIterInit EB).seek (epochKey epoch t)).numRestarts
      = restartsM.length := by
    rw [seek_numRestarts, goodBlockR_iterInit_mk rM ments restartsM EB hg,
      mkIter_numRestarts]
  have hform := iter_eq_mkIter ((blockIterInit EB).seek (epochKey epoch t)) EB
    (encodeEntries rM ments [] 0).length (epochKey epoch t) th.encodeTo true
    hc hro hkey2 hvalue hval hcor
  rw [hnr] at hform
  have hseekPath : ∀ (p : Nat) (k v : Bytes) (b : Bool),
      it = mkIter EB (encodeEntries rM ments [] 0).length restartsM.length p k v b →
      (!it.valid || it.key != epochKey epoch t) = true →
      ∃ pT, epochStep it (epochKey epoch t)
          = (mkIter EB (encodeEntries rM ments [] 0).length restartsM.length pT
              (epochKey epoch t) th.encodeTo true, true)
        ∧ DecodesTo EB (encodeEntries rM ments [] 0).length pT (epochKey epoch t)
            (runOf epoch (t + 1) rt2 ++ post) := by
    intro p k v b hit hcond
    unfold epochStep
    rw [hcond]
    simp only [if_true]
    rw [hit, seek_canon rM ments restartsM EB hg hsorted (epochKey epoch t) p k v b]
    simp only [hval, Bool.not_true, Bool.false_eq_true, if_false]
    have hkne : (((blockIterInit EB).seek (epochKey epoch t)).key
        != epochKey epoch t) = false := by
      rw [hkey2]
      simp [bne]
    rw [hkne]
    simp only [Bool.false_eq_true, if_false]
    refine ⟨((blockIterInit EB).seek (epochKey epoch t)).pos, ?_, hdecS⟩
    rw [← hform]
  rcases hsane with ⟨p, k, v, hit⟩ | ⟨i, p, hi, hit, hdec⟩
  · exact hseekPath p k v false hit (by rw [hit, mkIter_valid]; rfl)
  · by_cases hkeq : ((ments.getD i ([], [])).1 == epochKey epoch t) = true
    · have hkeyeq : (ments.getD i ([], [])).1 = epochKey epoch t := eq_of_beq hkeq
      have hgetD : ∀ j : Nat, ments.getD j ([], [])
          = (preG ++ ((epochKey epoch t, th.encodeTo)
            :: (runOf epoch (t + 1) rt2 ++ post))).getD j ([], []) := by
        intro j
        rw [← hsplit2]
      have hlen : ments.length = preG.length + (1 + (rt2.length + post.length)) := by
        rw [hsplit2]
        simp [runOf_length]
        omega
      have hieq : i = preG.length := by
        rcases Nat.lt_trichotomy i preG.length with hlt | heq | hgt
        · exfalso
          have h2 := hgetD i
          rw [List.getD_append _ _ _ _ hlt] at h2
          have hmem : preG.getD i ([], []) ∈ preG :=
            getD_mem_of_lt preG i ([], []) hlt
          have h3 := hpre _ hmem
          rw [← h2, hkeyeq, bytesLt_irrefl] at h3
          cases h3
        · exact heq
        · exfalso
          have h2 := hgetD i
          rw [List.getD_append_right _ _ _ _ (by omega)] at h2
          have hj1 : 1 ≤ i - preG.length := by omega
          obtain ⟨j, hj⟩ : ∃ j, i - preG.length = j + 1 := ⟨i - preG.length - 1, by omega⟩
          rw [hj, List.getD_cons_succ] at h2
          by_cases hjr : j < rt2.length
          · have hjlen : j < (runOf epoch (t + 1) rt2).length := by
              rw [runOf_length]
              exact hjr
            rw [List.getD_append _ _ _ _ hjlen] at h2
            have hmem : (runOf epoch (t + 1) rt2).getD j ([], [])
                ∈ runOf epoch (t + 1) rt2 :=
              getD_mem_of_lt _ j ([], []) hjlen
            obtain ⟨j2, hj2a, hj2b, hj2c⟩ := runOf_mem epoch rt2 (t + 1) _ hmem
            have hlt2 := epochKey_lt_table epoch t j2 (by omega) (by omega)
            rw [← hj2c, ← h2, hkeyeq, bytesLt_irrefl] at hlt2
            cases hlt2
          · have hjlen : (runOf epoch (t + 1) rt2).length ≤ j := by
              rw [runOf_length]
              omega
            rw [List.getD_append_right _ _ _ _ hjlen] at h2
            have hmem : post.getD (j - (runOf epoch (t + 1) rt2).length) ([], [])
                ∈ post := by
              apply getD_mem_of_lt
              rw [runOf_length]
              omega
            have h3 := hpost _ hmem
            have hlt2 := epochKey_lt_table epoch t (t + (rt2.length + 1))
              (by omega) (by omega)
            have h4 := bytesLt_trans _ _ _ hlt2 h3
            rw [← h2, hkeyeq, bytesLt_irrefl] at h4
            cases h4
      have hentry : ments.getD i ([], []) = (epochKey epoch t, th.encodeTo) := by
        rw [hieq, hgetD preG.length, List.getD_append_right _ _ _ _ (le_refl _),
          Nat.sub_self, List.getD_cons_zero]
      have hdrop : ments.drop (i + 1) = runOf epoch (t + 1) rt2 ++ post := by
        rw [hieq, hsplit2]
        rw [List.drop_append_eq_append_drop]
        have h0 : preG.length + 1 - preG.length = 1 := by omega
        rw [List.drop_of_length_le (by omega), h0]
        simp
      have hcond : (!it.valid || it.key != epochKey epoch t) = false := by
        rw [hit, mkIter_valid, mkIter_key]
        simp only [Bool.not_true, Bool.false_or, bne, hkeq]
      refine ⟨p, ?_, ?_⟩
      · unfold epochStep
        rw [hcond]
        simp only [Bool.false_eq_true, if_false]
        rw [hit, hentry]
      · have hdec2 := hdec
        rw [hentry, hdrop] at hdec2
        exact hdec2
    · have hkeqf : ((ments.getD i ([], [])).1 == epochKey epoch t) = false := by
        cases h : ((ments.getD i ([], [])).1 == epochKey epoch t)
        · rfl
        · exact absurd h hkeq
      apply hseekPath p _ _ true hit
      rw [hit, mkIter_valid, mkIter_key]
      simp only [Bool.not_true, Bool.false_or, bne, hkeqf]
      rfl

/-- The per-table hit lists for `key` over an epoch's tables. -/
def tableFilters (key : Bytes) : List (TableHandle × List (Bytes × Bytes)) →
    List (Bytes × Bytes)
  | [] => []
  | e :: r => e.2.filter (fun x => x.1 == key) ++ tableFilters key r

theorem epochLoop_spec (rd : PlfsIoReader) (key : Bytes) (rM : Nat)
    (ments : List (Bytes × Bytes)) (restartsM : List Nat)
    (hg : GoodBlockR rM ments restartsM rd.epochIndex)
    (hsorted : List.Pairwise (fun a b : Bytes × Bytes => bytesLe a.1 b.1 = true) ments)
    (epoch : Nat) :
    ∀ (rt : List (TableHandle × List (Bytes × Bytes))) (t : Nat)
      (preG post : List (Bytes × Bytes)) (fuel : Nat) (it : BlockIter) (dst : Bytes),
    rt.length < fuel →
    ments = preG ++ runOf epoch t rt ++ post →
    (∀ kv ∈ preG, bytesLt kv.1 (epochKey epoch t) = true) →
    (∀ kv ∈ post, bytesLt (epochKey epoch (t + rt.length)) kv.1 = true) →
    t + rt.length ≤ 9999 →
    (∀ e ∈ rt, TableOK rd e.1 e.2) →
    (rd.options.uniqueKeys = true → (tableFilters key rt).length ≤ 1) →
    IterSane rd.epochIndex (encodeEntries rM ments [] 0).length restartsM.length
      ments it →
    ∃ it2,
      epochLoop rd key epoch fuel it t dst Status.ok
        = (Status.ok, dst ++ concatBytes ((tableFilters key rt).map Prod.snd), it2)
      ∧ IterSane rd.epochIndex (encodeEntries rM ments [] 0).length restartsM.length
          ments it2
      ∧ it2.corrupt = false := by
  intro rt
  induction rt with
  | nil =>
    intro t preG post fuel it dst hfuel hsplit hpre hpost hcap htok huniq hsane
    obtain ⟨f1, rfl⟩ : ∃ f, fuel = f + 1 := ⟨fuel - 1, by omega⟩
    simp only [runOf, List.append_nil] at hsplit
    simp only [List.length_nil, Nat.add_zero] at hpost
    obtain ⟨it2, hstep, hsane2, hcor2⟩ := epochStep_missing rM ments restartsM
      rd.epochIndex hg hsorted epoch t preG post hsplit hpre hpost it hsane
    unfold epochLoop
    simp only [Status.isOk, if_true]
    rw [hstep]
    refine ⟨it2, ?_, hsane2, hcor2⟩
    simp [tableFilters, concatBytes]
  | cons e rt2 ih =>
    intro t preG post fuel it dst hfuel hsplit hpre hpost hcap htok huniq hsane
    obtain ⟨f1, rfl⟩ : ∃ f, fuel = f + 1 := ⟨fuel - 1, by omega⟩
    obtain ⟨th, tes⟩ := e
    simp only [List.length_cons] at hfuel hpost hcap
    have hpost2 : ∀ kv ∈ post,
        bytesLt (epochKey epoch (t + (rt2.length + 1))) kv.1 = true := hpost
    obtain ⟨pT, hstep, hdecT⟩ := epochStep_found rM ments restartsM rd.epochIndex
      hg hsorted epoch t preG post th tes rt2 hsplit hpre hpost2 (by omega) it hsane
    have htokH := htok (th, tes) (List.mem_cons_self _ _)
    have hbound : THBound th := htokH.1
    have hdecode : TableHandle.decodeFrom th.encodeTo = some (th, []) := by
      have hrt := tableHandle_roundtrip th [] hbound.1 hbound.2.1 hbound.2.2.1
        hbound.2.2.2.1 hbound.2.2.2.2.1 hbound.2.2.2.2.2
      rw [List.append_nil] at hrt
      exact hrt
    have htg := tableGet_of_tableOK rd key th tes dst htokH
    have hsplit3 : ments = preG ++ ((epochKey epoch t, th.encodeTo)
        :: runOf epoch (t + 1) rt2) ++ post := hsplit
    unfold epochLoop
    simp only [Status.isOk, if_true]
    rw [hstep]
    simp only [Bool.not_true, Bool.false_eq_true, if_false, mkIter_value]
    rw [hdecode]
    simp only [htg]
    by_cases hstop : (rd.options.uniqueKeys
        && !(tes.filter (fun x => x.1 == key)).isEmpty) = true
    · have hstop0 := hstop
      simp only [Bool.and_eq_true] at hstop0
      obtain ⟨hu, hfound⟩ := hstop0
      have hcondU : (true && !(tes.filter (fun x => x.1 == key)).isEmpty
          && rd.options.uniqueKeys) = true := by
        simp only [Bool.true_and, hu, Bool.and_true]
        cases h : (tes.filter (fun x => x.1 == key)).isEmpty
        · rfl
        · rw [h] at hfound
          cases hfound
      rw [hcondU]
      simp only [if_true]
      have hrest : tableFilters key rt2 = [] := by
        have hlen := huniq hu
        simp only [tableFilters, List.length_append] at hlen
        have hne : 1 ≤ (tes.filter (fun x => x.1 == key)).length := by
          cases hfc : tes.filter (fun x => x.1 == key) with
          | nil =>
            rw [hfc] at hfound
            cases hfound
          | cons a r => simp [hfc]
        have : (tableFilters key rt2).length = 0 := by omega
        exact List.eq_nil_of_length_eq_zero this
      have hsane3 : IterSane rd.epochIndex (encodeEntries rM ments [] 0).length
          restartsM.length ments
          (mkIter rd.epochIndex (encodeEntries rM ments [] 0).length
            restartsM.length pT (epochKey epoch t) th.encodeTo true) := by
        have hs := sane_at_split rd.epochIndex (encodeEntries rM ments [] 0).length
          restartsM.length preG (epochKey epoch t, th.encodeTo)
          (runOf epoch (t + 1) rt2) post pT hdecT
        rw [← hsplit3] at hs
        exact hs
      refine ⟨_, ?_, hsane3, mkIter_corrupt _ _ _ _ _ _ _⟩
      simp only [tableFilters, hrest, List.append_nil]
    · have hstopf : (true && !(tes.filter (fun x => x.1 == key)).isEmpty
          && rd.options.uniqueKeys) = false := by
        cases hu : rd.options.uniqueKeys
        · simp
        · cases hf : (tes.filter (fun x => x.1 == key)).isEmpty
          · exfalso
            apply hstop
            rw [hu, hf]
            rfl
          · simp [hf]
      rw [hstopf]
      simp only [Bool.false_eq_true, if_false]
      -- next iterator sanity
      have hstepN : ∃ itN, (mkIter rd.epochIndex
          (encodeEntries rM ments [] 0).length restartsM.length pT
          (epochKey epoch t) th.encodeTo true).stepNext = itN
          ∧ IterSane rd.epochIndex (encodeEntries rM ments [] 0).length
              restartsM.length ments itN := by
        cases hS : runOf epoch (t + 1) rt2 ++ post with
        | nil =>
          rw [hS] at hdecT
          unfold DecodesTo at hdecT
          refine ⟨_, rfl, ?_⟩
          left
          have hstep2 : (mkIter rd.epochIndex (encodeEntries rM ments [] 0).length
              restartsM.length pT (epochKey epoch t) th.encodeTo true).stepNext
              = mkIter rd.epochIndex (encodeEntries rM ments [] 0).length
                restartsM.length pT (epochKey epoch t) th.encodeTo false := by
            unfold BlockIter.stepNext mkIter
            subst hdecT
            simp
          exact ⟨pT, epochKey epoch t, th.encodeTo, hstep2⟩
        | cons nx S2 =>
          rw [hS] at hdecT
          unfold DecodesTo at hdecT
          obtain ⟨nxt, hparse, hdec2⟩ := hdecT
          have hplt : pT < (encodeEntries rM ments [] 0).length :=
            parseEntry_some_lt _ _ _ _ _ hparse
          have hstep2 : (mkIter rd.epochIndex (encodeEntries rM ments [] 0).length
              restartsM.length pT (epochKey epoch t) th.encodeTo true).stepNext
              = mkIter rd.epochIndex (encodeEntries rM ments [] 0).length
                restartsM.length nxt nx.1 nx.2 true := by
            unfold BlockIter.stepNext mkIter
            simp only [if_neg (show ¬ (encodeEntries rM ments [] 0).length ≤ pT
              by omega)]
            rw [hparse]
          refine ⟨_, hstep2, ?_⟩
          have hsplit4 : ments = (preG ++ [(epochKey epoch t, th.encodeTo)])
              ++ (nx :: S2) ++ [] := by
            rw [hsplit3]
            simp only [List.append_nil, List.append_assoc, List.cons_append,
              List.nil_append]
            rw [hS]
          have hdec3 : DecodesTo rd.epochIndex (encodeEntries rM ments [] 0).length
              nxt nx.1 (S2 ++ []) := by
            rw [List.append_nil]
            exact hdec2
          have hs := sane_at_split rd.epochIndex (encodeEntries rM ments [] 0).length
            restartsM.length (preG ++ [(epochKey epoch t, th.encodeTo)]) nx S2 []
            nxt hdec3
          rw [← hsplit4] at hs
          exact hs
      obtain ⟨itN, hstepN2, hsaneN⟩ := hstepN
      rw [hstepN2]
      have hih := ih (t + 1) (preG ++ [(epochKey epoch t, th.encodeTo)]) post f1 itN
        (dst ++ concatBytes ((tes.filter (fun x => x.1 == key)).map Prod.snd))
        (by omega)
        (by
          rw [hsplit3]
          simp only [List.append_assoc, List.cons_append, List.nil_append])
        (by
          intro kv hkv
          rcases List.mem_append.mp hkv with h2 | h2
          · exact bytesLt_trans _ _ _ (hpre kv h2)
              (epochKey_lt_table epoch t (t + 1) (by omega) (by omega))
          · rcases List.mem_cons.mp h2 with h3 | h3
            · rw [h3]
              exact epochKey_lt_table epoch t (t + 1) (by omega) (by omega)
            · cases h3)
        (by
          intro kv hkv
          have h2 := hpost kv hkv
          have heq : t + (rt2.length + 1) = t + 1 + rt2.length := by omega
          rw [heq] at h2
          exact h2)
        (by omega)
        (fun e2 he2 => htok e2 (List.mem_cons_of_mem _ he2))
        (by
          intro hu
          have hlen := huniq hu
          simp only [tableFilters, List.length_append] at hlen
          omega)
        hsaneN
      obtain ⟨it4, hloop, hsane4, hcor4⟩ := hih
      refine ⟨it4, ?_, hsane4, hcor4⟩
      rw [hloop]
      simp only [tableFilters, List.map_append, concatBytes_append,
        List.append_assoc]

/-- The epoch-index entries of a whole directory: the concatenated table
runs of the epochs, numbered from `e0`. -/
def runsFrom (e0 : Nat) : List (List (TableHandle × List (Bytes × Bytes))) →
    List (Bytes × Bytes)
  | [] => []
  | ti :: rest => runOf e0 0 ti ++ runsFrom (e0 + 1) rest

/-- The per-table hit lists for `key` over all epochs, in epoch order. -/
def epochsFilters (key : Bytes) :
    List (List (TableHandle × List (Bytes × Bytes))) → List (Bytes × Bytes)
  | [] => []
  | ti :: rest => tableFilters key ti ++ epochsFilters key rest

theorem runsFrom_mem (kv : Bytes × Bytes) :
    ∀ (l : List (List (TableHandle × List (Bytes × Bytes)))) (e0 : Nat),
    kv ∈ runsFrom e0 l → ∃ j t, j < l.length ∧ kv.1 = epochKey (e0 + j) t := by
  intro l
  induction l with
  | nil => intro e0 h; cases h
  | cons ti rest ih =>
    intro e0 h
    rcases List.mem_append.mp h with h2 | h2
    · obtain ⟨j, hj1, hj2, hj3⟩ := runOf_mem e0 ti 0 kv h2
      exact ⟨0, j, by simp, by rw [hj3, Nat.add_zero]⟩
    · obtain ⟨j, t, hj, ht⟩ := ih (e0 + 1) h2
      exact ⟨j + 1, t, by simp only [List.length_cons]; omega, by
        rw [ht]
        congr 1
        omega⟩

theorem runOf_sorted (epoch : Nat) :
    ∀ (rt : List (TableHandle × List (Bytes × Bytes))) (t0 : Nat),
    t0 + rt.length ≤ 9999 →
    List.Pairwise (fun a b : Bytes × Bytes => bytesLt a.1 b.1 = true)
      (runOf epoch t0 rt) := by
  intro rt
  induction rt with
  | nil => intro t0 _; exact List.Pairwise.nil
  | cons e r ih =>
    intro t0 hcap
    simp only [List.length_cons] at hcap
    rw [runOf]
    constructor
    · intro kv hkv
      obtain ⟨j, hj1, hj2, hj3⟩ := runOf_mem epoch r (t0 + 1) kv hkv
      rw [hj3]
      exact epochKey_lt_table epoch t0 j (by omega) (by omega)
    · exact ih (t0 + 1) (by omega)

theorem runsFrom_sorted :
    ∀ (l : List (List (TableHandle × List (Bytes × Bytes)))) (e0 : Nat),
    e0 + l.length ≤ 9999 →
    (∀ ti ∈ l, ti.length ≤ 9999) →
    List.Pairwise (fun a b : Bytes × Bytes => bytesLt a.1 b.1 = true)
      (runsFrom e0 l) := by
  intro l
  induction l with
  | nil => intro e0 _ _; exact List.Pairwise.nil
  | cons ti rest ih =>
    intro e0 hcap htl
    simp only [List.length_cons] at hcap
    rw [runsFrom]
    rw [List.pairwise_append]
    refine ⟨?_, ?_, ?_⟩
    · exact runOf_sorted e0 ti 0 (by
        have := htl ti (List.mem_cons_self ti rest)
        omega)
    · exact ih (e0 + 1) (by omega) (fun t2 ht2 => htl t2 (List.mem_cons_of_mem _ ht2))
    · intro a ha b hb
      obtain ⟨j1, hj1a, hj1b, hj1c⟩ := runOf_mem e0 ti 0 a ha
      obtain ⟨j2, t2, hj2, ht2⟩ := runsFrom_mem b rest (e0 + 1) hb
      rw [hj1c, ht2]
      exact epochKey_lt_epoch e0 (e0 + 1 + j2) j1 t2 (by omega) (by omega)

theorem runsFrom_append :
    ∀ (a b : List (List (TableHandle × List (Bytes × Bytes)))) (e0 : Nat),
    runsFrom e0 (a ++ b) = runsFrom e0 a ++ runsFrom (e0 + a.length) b := by
  intro a
  induction a with
  | nil => intro b e0; simp [runsFrom]
  | cons ti rest ih =>
    intro b e0
    simp only [List.cons_append, runsFrom, List.length_cons, List.append_eq, ih,
      List.append_assoc]
    have h2 : e0 + 1 + rest.length = e0 + (rest.length + 1) := by omega
    rw [h2]

theorem getEpoch_spec (rd : PlfsIoReader) (key : Bytes) (rM : Nat)
    (ments : List (Bytes × Bytes)) (restartsM : List Nat)
    (hg : GoodBlockR rM ments restartsM rd.epochIndex)
    (hsorted : List.Pairwise (fun a b : Bytes × Bytes => bytesLe a.1 b.1 = true) ments)
    (epoch : Nat) (tinfo : List (TableHandle × List (Bytes × Bytes)))
    (preG post : List (Bytes × Bytes)) (it : BlockIter) (dst : Bytes)
    (hsplit : ments = preG ++ runOf epoch 0 tinfo ++ post)
    (hpre : ∀ kv ∈ preG, bytesLt kv.1 (epochKey epoch 0) = true)
    (hpost : ∀ kv ∈ post, bytesLt (epochKey epoch tinfo.length) kv.1 = true)
    (hcap : tinfo.length ≤ 9999)
    (htok : ∀ e ∈ tinfo, TableOK rd e.1 e.2)
    (huniq : rd.options.uniqueKeys = true → (tableFilters key tinfo).length ≤ 1)
    (hsane : IterSane rd.epochIndex (encodeEntries rM ments [] 0).length
      restartsM.length ments it) :
    ∃ it2, rd.getEpoch key epoch it dst
        = (Status.ok, dst ++ concatBytes ((tableFilters key tinfo).map Prod.snd), it2)
      ∧ IterSane rd.epochIndex (encodeEntries rM ments [] 0).length restartsM.length
          ments it2
      ∧ it2.corrupt = false := by
  have hmlen : ments.length = preG.length + (tinfo.length + post.length) := by
    rw [hsplit]
    simp [runOf_length]
  have hles := encodeEntries_length_ge rM ments [] 0
  have hBlen := goodBlockR_length rM ments restartsM rd.epochIndex hg
  have hfuel : tinfo.length < rd.epochIndex.length + 1 := by omega
  have hpost0 : ∀ kv ∈ post, bytesLt (epochKey epoch (0 + tinfo.length)) kv.1
      = true := by
    intro kv hkv
    rw [Nat.zero_add]
    exact hpost kv hkv
  obtain ⟨it2, hloop, hsane2, hcor2⟩ := epochLoop_spec rd key rM ments restartsM hg
    hsorted epoch tinfo 0 preG post (rd.epochIndex.length + 1) it dst hfuel hsplit
    hpre hpost0 (by omega) htok huniq hsane
  unfold PlfsIoReader.getEpoch
  rw [hloop]
  simp only [Status.isOk, if_true]
  rw [statusBI_of_not_corrupt _ hcor2]
  exact ⟨it2, rfl, hsane2, hcor2⟩

theorem getsLoop_spec (rd : PlfsIoReader) (key : Bytes) (rM : Nat)
    (ments : List (Bytes × Bytes)) (restartsM : List Nat)
    (hg : GoodBlockR rM ments restartsM rd.epochIndex)
    (hsorted : List.Pairwise (fun a b : Bytes × Bytes => bytesLe a.1 b.1 = true) ments)
    (hnumCap : rd.numEpoches ≤ 9999) :
    ∀ (rem preE : List (List (TableHandle × List (Bytes × Bytes))))
      (fuel : Nat) (it : BlockIter) (dst : Bytes),
    preE.length + rem.length = rd.numEpoches →
    rem ≠ [] →
    rem.length ≤ fuel →
    ments = runsFrom 0 (preE ++ rem) →
    (∀ ti ∈ preE ++ rem, ti.length ≤ 9999) →
    (∀ ti ∈ rem, ∀ e ∈ ti, TableOK rd e.1 e.2) →
    (rd.options.uniqueKeys = true →
      ∀ ti ∈ rem, (tableFilters key ti).length ≤ 1) →
    IterSane rd.epochIndex (encodeEntries rM ments [] 0).length restartsM.length
      ments it →
    ∃ it2, getsLoop rd key fuel preE.length it dst Status.ok
        = (Status.ok, dst ++ concatBytes ((epochsFilters key rem).map Prod.snd),
           it2) := by
  intro rem
  induction rem with
  | nil =>
    intro preE fuel it dst hlen hne hfuel hsplit hcaps htok huniq hsane
    exact absurd rfl hne
  | cons ti rem2 ih =>
    intro preE fuel it dst hlen hne hfuel hsplit hcaps htok huniq hsane
    obtain ⟨f1, rfl⟩ : ∃ f, fuel = f + 1 := by
      cases fuel with
      | zero => simp at hfuel
      | succ f => exact ⟨f, rfl⟩
    simp only [List.length_cons] at hlen hfuel
    have hsplit2 : ments = runsFrom 0 preE ++ runOf preE.length 0 ti
        ++ runsFrom (preE.length + 1) rem2 := by
      rw [hsplit, runsFrom_append]
      simp only [runsFrom, Nat.zero_add, List.append_assoc]
    have hpre2 : ∀ kv ∈ runsFrom 0 preE,
        bytesLt kv.1 (epochKey preE.length 0) = true := by
      intro kv hkv
      obtain ⟨j, t2, hj, ht2⟩ := runsFrom_mem kv preE 0 hkv
      rw [ht2]
      exact epochKey_lt_epoch (0 + j) preE.length t2 0 (by omega) (by omega)
    have hpost2 : ∀ kv ∈ runsFrom (preE.length + 1) rem2,
        bytesLt (epochKey preE.length ti.length) kv.1 = true := by
      intro kv hkv
      obtain ⟨j, t2, hj, ht2⟩ := runsFrom_mem kv rem2 (preE.length + 1) hkv
      rw [ht2]
      exact epochKey_lt_epoch preE.length (preE.length + 1 + j) ti.length t2
        (by omega) (by omega)
    obtain ⟨it2, hep, hsane2, hcor2⟩ := getEpoch_spec rd key rM ments restartsM hg
      hsorted preE.length ti (runsFrom 0 preE) (runsFrom (preE.length + 1) rem2)
      it dst hsplit2 hpre2 hpost2
      (by
        have := hcaps ti (by simp)
        omega)
      (fun e he => htok ti (List.mem_cons_self ti rem2) e he)
      (fun hu => huniq hu ti (List.mem_cons_self ti rem2))
      hsane
    unfold getsLoop
    simp only [Status.isOk, if_true]
    rw [hep]
    cases hrem2 : rem2 with
    | nil =>
      have hcond : ¬ (preE.length < rd.numEpoches - 1) := by
        subst hrem2
        simp only [List.length_nil] at hlen
        omega
      rw [if_neg hcond]
      refine ⟨it2, ?_⟩
      subst hrem2
      simp [epochsFilters, tableFilters, concatBytes]
    | cons ti2 rem3 =>
      have hcond : preE.length < rd.numEpoches - 1 := by
        subst hrem2
        simp only [List.length_cons] at hlen
        omega
      rw [if_pos hcond]
      have hih := ih (preE ++ [ti]) f1 it2
        (dst ++ concatBytes ((tableFilters key ti).map Prod.snd))
        (by simp only [List.length_append, List.length_cons, List.length_nil]; omega)
        (by rw [hrem2]; simp)
        (by omega)
        (by
          rw [hsplit]
          congr 1
          rw [List.append_assoc]
          simp)
        (by
          intro t2 ht2
          apply hcaps
          rcases List.mem_append.mp ht2 with h2 | h2
          · rcases List.mem_append.mp h2 with h3 | h3
            · exact List.mem_append.mpr (Or.inl h3)
            · rcases List.mem_cons.mp h3 with h4 | h4
              · rw [h4]
                exact List.mem_append.mpr (Or.inr (List.mem_cons_self _ _))
              · cases h4
          · exact List.mem_append.mpr (Or.inr (List.mem_cons_of_mem _ h2)))
        (fun t2 ht2 e he => htok t2 (List.mem_cons_of_mem _ ht2) e he)
        (fun hu t2 ht2 => huniq hu t2 (List.mem_cons_of_mem _ ht2))
        hsane2
      rw [← hrem2]
      have hplen : (preE ++ [ti]).length = preE.length + 1 := by simp
      rw [hplen] at hih
      obtain ⟨it4, hloop⟩ := hih
      rw [hrem2] at hloop
      rw [hrem2]
      rw [hloop]
      refine ⟨it4, ?_⟩
      simp only [epochsFilters, List.map_append, concatBytes_append,
        List.append_assoc]

theorem gets_spec (rd : PlfsIoReader) (key : Bytes) (dst : Bytes) (rM : Nat)
    (restartsM : List Nat)
    (epochsInfo : List (List (TableHandle × List (Bytes × Bytes))))
    (hnum : rd.numEpoches = epochsInfo.length)
    (hg : GoodBlockR rM (runsFrom 0 epochsInfo) restartsM rd.epochIndex)
    (hcapE : epochsInfo.length ≤ 9999)
    (hcapT : ∀ ti ∈ epochsInfo, ti.length ≤ 9999)
    (htok : ∀ ti ∈ epochsInfo, ∀ e ∈ ti, TableOK rd e.1 e.2)
    (huniq : rd.options.uniqueKeys = true →
      ∀ ti ∈ epochsInfo, (tableFilters key ti).length ≤ 1) :
    rd.gets key dst
      = (Status.ok,
         dst ++ concatBytes ((epochsFilters key epochsInfo).map Prod.snd)) := by
  have hsortedS : List.Pairwise (fun a b : Bytes × Bytes => bytesLt a.1 b.1 = true)
      (runsFrom 0 epochsInfo) := runsFrom_sorted epochsInfo 0 (by omega) hcapT
  have hsorted : List.Pairwise (fun a b : Bytes × Bytes => bytesLe a.1 b.1 = true)
      (runsFrom 0 epochsInfo) :=
    hsortedS.imp (fun h => bytesLe_of_lt _ _ h)
  unfold PlfsIoReader.gets
  cases hE : epochsInfo with
  | nil =>
    have h0 : (rd.numEpoches == 0) = true := by
      rw [hnum, hE]
      rfl
    rw [h0]
    simp only [if_true]
    subst hE
    simp [epochsFilters, concatBytes]
  | cons ti rest =>
    have h0 : (rd.numEpoches == 0) = false := by
      rw [hnum, hE]
      rfl
    rw [h0]
    simp only [Bool.false_eq_true, if_false]
    have hsane0 : IterSane rd.epochIndex
        (encodeEntries rM (runsFrom 0 epochsInfo) [] 0).length restartsM.length
        (runsFrom 0 epochsInfo) (blockIterInit rd.epochIndex) := by
      left
      exact ⟨0, [], [], goodBlockR_iterInit_mk rM (runsFrom 0 epochsInfo) restartsM
        rd.epochIndex hg⟩
    have hloop := getsLoop_spec rd key rM (runsFrom 0 epochsInfo) restartsM hg
      hsorted (by omega) epochsInfo [] (rd.numEpoches + 1)
      (blockIterInit rd.epochIndex) dst
      (by simp only [List.length_nil]; omega)
      (by rw [hE]; simp)
      (by omega)
      (by simp)
      (by simpa using hcapT)
      htok huniq hsane0
    obtain ⟨it2, hloop2⟩ := hloop
    simp only [List.length_nil] at hloop2
    rw [hloop2, ← hE]
